import Mathlib

/-!
# kvstore: WAL, Memtable, SSTable and compaction

A shallow embedding of the storage engine of the repository
(`internal/storage`, `internal/handler`, `cmd/server`) and the properties
its specification states about it.

Conventions of the embedding.

* A Go `string` is a `Str`, the list of its Unicode characters (the
  strings are valid UTF-8).  Go compares strings byte by byte, which on
  valid UTF-8 is the lexicographic order of the characters used here.
  The content of a file is a `Str` too.  Where the code measures a string or
  a file against a limit in bytes (the buffer of a `bufio.Scanner` or a
  `bufio.Writer`, the size of the log file) the embedding counts the bytes of
  the UTF-8 encoding (`byteLen`); the record offsets of the SSTable index
  count characters of the data file, for `Write` and for `Read` alike.
* A Go `map[string]β` is a `GoMap β`: an association list without
  duplicate keys.  Go does not specify the order in which `range`
  visits a map; every function that ranges over a map takes a
  `RangeOrder`, an arbitrary permutation of the entries.
* Locks are not modelled: every operation runs to completion under its
  lock, so the sequential reading of the code is the model.
* File-system calls succeed; the error results that the code itself
  produces (`ErrKeyNotFound`, decoding failures, reads past the end of
  the file, a line too long for a scanner) are modelled.
* The functions of the Go library that the code calls (`sort.Search`,
  `bufio.Scanner`, `bufio.Writer`, `strings.TrimSpace`, `encoding/json`
  for `map[string]string`, `strconv.ParseInt`) are embedded as far as
  the code uses them.
-/

namespace KVStore

/-- A Go `string`, as the list of its characters. -/
abbrev Str := List Char

/-! ## Go maps -/

/-- A Go `map[string]β`: the entries, no key occurring twice. -/
structure GoMap (β : Type) where
  entries : List (Str × β)
  nodup : (entries.map Prod.fst).Nodup

/-- Value stored under `k` in an association list (first match). -/
def lookup {β : Type} (k : Str) : List (Str × β) → Option β
  | [] => none
  | e :: rest => if e.1 = k then some e.2 else lookup k rest

/-- Entries of an association list whose key differs from `k`. -/
def eraseKey {β : Type} (k : Str) (l : List (Str × β)) : List (Str × β) :=
  l.filter (fun e => decide (e.1 ≠ k))

namespace GoMap

variable {β : Type}

/-- The map `make(map[string]β)`. -/
def empty : GoMap β := ⟨[], List.nodup_nil⟩

/-- The comma-ok lookup `v, ok := m[k]`. -/
def get (m : GoMap β) (k : Str) : Option β := lookup k m.entries

/-- The plain lookup `m[k]`, the zero value `d` when `k` is absent. -/
def getD (m : GoMap β) (k : Str) (d : β) : β := (m.get k).getD d

/-- The assignment `m[k] = v`. -/
def set (m : GoMap β) (k : Str) (v : β) : GoMap β :=
  ⟨(k, v) :: eraseKey k m.entries, by
    simp only [List.map_cons, List.nodup_cons]
    refine ⟨?_, m.nodup.sublist ((List.filter_sublist m.entries).map Prod.fst)⟩
    intro h
    obtain ⟨e, he, hk⟩ := List.mem_map.1 h
    have := (List.mem_filter.1 he).2
    simp [hk] at this⟩

/-- The builtin `delete(m, k)`. -/
def delete (m : GoMap β) (k : Str) : GoMap β :=
  ⟨eraseKey k m.entries, m.nodup.sublist ((List.filter_sublist m.entries).map Prod.fst)⟩

/-- The builtin `len(m)`. -/
def len (m : GoMap β) : Nat := m.entries.length

/-- The keys of the map. -/
def keys (m : GoMap β) : List Str := m.entries.map Prod.fst

end GoMap

/-- One order in which `for k, v := range m` may visit the entries of a
map: any permutation of them. -/
structure RangeOrder where
  order : {β : Type} → List (Str × β) → List (Str × β)
  perm : ∀ {β : Type} (l : List (Str × β)), (order l).Perm l

/-- The order in which the entries are stored. -/
def RangeOrder.stored : RangeOrder := ⟨fun l => l, fun l => List.Perm.refl l⟩

/-- The entries of `m` as `for k, v := range m` visits them under `ρ`. -/
def GoMap.range {β : Type} (ρ : RangeOrder) (m : GoMap β) : List (Str × β) :=
  ρ.order m.entries

/-! ## Package `sort` -/

/-- The loop of `sort.Search`: `for i < j { h := (i+j)/2; if !f(h) { i = h+1 } else { j = h } }`.
The first argument bounds the number of iterations. -/
def searchLoop (f : Nat → Bool) : Nat → Nat → Nat → Nat
  | 0, i, _ => i
  | fuel + 1, i, j =>
    if i < j then
      let h := (i + j) / 2
      if !f h then searchLoop f fuel (h + 1) j else searchLoop f fuel i h
    else i

/-- Go's `sort.Search(n, f)`: binary search over `[0, n)`; `n` iterations
always suffice. -/
def sortSearch (n : Nat) (f : Nat → Bool) : Nat := searchLoop f n 0 n

/-- Go's `sort.Strings`: the keys in increasing lexicographic order. -/
def sortStrings (l : List Str) : List Str := l.insertionSort (· ≤ ·)

/-- Go's `sort.SearchStrings(a, x)`, which is
`sort.Search(len(a), func(i) bool { return a[i] >= x })`. -/
def searchStrings (a : List Str) (x : Str) : Nat :=
  sortSearch a.length (fun i => decide (x ≤ a.getD i []))

/-! ## Text: lines and whitespace -/

/-- Go's `unicode.IsSpace`. -/
def isSpace (c : Char) : Bool :=
  c = '\t' || c = '\n' || c.toNat = 11 || c.toNat = 12 || c = '\r' || c = ' ' ||
  c.toNat = 133 || c.toNat = 160 || c.toNat = 5760 || (8192 ≤ c.toNat && c.toNat ≤ 8202) ||
  c.toNat = 8232 || c.toNat = 8233 || c.toNat = 8239 || c.toNat = 8287 || c.toNat = 12288

/-- Go's `strings.TrimSpace`. -/
def trimSpace (s : Str) : Str :=
  ((s.dropWhile isSpace).reverse.dropWhile isSpace).reverse

/-- `bufio.Reader.ReadString('\n')` on the text after the read position: the text up
to and including the first newline, `none` (`io.EOF`) when there is no newline. -/
def readLine : Str → Option Str
  | [] => none
  | c :: rest => if c = '\n' then some [c] else (readLine rest).map (fun l => c :: l)

/-- The `dropCR` of `bufio.ScanLines`: a line loses one trailing carriage return. -/
def dropCR (line : Str) : Str :=
  if line.getLast? = some '\r' then line.dropLast else line

/-- `utf8.RuneLen`: the number of bytes of the UTF-8 encoding of a character. -/
def runeLen (c : Char) : Nat :=
  if c.toNat < 128 then 1 else if c.toNat < 2048 then 2 else if c.toNat < 65536 then 3 else 4

/-- `len(s)` of a Go string, and the size of a file with that content: the number of
bytes of its UTF-8 encoding. -/
def byteLen : Str → Nat
  | [] => 0
  | c :: cs => runeLen c + byteLen cs

/-- The text of the first `n` bytes of the UTF-8 encoding of `s`.  When the cut falls
inside a character, the bytes of that character before the cut are no character: each
is rendered as the one-byte character U+001A, so that every size stays exact. -/
def takeBytes : Nat → Str → Str
  | _, [] => []
  | n, c :: cs =>
    if runeLen c ≤ n then c :: takeBytes (n - runeLen c) cs
    else List.replicate n '\x1a'

/-- The tokens `bufio.Scanner` yields with the split function `bufio.ScanLines` and the
flag of its `Err()` (`bufio.ErrTooLong`).  `acc` holds, reversed, the part of the current
line read so far.  A line of `maxTokenSize` bytes or more does not fit the scanner's
buffer: the scan stops there with the error. -/
def scanLinesAux (maxTokenSize : Nat) : Str → Str → List Str × Bool
  | [], acc =>
    if acc = [] then ([], false)
    else if maxTokenSize ≤ byteLen acc then ([], true)
    else ([dropCR acc.reverse], false)
  | c :: cs, acc =>
    if c = '\n' then
      if maxTokenSize ≤ byteLen acc then ([], true)
      else ((dropCR acc.reverse) :: (scanLinesAux maxTokenSize cs []).1,
        (scanLinesAux maxTokenSize cs []).2)
    else scanLinesAux maxTokenSize cs (c :: acc)

/-- All the lines a `bufio.Scanner` with buffer limit `maxTokenSize` yields on `data`,
and whether it stopped with an error. -/
def scanLines (maxTokenSize : Nat) (data : Str) : List Str × Bool :=
  scanLinesAux maxTokenSize data []

/-- `bufio.MaxScanTokenSize`, the buffer limit of a scanner made by `bufio.NewScanner`. -/
def MaxScanTokenSize : Nat := 64 * 1024

/-- The lines of a text, whatever their length: the parts between newlines, and the
text after the last newline when it is not empty.  `acc` holds, reversed, the part of
the current line read so far. -/
def splitLinesAux : Str → Str → List Str
  | [], acc => if acc = [] then [] else [acc.reverse]
  | c :: cs, acc =>
    if c = '\n' then acc.reverse :: splitLinesAux cs [] else splitLinesAux cs (c :: acc)

/-- The lines of a text. -/
def splitLines (text : Str) : List Str := splitLinesAux text []

/-- The text before and after the first `sep`, `none` when `sep` does not occur. -/
def cut (sep : Char) : Str → Option (Str × Str)
  | [] => none
  | c :: cs => if c = sep then some ([], cs) else (cut sep cs).map (fun p => (c :: p.1, p.2))

/-! ## Package `encoding/json`, for `map[string]string` -/

/-- A hexadecimal digit, lower case. -/
def hexDigit (n : Nat) : Char := if n < 10 then Char.ofNat (48 + n) else Char.ofNat (87 + n)

/-- How `json.Marshal` writes one character of a string (HTML escaping on). -/
def escapeChar (c : Char) : Str :=
  if c = '"' then ['\\', '"']
  else if c = '\\' then ['\\', '\\']
  else if c = '\x08' then ['\\', 'b']
  else if c = '\x0c' then ['\\', 'f']
  else if c = '\n' then ['\\', 'n']
  else if c = '\r' then ['\\', 'r']
  else if c = '\t' then ['\\', 't']
  else if c.toNat < 32 ∨ c = '<' ∨ c = '>' ∨ c = '&' ∨ c.toNat = 8232 ∨ c.toNat = 8233 then
    ['\\', 'u', hexDigit (c.toNat / 4096 % 16), hexDigit (c.toNat / 256 % 16),
      hexDigit (c.toNat / 16 % 16), hexDigit (c.toNat % 16)]
  else [c]

/-- A JSON string literal. -/
def quote (s : Str) : Str := '"' :: (s.flatMap escapeChar ++ ['"'])

/-- `json.Marshal(map[string]string{"key": key, "value": value})`: the members in the
order of their names. -/
def jsonMarshal (key value : Str) : Str :=
  "\x7b\"key\":".toList ++ quote key ++ (",\"value\":".toList ++ quote value ++ ['}'])

/-- The value of a hexadecimal digit. -/
def hexVal (c : Char) : Option Nat :=
  if 48 ≤ c.toNat ∧ c.toNat ≤ 57 then some (c.toNat - 48)
  else if 97 ≤ c.toNat ∧ c.toNat ≤ 102 then some (c.toNat - 87)
  else if 65 ≤ c.toNat ∧ c.toNat ≤ 70 then some (c.toNat - 55)
  else none

/-- The value of four hexadecimal digits. -/
def hex4 (a b c d : Char) : Option Nat :=
  match hexVal a, hexVal b, hexVal c, hexVal d with
  | some x, some y, some z, some w => some (((x * 16 + y) * 16 + z) * 16 + w)
  | _, _, _, _ => none

/-- The character a one-letter escape stands for. -/
def unescape (c : Char) : Option Char :=
  if c = '"' then some '"'
  else if c = '\\' then some '\\'
  else if c = '/' then some '/'
  else if c = 'b' then some '\x08'
  else if c = 'f' then some '\x0c'
  else if c = 'n' then some '\n'
  else if c = 'r' then some '\r'
  else if c = 't' then some '\t'
  else none

/-- Put a decoded character in front of the decoded rest. -/
def push (c : Char) (r : Option (Str × Str)) : Option (Str × Str) :=
  r.map (fun p => (c :: p.1, p.2))

/-- The low half of a surrogate pair when the text starts with its `\uXXXX` escape. -/
def lowSurrogate (s : Str) : Option Nat :=
  match s with
  | b1 :: u1 :: a1 :: a2 :: a3 :: a4 :: _ =>
    if b1 = '\\' ∧ u1 = 'u' then
      match hex4 a1 a2 a3 a4 with
      | some m => if 56320 ≤ m ∧ m < 57344 then some m else none
      | none => none
    else none
  | _ => none

/-- Decode a JSON string literal from after its opening quote: the string and the
text after the closing quote.  The first argument counts characters still to skip
(the second escape of a surrogate pair already decoded).  A lone surrogate escape
decodes to U+FFFD, as in Go. -/
def parseString : Nat → Str → Option (Str × Str)
  | _, [] => none
  | skip + 1, _ :: cs => parseString skip cs
  | 0, c :: cs =>
    if c = '"' then some ([], cs)
    else if c = '\\' then
      match cs with
      | [] => none
      | e :: cs1 =>
        if e = 'u' then
          match cs1 with
          | a :: b :: c2 :: d :: cs2 =>
            match hex4 a b c2 d with
            | none => none
            | some n =>
              if 55296 ≤ n ∧ n < 57344 then
                match lowSurrogate cs2 with
                | some m =>
                  if n < 56320 then
                    push (Char.ofNat (65536 + (n - 55296) * 1024 + (m - 56320)))
                      (parseString 6 cs2)
                  else push (Char.ofNat 65533) (parseString 0 cs2)
                | none => push (Char.ofNat 65533) (parseString 0 cs2)
              else push (Char.ofNat n) (parseString 0 cs2)
          | _ => none
        else
          match unescape e with
          | some x => push x (parseString 0 cs1)
          | none => none
    else if c.toNat < 32 then none
    else push c (parseString 0 cs)

/-- JSON white space. -/
def isJsonSpace (c : Char) : Bool := c = ' ' || c = '\t' || c = '\r' || c = '\n'

/-- Skip JSON white space. -/
def skipWs (s : Str) : Str := s.dropWhile isJsonSpace

/-- A member value that a `map[string]string` accepts: a string literal, or `null`,
which stores the empty string. -/
def parseValue (s : Str) : Option (Str × Str) :=
  match s with
  | [] => none
  | c :: cs =>
    if c = '"' then parseString 0 cs
    else if s.take 4 = "null".toList then some ([], s.drop 4)
    else none

/-- The members of a JSON object from its first member on, stored into `acc` (a
repeated name overwrites); the text after the closing brace is returned too.  The
first argument bounds the number of members. -/
def parseMembers : Nat → Str → GoMap Str → Option (GoMap Str × Str)
  | 0, _, _ => none
  | fuel + 1, s, acc =>
    match skipWs s with
    | [] => none
    | q :: s1 =>
      if q = '"' then
        match parseString 0 s1 with
        | none => none
        | some (name, s2) =>
          match skipWs s2 with
          | [] => none
          | colon :: s3 =>
            if colon = ':' then
              match parseValue (skipWs s3) with
              | none => none
              | some (value, s4) =>
                match skipWs s4 with
                | [] => none
                | d :: s5 =>
                  if d = ',' then parseMembers fuel s5 (acc.set name value)
                  else if d = '}' then some (acc.set name value, s5)
                  else none
            else none
      else none

/-- `json.Unmarshal(data, &entry)` for `var entry map[string]string`: `some` of the
decoded map when the call returns no error, `none` when it returns one.  The input
must be one JSON object whose member values are strings or `null`, or the JSON
`null` (which leaves the map nil, read like the empty map); any other input is a
syntax error or a type error. -/
def jsonUnmarshal (data : Str) : Option (GoMap Str) :=
  match skipWs data with
  | [] => none
  | c :: s1 =>
    if c = '{' then
      match skipWs s1 with
      | [] => none
      | d :: s2 =>
        if d = '}' then (if skipWs s2 = [] then some GoMap.empty else none)
        else
          match parseMembers s1.length s1 GoMap.empty with
          | some (m, rest) => if skipWs rest = [] then some m else none
          | none => none
    else if (c :: s1).take 4 = "null".toList then
      (if skipWs ((c :: s1).drop 4) = [] then some GoMap.empty else none)
    else none

/-! ## Memtable (`internal/storage/memtable.go`) -/

/-- The Memtable.  `σ` is the state the flush callback acts on (the
SSTable and the WAL in `main`, a recorder in the tests); `flushFunc` is
`none` for a nil callback. -/
structure Memtable (σ : Type) where
  data : GoMap Str
  maxEntries : Int
  flushFunc : Option (GoMap Str → σ → σ)

namespace Memtable

variable {σ : Type}

/-- `NewMemtable(maxEntries, flushFunc)`. -/
def NewMemtable (maxEntries : Int) (flushFunc : Option (GoMap Str → σ → σ)) : Memtable σ :=
  { data := GoMap.empty, maxEntries := maxEntries, flushFunc := flushFunc }

/-- `Flush`: pass the data to the callback when there is one, then reset the map. -/
def Flush (m : Memtable σ) (w : σ) : Memtable σ × σ :=
  let w1 := match m.flushFunc with
    | some f => f m.data w
    | none => w
  ({ m with data := GoMap.empty }, w1)

/-- `Set`: store the pair, then flush when `len(m.data) >= m.maxEntries`. -/
def Set (m : Memtable σ) (key value : Str) (w : σ) : Memtable σ × σ :=
  let m1 : Memtable σ := { m with data := m.data.set key value }
  if m1.maxEntries ≤ (m1.data.len : Int) then m1.Flush w else (m1, w)

/-- `Get`: the value and whether the key exists. -/
def Get (m : Memtable σ) (key : Str) : Str × Bool :=
  match m.data.get key with
  | some v => (v, true)
  | none => ([], false)

/-- `Delete`: remove the key. -/
def Delete (m : Memtable σ) (key : Str) : Memtable σ :=
  { m with data := m.data.delete key }

/-- The loop `for i := startIndex; i < len(keys) && keys[i] <= endKey; i++`
of `GetRange`, over the keys from `startIndex` on. -/
def rangeLoop (data : GoMap Str) (endKey : Str) : List Str → GoMap Str → GoMap Str
  | [], results => results
  | k :: ks, results =>
    if k ≤ endKey then rangeLoop data endKey ks (results.set k (data.getD k [])) else results

/-- `GetRange`: sort the keys, binary-search the start position, collect
while the key is at most `endKey`. -/
def GetRange (ρ : RangeOrder) (m : Memtable σ) (startKey endKey : Str) : GoMap Str :=
  let keys := sortStrings ((m.data.range ρ).map Prod.fst)
  let startIndex := sortSearch keys.length (fun i => decide (startKey ≤ keys.getD i []))
  rangeLoop m.data endKey (keys.drop startIndex) GoMap.empty

/-- `Size`: the number of keys. -/
def Size (m : Memtable σ) : Nat := m.data.len

/-- A call on a Memtable that changes it. -/
inductive MemOp where
  | set (key value : Str)
  | delete (key : Str)

/-- One call, on the Memtable and the state its callback acts on. -/
def applyOp (s : Memtable σ × σ) : MemOp → Memtable σ × σ
  | MemOp.set key value => s.1.Set key value s.2
  | MemOp.delete key => (s.1.Delete key, s.2)

/-- A sequence of calls, in order. -/
def run (s : Memtable σ × σ) (ops : List MemOp) : Memtable σ × σ :=
  ops.foldl applyOp s

/-- A flush callback that appends the data it is given to a log of calls
(the `flushRecorder` of the tests, keeping every call). -/
def recorder (data : GoMap Str) (calls : List (GoMap Str)) : List (GoMap Str) :=
  calls ++ [data]

end Memtable

/-! ## Package `strconv` and `fmt`, for the index file -/

/-- The decimal digits of a number, most significant first, in front of `acc`.  The
first argument bounds the number of digits. -/
def natDigits : Nat → Nat → Str → Str
  | 0, _, acc => acc
  | fuel + 1, n, acc =>
    if n < 10 then Char.ofNat (48 + n) :: acc
    else natDigits fuel (n / 10) (Char.ofNat (48 + n % 10) :: acc)

/-- The verb `%d` of `fmt.Sprintf` on an `int64`. -/
def formatInt (i : Int) : Str :=
  if i < 0 then '-' :: natDigits (i.natAbs + 1) i.natAbs []
  else natDigits (i.natAbs + 1) i.natAbs []

/-- The value of a run of decimal digits, continuing from `acc`; `none` on any other
character. -/
def parseDigits : Str → Nat → Option Nat
  | [], acc => some acc
  | c :: cs, acc =>
    if 48 ≤ c.toNat ∧ c.toNat ≤ 57 then parseDigits cs (acc * 10 + (c.toNat - 48)) else none

/-- `strconv.ParseInt(s, 10, 64)`: an optional sign and at least one decimal digit,
the value within the range of `int64`; `none` when the call returns an error. -/
def parseInt (s : Str) : Option Int :=
  match s with
  | [] => none
  | c :: cs =>
    if c = '-' then
      (if cs = [] then none
       else match parseDigits cs 0 with
        | some n => if n ≤ 2 ^ 63 then some (-(n : Int)) else none
        | none => none)
    else if c = '+' then
      (if cs = [] then none
       else match parseDigits cs 0 with
        | some n => if n < 2 ^ 63 then some (n : Int) else none
        | none => none)
    else
      match parseDigits (c :: cs) 0 with
      | some n => if n < 2 ^ 63 then some (n : Int) else none
      | none => none

/-! ## SSTable (`internal/storage/sstable.go`) -/

/-- The errors the storage layer returns: `ErrKeyNotFound`, or any other error (a
read past the end of the file, a record that does not decode, a closed file). -/
inductive Err where
  | keyNotFound
  | other
  deriving DecidableEq

deriving instance DecidableEq for Except

/-- The SSTable: the content of the data file, the in-memory index of `int64`
offsets, the content of the index file (`none` while it does not exist), and whether
`Close` has dropped the file handle.  The buffered writer is flushed by every
`Write` and holds nothing between calls. -/
structure SSTable where
  file : Str
  index : GoMap Int
  indexFile : Option Str
  closed : Bool

namespace SSTable

/-- The loop of `loadIndex` over the lines of the index file: a line that does not
split at `:` into two parts, or whose second part is not an `int64`, is skipped. -/
def loadLines (index : GoMap Int) : List Str → GoMap Int
  | [] => index
  | line :: rest =>
    match cut ':' line with
    | none => loadLines index rest
    | some (key, tail) =>
      if ':' ∈ tail then loadLines index rest
      else
        match parseInt tail with
        | none => loadLines index rest
        | some offset => loadLines (index.set key offset) rest

/-- `loadIndex`: `some` of the SSTable with the entries of the index file stored
into the index (unchanged when there is no index file), `none` when the scanner
reports an error. -/
def loadIndex (s : SSTable) : Option SSTable :=
  match s.indexFile with
  | none => some s
  | some text =>
    if (scanLines MaxScanTokenSize text).2 then none
    else some { s with index := loadLines s.index (scanLines MaxScanTokenSize text).1 }

/-- `NewSSTable(filePath)`, given the content of the data file and of the index file
at that path when they exist: the data file is created empty when missing. -/
def NewSSTable (file indexFile : Option Str) : Option SSTable :=
  loadIndex { file := file.getD [], index := GoMap.empty, indexFile := indexFile, closed := false }

/-- `Write`: append the JSON record and a newline at the end of the data file and
store the offset of the record in the index.  The error is the one of the seek on a
closed file. -/
def Write (s : SSTable) (key value : Str) : SSTable × Option Err :=
  if s.closed then (s, some Err.other)
  else
    ({ s with
        file := s.file ++ (jsonMarshal key value ++ ['\n'])
        index := s.index.set key (s.file.length : Int) }, none)

/-- `Read`: look the offset up, seek, read one line, decode it and return its
`"value"` member. -/
def Read (s : SSTable) (key : Str) : Except Err Str :=
  match s.index.get key with
  | none => Except.error Err.keyNotFound
  | some offset =>
    if s.closed ∨ offset < 0 then Except.error Err.other
    else
      match readLine (s.file.drop offset.toNat) with
      | none => Except.error Err.other
      | some line =>
        match jsonUnmarshal (trimSpace line) with
        | none => Except.error Err.other
        | some entry => Except.ok (entry.getD "value".toList [])

/-- The loop of `ReadRange` over `keys[startIdx : endIdx+1]`: a key whose `Read`
fails is left out. -/
def readKeys (s : SSTable) : List Str → GoMap Str → GoMap Str
  | [], results => results
  | key :: rest, results =>
    match s.Read key with
    | Except.ok value => readKeys s rest (results.set key value)
    | Except.error _ => readKeys s rest results

/-- `ReadRange`: sort the index keys, binary-search both bounds, read the keys of
`keys[startIdx : endIdx+1]`.  The nil map of the guard is the empty map. -/
def ReadRange (ρ : RangeOrder) (s : SSTable) (startKey endKey : Str) : GoMap Str :=
  let keys := sortStrings ((s.index.range ρ).map Prod.fst)
  let startIdx := searchStrings keys startKey
  let endIdx := searchStrings keys endKey
  if keys.length ≤ startIdx ∨ keys.length ≤ endIdx ∨ endIdx < startIdx then GoMap.empty
  else readKeys s ((keys.drop startIdx).take (endIdx + 1 - startIdx)) GoMap.empty

/-- `saveIndex`: rewrite the index file, one line `key:offset` per index entry. -/
def saveIndex (ρ : RangeOrder) (s : SSTable) : SSTable :=
  { s with indexFile := some ((s.index.range ρ).flatMap
      (fun e => e.1 ++ (':' :: (formatInt e.2 ++ ['\n'])))) }

/-- `Delete`: `ErrKeyNotFound` when the key is not in the index; otherwise remove it
from the index and save the index. -/
def Delete (ρ : RangeOrder) (s : SSTable) (key : Str) : SSTable × Option Err :=
  match s.index.get key with
  | none => (s, some Err.keyNotFound)
  | some _ => (saveIndex ρ { s with index := s.index.delete key }, none)

/-- `Close`: drop the file handle. -/
def Close (s : SSTable) : SSTable := { s with closed := true }

/-- A call on an SSTable that changes it. -/
inductive Op where
  | write (key value : Str)
  | delete (key : Str)

/-- One call. -/
def applyOp (ρ : RangeOrder) (s : SSTable) : Op → SSTable
  | Op.write key value => (s.Write key value).1
  | Op.delete key => (s.Delete ρ key).1

/-- A sequence of calls, in order. -/
def run (ρ : RangeOrder) (s : SSTable) (ops : List Op) : SSTable :=
  ops.foldl (applyOp ρ) s

/-- How one call changes the value last written under `key`. -/
def lastWriteStep (key : Str) (r : Option Str) : Op → Option Str
  | Op.write k v => if k = key then some v else r
  | Op.delete k => if k = key then none else r

/-- The most recent `Write` of `key` among `ops` that no `Delete` of `key` follows:
its value, `none` when there is none. -/
def lastWrite (key : Str) (ops : List Op) : Option Str :=
  ops.foldl (lastWriteStep key) none

/-- The index entry of `key` is the offset of a complete record line for `key` with
value `value`. -/
def Holds (s : SSTable) (key value : Str) : Prop :=
  ∃ pre post, s.index.get key = some (pre.length : Int) ∧
    s.file = pre ++ (jsonMarshal key value ++ '\n' :: post)

/-- The index holds exactly the keys of `r`, each at a record with the value of `r`. -/
def Agree (s : SSTable) (r : Str → Option Str) : Prop :=
  (∀ k v, r k = some v → s.Holds k v) ∧ (∀ k, r k = none → s.index.get k = none)

/-- The SSTable `NewSSTable` makes at a path where no file exists. -/
def fresh : SSTable :=
  { file := [], index := GoMap.empty, indexFile := none, closed := false }

/-- The SSTable after `Write(a, 1)` and `Write(c, 3)` on a fresh one. -/
def rangeExample : SSTable :=
  ((fresh.Write "a".toList "1".toList).1.Write "c".toList "3".toList).1

end SSTable

/-! ## Write-ahead log (`internal/storage/wal.go`) -/

/-- `WALMaxSize`: rotate the log when the file exceeds it. -/
def WALMaxSize : Nat := 10 * 1024 * 1024

/-- `BufferSize`: the size of the buffered writer, and of the initial scanner buffer. -/
def BufferSize : Nat := 64 * 1024

/-- `MaxBufferSize`: the buffer limit of the scanner of `Replay`. -/
def MaxBufferSize : Nat := 1024 * 1024

/-- The capacity of `logQueue`. -/
def logQueueSize : Nat := 1000

/-- The write-ahead log: whether `TEST_MODE` is `"true"`, the text written to the
active log file through its buffered writer (`log`), how many bytes at the end of it
the writer still holds in its buffer (`buffered`, the rest is on disk), the entries
waiting in `logQueue`, and the contents of the files that rotation has closed (oldest
first; their names and the pruning of old files are not modelled). -/
structure WAL where
  testMode : Bool
  log : Str
  buffered : Nat
  logQueue : List Str
  rotated : List Str

namespace WAL

/-- `NewWAL()`, given the content of the latest log file when there is one: the file
is opened for appending, or created empty. -/
def NewWAL (testMode : Bool) (latest : Option Str) : WAL :=
  { testMode := testMode, log := latest.getD [], buffered := 0, logQueue := [], rotated := [] }

/-- The content on disk of the active log file: the log without the bytes the writer
still holds. -/
def file (w : WAL) : Str := takeBytes (byteLen w.log - w.buffered) w.log

/-- `bufio.Writer.WriteString` on a writer over an `*os.File`, sizes in bytes: the
text goes to the buffer when it fits in what is available; a text that does not fit
goes straight to the file when the buffer is empty; else the buffer is filled and
written out, and what remains goes straight to the file when it exceeds the buffer,
to the buffer when not. -/
def writeString (w : WAL) (s : Str) : WAL :=
  if byteLen s ≤ BufferSize - w.buffered then
    { w with log := w.log ++ s, buffered := w.buffered + byteLen s }
  else if w.buffered = 0 then { w with log := w.log ++ s }
  else if BufferSize < byteLen s - (BufferSize - w.buffered) then
    { w with log := w.log ++ s, buffered := 0 }
  else { w with log := w.log ++ s, buffered := byteLen s - (BufferSize - w.buffered) }

/-- `checkRotation`: when the size of the file on disk exceeds `WALMaxSize` bytes,
flush, close the file and continue in a new, empty one. -/
def checkRotation (w : WAL) : WAL :=
  if WALMaxSize < byteLen w.log - w.buffered then
    { w with log := [], buffered := 0, rotated := w.rotated ++ [w.log] }
  else w

/-- `syncWrite`: write the entry to the buffered writer, then check for rotation. -/
def syncWrite (w : WAL) (entry : Str) : WAL :=
  checkRotation (writeString w entry)

/-- `Append`: reject an empty key or value (the flag is the returned error);
otherwise write `key:value\n` directly in test mode or when the queue is full, and
queue it for the background task else. -/
def Append (w : WAL) (key value : Str) : WAL × Bool :=
  if key = [] ∨ value = [] then (w, true)
  else if w.testMode then (w.syncWrite (key ++ (':' :: (value ++ ['\n']))), false)
  else if w.logQueue.length < logQueueSize then
    ({ w with logQueue := w.logQueue ++ [key ++ (':' :: (value ++ ['\n']))] }, false)
  else (w.syncWrite (key ++ (':' :: (value ++ ['\n']))), false)

/-- One turn of the background task `processQueue` on a queued entry: take the oldest
entry and write it. -/
def processQueue (w : WAL) : WAL :=
  match w.logQueue with
  | [] => w
  | entry :: rest => syncWrite { w with logQueue := rest } entry

/-- `Flush`: write the buffer out to the file. -/
def Flush (w : WAL) : WAL :=
  { w with buffered := 0 }

/-- `Close`: the background task handles `drained` more queued entries before it sees
the closed channel (which of its ready cases `select` takes is not determined), then
flushes and ends; what is left in the queue is never written. -/
def Close (w : WAL) (drained : Nat) : WAL :=
  Flush (Flush (Nat.iterate processQueue drained w))

/-- `processBatch`: a line without `:` is skipped; else the text before the first
`:` is the key and the text after it the value. -/
def processBatch (batch : List Str) (data : GoMap Str) : GoMap Str :=
  batch.foldl (fun d line =>
    match cut ':' line with
    | none => d
    | some (key, value) => d.set key value) data

/-- The scanning loop of `Replay`: empty lines are skipped, the others are collected
and processed in batches of 10000. -/
def replayLoop : List Str → List Str → GoMap Str → List Str × GoMap Str
  | [], tempBatch, data => (tempBatch, data)
  | line :: rest, tempBatch, data =>
    if line = [] then replayLoop rest tempBatch data
    else if 10000 ≤ (tempBatch ++ [line]).length then
      replayLoop rest [] (processBatch (tempBatch ++ [line]) data)
    else replayLoop rest (tempBatch ++ [line]) data

/-- `Replay`: scan the active file on disk line by line and rebuild the map; the flag
is the error of the scanner. -/
def Replay (w : WAL) : GoMap Str × Bool :=
  let lines := scanLines MaxBufferSize w.file
  let r := replayLoop lines.1 [] GoMap.empty
  (if 0 < r.1.length then processBatch r.1 r.2 else r.2, lines.2)

/-- A run of `Append` calls, in order, errors ignored. -/
def appendAll (w : WAL) (entries : List (Str × Str)) : WAL :=
  entries.foldl (fun w e => (w.Append e.1 e.2).1) w

/-- An entry `Replay` can give back: key and value not empty (so that `Append`
accepts them), no `:` and no newline in the key, no newline in the value and no
carriage return at its end, and the line `key:value` shorter, in bytes, than the
buffer limit of the scanner. -/
abbrev replayable (e : Str × Str) : Prop :=
  e.1 ≠ [] ∧ e.2 ≠ [] ∧ ':' ∉ e.1 ∧ '\n' ∉ e.1 ∧ '\n' ∉ e.2 ∧ e.2.getLast? ≠ some '\r' ∧
    byteLen e.1 + byteLen e.2 + 1 < MaxBufferSize

/-- The number of bytes `Append` writes for the entries. -/
def logSize (entries : List (Str × Str)) : Nat :=
  (entries.map (fun e => byteLen e.1 + byteLen e.2 + 2)).sum

/-- A step of a run of the WAL: a call of `Append`, one turn of the background task
on a queued entry, or a flush (by `Flush` or by the ticker). -/
inductive Step where
  | append (key value : Str)
  | background
  | flush

/-- One step. -/
def step (w : WAL) : Step → WAL
  | Step.append key value => (w.Append key value).1
  | Step.background => w.processQueue
  | Step.flush => w.Flush

/-- A run of steps, in order. -/
def runSteps (w : WAL) (steps : List Step) : WAL :=
  steps.foldl step w

/-- The entries the `Append` calls of a run were given, in order. -/
def appended : List Step → List (Str × Str)
  | [] => []
  | Step.append key value :: rest => (key, value) :: appended rest
  | Step.background :: rest => appended rest
  | Step.flush :: rest => appended rest

/-- The queue has room at every `Append` of the run: no `Append` falls back to writing
directly while older entries wait in the queue. -/
def queueHasRoom (w : WAL) : List Step → Prop
  | [] => True
  | Step.append key value :: rest =>
    w.logQueue.length < logQueueSize ∧ queueHasRoom (w.Append key value).1 rest
  | Step.background :: rest => queueHasRoom w.processQueue rest
  | Step.flush :: rest => queueHasRoom w.Flush rest

/-- Whether the queue has room throughout a run can be computed. -/
def decQueueHasRoom : (steps : List Step) → (w : WAL) → Decidable (queueHasRoom w steps)
  | [], _ => isTrue trivial
  | Step.append key value :: rest, w =>
    @instDecidableAnd _ _ (Nat.decLt _ _) (decQueueHasRoom rest (w.Append key value).1)
  | Step.background :: rest, w => decQueueHasRoom rest w.processQueue
  | Step.flush :: rest, w => decQueueHasRoom rest w.Flush

instance (w : WAL) (steps : List Step) : Decidable (queueHasRoom w steps) :=
  decQueueHasRoom steps w

end WAL

/-! ## Compaction (`internal/storage/compaction.go`) -/

/-- The files compaction works on: path to content. -/
abbrev FS := GoMap Str

/-- `deleteMarker`, the value of a tombstone record. -/
def deleteMarker : Str := "DELETE".toList

/-- `calculateDeletedRatio`, in tenths: `0.5` in test mode, `0.3` otherwise, whatever
the file. -/
def calculateDeletedRatio (testMode : Bool) (_sstable : Str) : Nat :=
  if testMode then 5 else 3

/-- The scanning loop of `CompactSSTables` over the lines of one candidate: a line
that does not decode is skipped, a record whose value is `DELETE` is skipped, any
other record is stored under its key. -/
def mergeLines (data : GoMap Str) : List Str → GoMap Str
  | [] => data
  | line :: rest =>
    match jsonUnmarshal line with
    | none => mergeLines data rest
    | some entry =>
      if entry.getD "value".toList [] ≠ deleteMarker then
        mergeLines (data.set (entry.getD "key".toList []) (entry.getD "value".toList [])) rest
      else mergeLines data rest

/-- The loop of `CompactSSTables` over the candidates: a file that cannot be opened is
skipped; the error of the scanner is not looked at. -/
def mergeFiles (fs : FS) (data : GoMap Str) : List Str → GoMap Str
  | [] => data
  | sstable :: rest =>
    match fs.get sstable with
    | none => mergeFiles fs data rest
    | some text => mergeFiles fs (mergeLines data (scanLines MaxScanTokenSize text).1) rest

/-- What the `json.Encoder` writes for the merged map: one record and a newline per
key. -/
def encodeData (ρ : RangeOrder) (data : GoMap Str) : Str :=
  (data.range ρ).flatMap (fun e => jsonMarshal e.1 e.2 ++ ['\n'])

/-- The candidates of `CompactSSTables`: the files whose ratio exceeds `0.1`. -/
def compactCandidates (testMode : Bool) (sstables : List Str) : List Str :=
  sstables.filter (fun sstable => decide (1 < calculateDeletedRatio testMode sstable))

/-- `CompactSSTables(sstables, compactionPath)`: with fewer than two candidates
nothing happens; else the destination is created (truncated), the candidates are
merged, the merged map is written to the destination and the candidates are removed.
The result is the file system afterwards; the returned error is always nil. -/
def CompactSSTables (testMode : Bool) (ρ : RangeOrder) (fs : FS) (sstables : List Str)
    (compactionPath : Str) : FS :=
  if (compactCandidates testMode sstables).length < 2 then fs
  else
    (compactCandidates testMode sstables).foldl (fun f sstable => f.delete sstable)
      ((fs.set compactionPath []).set compactionPath
        (encodeData ρ (mergeFiles (fs.set compactionPath []) GoMap.empty
          (compactCandidates testMode sstables))))

/-- The record a line of a data file holds, as compaction reads it: the `"key"` and
`"value"` members of the decoded object, `none` for a line that does not decode. -/
def lineRecord (line : Str) : Option (Str × Str) :=
  (jsonUnmarshal line).map (fun entry => (entry.getD "key".toList [], entry.getD "value".toList []))

/-- What the scanning loop of `CompactSSTables` reads from a data file: the lines its
scanner with the default buffer yields, which stops at a line of 64 KiB or more, each
decoded.  The records of the file, all of them, are `readRecords`. -/
def fileRecords (text : Str) : List (Str × Str) :=
  (scanLines MaxScanTokenSize text).1.filterMap lineRecord

/-- What compaction reads (`fileRecords`) from the input file at `sstable`; a file that
cannot be opened gives nothing. -/
def inputFileRecords (fs : FS) (sstable : Str) : List (Str × Str) :=
  (fs.get sstable).elim [] fileRecords

/-- What compaction reads from the input files, in input order. -/
def inputRecords (fs : FS) (sstables : List Str) : List (Str × Str) :=
  sstables.flatMap (inputFileRecords fs)

/-- The merge as the specification words it: apply every input record in input order
to an empty map, a later record replacing an earlier one and a tombstone replacing a
live record, then remove the keys whose final value is `DELETE`. -/
def specMerge (records : List (Str × Str)) : List (Str × Str) :=
  (records.foldl (fun (m : GoMap Str) r => m.set r.1 r.2) GoMap.empty).entries.filter
    (fun e => decide (e.2 ≠ deleteMarker))

/-- The records that are not tombstones. -/
def liveRecords (records : List (Str × Str)) : List (Str × Str) :=
  records.filter (fun r => decide (r.2 ≠ deleteMarker))

/-- The merge the code performs, in words: apply every record that is not a
tombstone, in input order, to an empty map, a later record replacing an earlier one. -/
def liveMerge (records : List (Str × Str)) : GoMap Str :=
  (liveRecords records).foldl (fun (m : GoMap Str) r => m.set r.1 r.2) GoMap.empty

/-- The records of a data file, all of them: every line of the file, whatever its
length and without the carriage return that may end it, that decodes. -/
def readRecords (text : Str) : List (Str × Str) :=
  ((splitLines text).map dropCR).filterMap lineRecord

/-- The records of the file at `path`; none when there is no such file. -/
def recordsAt (fs : FS) (path : Str) : List (Str × Str) :=
  (fs.get path).elim [] readRecords

/-- The records of the input files, all of them, in input order. -/
def allRecords (fs : FS) (sstables : List Str) : List (Str × Str) :=
  sstables.flatMap (recordsAt fs)

/-- The lines of the file at `path`; none when there is no such file. -/
def inputLines (fs : FS) (path : Str) : List Str :=
  (fs.get path).elim [] splitLines

/-- The file of the compaction test: `key1=value1`, `key2=value2` and the tombstone
`key3=DELETE`. -/
def compactionTestFile : Str :=
  "\x7b\"key\":\"key1\",\"value\":\"value1\"\x7d\n\x7b\"key\":\"key2\",\"value\":\"value2\"\x7d\n\x7b\"key\":\"key3\",\"value\":\"DELETE\"\x7d\n".toList

/-- The three input paths of the compaction test. -/
def compactionTestInputs : List Str :=
  ["sstable_1.db".toList, "sstable_2.db".toList, "sstable_3.db".toList]

/-- The files of the compaction test: the same content at the three paths. -/
def compactionTestFS : FS :=
  ((GoMap.empty.set "sstable_1.db".toList compactionTestFile).set
    "sstable_2.db".toList compactionTestFile).set "sstable_3.db".toList compactionTestFile

/-- A data file as `Write(a, x...x)`, with a value of 65536 characters `x`, and
`Write(b, 2)` leave it: the first line is longer than 64 KiB. -/
def longLineFile : Str :=
  jsonMarshal "a".toList (List.replicate 65536 'x') ++
    '\n' :: (jsonMarshal "b".toList "2".toList ++ ['\n'])

/-- Two input files: `longLineFile`, and a file with the record `c=3`. -/
def longLineFS : FS :=
  (GoMap.empty.set "sstable_1.db".toList longLineFile).set
    "sstable_2.db".toList (jsonMarshal "c".toList "3".toList ++ ['\n'])

/-- Two input files: a live record of `k` in the first, its tombstone in the second. -/
def tombstoneAfterLiveFS : FS :=
  (GoMap.empty.set "sstable_1.db".toList "\x7b\"key\":\"k\",\"value\":\"v\"\x7d\n".toList).set
    "sstable_2.db".toList "\x7b\"key\":\"k\",\"value\":\"DELETE\"\x7d\n".toList

/-! ## The engine (`cmd/server/main.go`, `internal/handler`) -/

/-- The three components the handlers share.  The flush callback of the Memtable
acts on the SSTable and the WAL. -/
structure Engine where
  wal : WAL
  memtable : Memtable (SSTable × WAL)
  sstable : SSTable

namespace Engine

/-- The flush callback `main` gives the Memtable: write every pair to the SSTable,
then flush the WAL. -/
def flushFunc (ρ : RangeOrder) (data : GoMap Str) (w : SSTable × WAL) : SSTable × WAL :=
  ((data.range ρ).foldl (fun s e => (s.Write e.1 e.2).1) w.1, w.2.Flush)

/-- The start of `main`, given `TEST_MODE`, `cfg.MemtableMaxEntries` and the contents
of the latest log file, the data file and the index file when they exist: open the
three components and put the replayed log into the Memtable.  `none` when `main` ends
with `log.Fatalf`. -/
def main (ρ : RangeOrder) (testMode : Bool) (maxEntries : Int)
    (walFile sstableFile indexFile : Option Str) : Option Engine :=
  match SSTable.NewSSTable sstableFile indexFile with
  | none => none
  | some sstable =>
    if (WAL.NewWAL testMode walFile).Replay.2 then none
    else
      let r := ((WAL.NewWAL testMode walFile).Replay.1.range ρ).foldl
        (fun (st : Memtable (SSTable × WAL) × (SSTable × WAL)) e => st.1.Set e.1 e.2 st.2)
        (Memtable.NewMemtable maxEntries (some (flushFunc ρ)),
          (sstable, WAL.NewWAL testMode walFile))
      some { wal := r.2.2, memtable := r.1, sstable := r.2.1 }

/-- `WriteHandler.HandleWrite` for the key of the URL and the value of the body, with
the HTTP status: append to the WAL, flush it, set in the Memtable, write to the
SSTable. -/
def HandleWrite (e : Engine) (key value : Str) : Engine × Nat :=
  if key = [] then (e, 400)
  else if (e.wal.Append key value).2 then (e, 500)
  else
    let r := e.memtable.Set key value (e.sstable, (e.wal.Append key value).1.Flush)
    ({ wal := r.2.2, memtable := r.1, sstable := (r.2.1.Write key value).1 },
      if (r.2.1.Write key value).2 = none then 201 else 500)

/-- `ReadHandler.Read`: the Memtable first, the SSTable when the key is not there. -/
def Read (e : Engine) (key : Str) : Except Err Str :=
  if (e.memtable.Get key).2 then Except.ok (e.memtable.Get key).1
  else e.sstable.Read key

/-- `DeleteHandler.Delete`: delete from the Memtable, then from the SSTable, whose
error is returned. -/
def Delete (ρ : RangeOrder) (e : Engine) (key : Str) : Engine × Option Err :=
  ({ e with memtable := e.memtable.Delete key, sstable := (e.sstable.Delete ρ key).1 },
    (e.sstable.Delete ρ key).2)

/-- `ReadHandler.ReadKeyRange`: the range of the Memtable, then the range of the
SSTable stored over it. -/
def ReadKeyRange (ρ : RangeOrder) (e : Engine) (startKey endKey : Str) : GoMap Str :=
  ((e.sstable.ReadRange ρ startKey endKey).range ρ).foldl (fun r kv => r.set kv.1 kv.2)
    (((e.memtable.GetRange ρ startKey endKey).range ρ).foldl (fun r kv => r.set kv.1 kv.2)
      GoMap.empty)

/-- The invariant of the engine against what is stored, `r`: the SSTable is open
and agrees with `r`, every pair of the Memtable is a pair of `r`, and the Memtable
flushes through `flushFunc`. -/
def Inv (ρ : RangeOrder) (e : Engine) (r : Str → Option Str) : Prop :=
  e.sstable.closed = false ∧ e.sstable.Agree r ∧
    (∀ k v, e.memtable.data.get k = some v → r k = some v) ∧
    e.memtable.flushFunc = some (flushFunc ρ)

/-- A request that changes the engine. -/
inductive Op where
  | put (key value : Str)
  | delete (key : Str)

/-- One request. -/
def applyOp (ρ : RangeOrder) (e : Engine) : Op → Engine
  | Op.put key value => (e.HandleWrite key value).1
  | Op.delete key => (e.Delete ρ key).1

/-- A sequence of requests, in order. -/
def run (ρ : RangeOrder) (e : Engine) (ops : List Op) : Engine :=
  ops.foldl (applyOp ρ) e

/-- What a sequence of requests leaves stored, request by request: a `Put` with a
non-empty key and value stores the pair, a `Delete` removes the key. -/
def stored (ops : List Op) : GoMap Str :=
  ops.foldl (fun m op =>
    match op with
    | Op.put key value => if key = [] ∨ value = [] then m else m.set key value
    | Op.delete key => m.delete key) GoMap.empty

end Engine

/-! ## Reference semantics of the Memtable -/

namespace Memtable

variable {σ : Type}

/-- The key a call acts on. -/
def MemOp.key : MemOp → Str
  | MemOp.set key _ => key
  | MemOp.delete key => key

/-- No `Set` of the run makes the Memtable flush: after the insert of each `Set` the
map holds fewer than `maxEntries` keys. -/
def noFlush (m : Memtable σ) : List MemOp → Prop
  | [] => True
  | MemOp.set key value :: rest =>
    ((m.data.set key value).len : Int) < m.maxEntries ∧
      noFlush { m with data := m.data.set key value } rest
  | MemOp.delete key :: rest => noFlush (m.Delete key) rest

/-- How one call changes what a map holds under `key`: a `Set` of `key` stores its
value, a `Delete` of `key` removes it, a call on another key changes nothing. -/
def lastSetStep (key : Str) (r : Option Str) : MemOp → Option Str
  | MemOp.set k v => if k = key then some v else r
  | MemOp.delete k => if k = key then none else r

/-- What a map that held `init` under `key` holds under it after the calls: the value
of the most recent `Set` of `key` that no `Delete` of `key` follows, `none` when the
most recent call on `key` is a `Delete`, `init` when no call is on `key`. -/
def lastSet (key : Str) (init : Option Str) (ops : List MemOp) : Option Str :=
  ops.foldl (lastSetStep key) init

end Memtable

/-! ## Fixtures of the read path and of compaction eligibility -/

/-- What a `ReadHandler` reads once `Memtable.Set(key, value)` has returned: the
Memtable after the call and the SSTable and the WAL as its flush callback left them. -/
def Engine.afterSet (m : Memtable (SSTable × WAL)) (s : SSTable) (w : WAL) (key value : Str) :
    Engine :=
  { wal := (m.Set key value (s, w)).2.2
    memtable := (m.Set key value (s, w)).1
    sstable := (m.Set key value (s, w)).2.1 }

/-- A Memtable that holds `b` over an SSTable that holds `c` only: `Set(b, 2)` on a
new Memtable without callback, `Write(c, 3)` on a new SSTable. -/
def Engine.pointRangeExample : Engine :=
  { wal := WAL.NewWAL true none
    memtable := ((Memtable.NewMemtable 1000 none).Set "b".toList "2".toList
      (SSTable.fresh, WAL.NewWAL true none)).1
    sstable := (SSTable.fresh.Write "c".toList "3".toList).1 }

/-- Two input files without tombstones and without a key written twice: the record
`a=1` in the first, `b=2` in the second. -/
def liveOnlyFS : FS :=
  (GoMap.empty.set "sstable_1.db".toList "\x7b\"key\":\"a\",\"value\":\"1\"\x7d\n".toList).set
    "sstable_2.db".toList "\x7b\"key\":\"b\",\"value\":\"2\"\x7d\n".toList

/-! ## Saving and loading the index -/

/-- The index saved with `saveIndex` and loaded again with `loadIndex` into an empty
index, as `NewSSTable` does at the next start; `none` when `loadIndex` returns an
error. -/
def SSTable.reload (ρ : RangeOrder) (s : SSTable) : Option SSTable :=
  SSTable.loadIndex { SSTable.saveIndex ρ s with index := GoMap.empty }

/-- An SSTable whose index holds one key of 65536 characters `a`, at offset 0. -/
def SSTable.longKeyExample : SSTable :=
  { file := []
    index := GoMap.empty.set (List.replicate 65536 'a') 0
    indexFile := none
    closed := false }

/-! ## Reopening and restarting -/

/-- `NewSSTable` on the path of `s`: over the data file and the index file as `s`
left them on disk. -/
def SSTable.reopen (s : SSTable) : Option SSTable :=
  SSTable.NewSSTable (some s.file) s.indexFile

/-- A restart of the server: `main` over the files the engine left on disk, the
active log file (what the buffered writer and the queue still hold is not in it),
the data file and the index file. -/
def Engine.restart (ρ : RangeOrder) (maxEntries : Int) (e : Engine) : Option Engine :=
  Engine.main ρ e.wal.testMode maxEntries (some e.wal.file) (some e.sstable.file)
    e.sstable.indexFile

/-- The server started on no files, with `TEST_MODE=true` and room for 1000 keys,
after the requests `ops`. -/
def Engine.served (ops : List Engine.Op) : Option Engine :=
  (Engine.main RangeOrder.stored true 1000 none none none).map
    (fun e => Engine.run RangeOrder.stored e ops)

/-- The server of `Engine.served`, restarted after the requests `ops`. -/
def Engine.servedRestarted (ops : List Engine.Op) : Option Engine :=
  (Engine.served ops).bind (Engine.restart RangeOrder.stored 1000)

/-- A Memtable that holds `k = new` over an SSTable that holds `k = old`: `Set(k, new)`
on a new Memtable without callback, `Write(k, old)` on a new SSTable. -/
def Engine.staleExample : Engine :=
  { wal := WAL.NewWAL true none
    memtable := ((Memtable.NewMemtable 1000 none).Set "k".toList "new".toList
      (SSTable.fresh, WAL.NewWAL true none)).1
    sstable := (SSTable.fresh.Write "k".toList "old".toList).1 }

/-! # Properties -/

/-! ## Association lists and Go maps -/

theorem lookup_cons {β : Type} (k a : Str) (b : β) (rest : List (Str × β)) :
    lookup k ((a, b) :: rest) = if a = k then some b else lookup k rest := rfl

theorem eraseKey_cons {β : Type} (k a : Str) (b : β) (rest : List (Str × β)) :
    eraseKey k ((a, b) :: rest) = if a = k then eraseKey k rest else (a, b) :: eraseKey k rest := by
  by_cases h : a = k <;> simp [eraseKey, h]

theorem lookup_eraseKey_self {β : Type} (k : Str) (l : List (Str × β)) :
    lookup k (eraseKey k l) = none := by
  induction l with
  | nil => rfl
  | cons e rest ih =>
    obtain ⟨a, b⟩ := e
    rw [eraseKey_cons]
    by_cases h : a = k
    · rw [if_pos h]; exact ih
    · rw [if_neg h, lookup_cons, if_neg h]; exact ih

theorem lookup_eraseKey_ne {β : Type} {k k' : Str} (h : k' ≠ k) (l : List (Str × β)) :
    lookup k' (eraseKey k l) = lookup k' l := by
  induction l with
  | nil => rfl
  | cons e rest ih =>
    obtain ⟨a, b⟩ := e
    rw [eraseKey_cons, lookup_cons]
    by_cases h1 : a = k
    · have h2 : a ≠ k' := fun h3 => h (h3.symm.trans h1)
      rw [if_pos h1, if_neg h2]; exact ih
    · rw [if_neg h1, lookup_cons]
      by_cases h2 : a = k'
      · rw [if_pos h2, if_pos h2]
      · rw [if_neg h2, if_neg h2]; exact ih

theorem lookup_eq_none_iff {β : Type} (k : Str) (l : List (Str × β)) :
    lookup k l = none ↔ k ∉ l.map Prod.fst := by
  induction l with
  | nil => simp [lookup]
  | cons e rest ih =>
    obtain ⟨a, b⟩ := e
    rw [lookup_cons]
    by_cases h : a = k
    · rw [if_pos h]
      constructor
      · intro h1; cases h1
      · intro h1; exact absurd (List.mem_cons.2 (Or.inl h.symm)) h1
    · have h2 : ¬ k = a := fun h3 => h h3.symm
      rw [if_neg h, ih, List.map_cons, List.mem_cons, not_or]
      exact ⟨fun h1 => ⟨h2, h1⟩, fun h1 => h1.2⟩

theorem lookup_of_mem {β : Type} {k : Str} {v : β} {l : List (Str × β)}
    (hn : (l.map Prod.fst).Nodup) (h : (k, v) ∈ l) : lookup k l = some v := by
  induction l with
  | nil => cases h
  | cons e rest ih =>
    obtain ⟨a, b⟩ := e
    simp only [List.map_cons, List.nodup_cons] at hn
    rw [lookup_cons]
    rcases List.mem_cons.1 h with h1 | h1
    · cases h1
      rw [if_pos rfl]
    · have h2 : a ≠ k := by
        intro h3
        subst h3
        exact hn.1 (List.mem_map_of_mem Prod.fst h1)
      rw [if_neg h2]; exact ih hn.2 h1

theorem mem_of_lookup {β : Type} {k : Str} {v : β} {l : List (Str × β)}
    (h : lookup k l = some v) : (k, v) ∈ l := by
  induction l with
  | nil => cases h
  | cons e rest ih =>
    obtain ⟨a, b⟩ := e
    rw [lookup_cons] at h
    by_cases h1 : a = k
    · rw [if_pos h1] at h
      cases h
      subst h1
      exact List.mem_cons_self _ _
    · rw [if_neg h1] at h
      exact List.mem_cons_of_mem _ (ih h)

namespace GoMap

variable {β : Type}

@[simp] theorem get_empty (k : Str) : (empty : GoMap β).get k = none := rfl

@[simp] theorem get_set_self (m : GoMap β) (k : Str) (v : β) : (m.set k v).get k = some v := by
  show lookup k ((k, v) :: eraseKey k m.entries) = some v
  rw [lookup_cons, if_pos rfl]

theorem get_set_ne (m : GoMap β) {k k' : Str} (v : β) (h : k' ≠ k) :
    (m.set k v).get k' = m.get k' := by
  have h2 : ¬ k = k' := fun h3 => h h3.symm
  show lookup k' ((k, v) :: eraseKey k m.entries) = lookup k' m.entries
  rw [lookup_cons, if_neg h2, lookup_eraseKey_ne h]

theorem get_set (m : GoMap β) (k k' : Str) (v : β) :
    (m.set k v).get k' = if k' = k then some v else m.get k' := by
  by_cases h : k' = k
  · subst h; simp
  · simp [h, get_set_ne m v h]

@[simp] theorem get_delete_self (m : GoMap β) (k : Str) : (m.delete k).get k = none :=
  lookup_eraseKey_self k m.entries

theorem get_delete_ne (m : GoMap β) {k k' : Str} (h : k' ≠ k) :
    (m.delete k).get k' = m.get k' :=
  lookup_eraseKey_ne h m.entries

theorem get_delete (m : GoMap β) (k k' : Str) :
    (m.delete k).get k' = if k' = k then none else m.get k' := by
  by_cases h : k' = k
  · subst h; simp
  · simp [h, get_delete_ne m h]

theorem get_eq_none_iff (m : GoMap β) (k : Str) : m.get k = none ↔ k ∉ m.keys :=
  lookup_eq_none_iff k m.entries

theorem mem_keys_iff (m : GoMap β) (k : Str) : k ∈ m.keys ↔ ∃ v, m.get k = some v := by
  rw [← not_iff_not, ← get_eq_none_iff]
  cases m.get k <;> simp

theorem get_eq_some_iff (m : GoMap β) (k : Str) (v : β) :
    m.get k = some v ↔ (k, v) ∈ m.entries :=
  ⟨mem_of_lookup, lookup_of_mem m.nodup⟩

end GoMap

/-! ## JSON records -/

theorem hexVal_hexDigit : ∀ d, d < 16 → hexVal (hexDigit d) = some d := by decide

theorem hexDigit_ne_newline : ∀ d, d < 16 → hexDigit d ≠ '\n' := by decide

theorem hex4_hexDigit (n : Nat) (h : n < 65536) :
    hex4 (hexDigit (n / 4096 % 16)) (hexDigit (n / 256 % 16)) (hexDigit (n / 16 % 16))
      (hexDigit (n % 16)) = some n := by
  unfold hex4
  rw [hexVal_hexDigit _ (Nat.mod_lt _ (by decide)), hexVal_hexDigit _ (Nat.mod_lt _ (by decide)),
    hexVal_hexDigit _ (Nat.mod_lt _ (by decide)), hexVal_hexDigit _ (Nat.mod_lt _ (by decide))]
  simp only [Option.some.injEq]
  omega

theorem parseString_cons_plain (c : Char) (rest : Str) (h1 : c ≠ '"') (h2 : c ≠ '\\')
    (h3 : ¬ c.toNat < 32) : parseString 0 (c :: rest) = push c (parseString 0 rest) := by
  rw [parseString.eq_def]
  simp only [h1, h2, h3, if_false]

theorem parseString_cons_u (a b c d : Char) (n : Nat) (rest : Str) (h : hex4 a b c d = some n)
    (hn : ¬ (55296 ≤ n ∧ n < 57344)) :
    parseString 0 ('\\' :: 'u' :: a :: b :: c :: d :: rest) =
      push (Char.ofNat n) (parseString 0 rest) := by
  rw [parseString.eq_def]
  simp [h, hn]

theorem parseString_cons_esc (e x : Char) (rest : Str) (h : e ≠ 'u')
    (hx : unescape e = some x) :
    parseString 0 ('\\' :: e :: rest) = push x (parseString 0 rest) := by
  rw [parseString.eq_def]
  simp [h, hx]

/-- Decoding undoes the escaping of one character. -/
theorem parseString_escapeChar (c : Char) (rest : Str) :
    parseString 0 (escapeChar c ++ rest) = push c (parseString 0 rest) := by
  unfold escapeChar
  split_ifs with h1 h2 h3 h4 h5 h6 h7 h8
  · subst h1; exact parseString_cons_esc _ _ rest (by decide) (by decide)
  · subst h2; exact parseString_cons_esc _ _ rest (by decide) (by decide)
  · subst h3; exact parseString_cons_esc _ _ rest (by decide) (by decide)
  · subst h4; exact parseString_cons_esc _ _ rest (by decide) (by decide)
  · subst h5; exact parseString_cons_esc _ _ rest (by decide) (by decide)
  · subst h6; exact parseString_cons_esc _ _ rest (by decide) (by decide)
  · subst h7; exact parseString_cons_esc _ _ rest (by decide) (by decide)
  · have hlt : c.toNat < 55296 := by
      rcases h8 with h | h | h | h | h | h
      · omega
      · subst h; decide
      · subst h; decide
      · subst h; decide
      · omega
      · omega
    have := parseString_cons_u _ _ _ _ c.toNat rest (hex4_hexDigit c.toNat (by omega)) (by omega)
    simpa using this
  · push_neg at h8
    exact parseString_cons_plain c rest h1 h2 (by omega)

/-- Decoding a string literal gives the string back, and the text after it. -/
theorem parseString_quote (s rest : Str) :
    parseString 0 (s.flatMap escapeChar ++ '"' :: rest) = some (s, rest) := by
  induction s with
  | nil =>
    rw [parseString.eq_def]
    simp
  | cons c s ih =>
    rw [List.flatMap_cons, List.append_assoc, parseString_escapeChar, ih]
    rfl

theorem newline_not_mem_escapeChar (c : Char) : '\n' ∉ escapeChar c := by
  unfold escapeChar
  split_ifs with h1 h2 h3 h4 h5 h6 h7 h8
  · decide
  · decide
  · decide
  · decide
  · decide
  · decide
  · decide
  · intro h
    simp only [List.mem_cons, List.mem_singleton, List.not_mem_nil, or_false] at h
    rcases h with h | h | h | h | h | h
    · exact absurd h (by decide)
    · exact absurd h (by decide)
    · exact hexDigit_ne_newline _ (Nat.mod_lt _ (by decide)) h.symm
    · exact hexDigit_ne_newline _ (Nat.mod_lt _ (by decide)) h.symm
    · exact hexDigit_ne_newline _ (Nat.mod_lt _ (by decide)) h.symm
    · exact hexDigit_ne_newline _ (Nat.mod_lt _ (by decide)) h.symm
  · intro h
    exact h5 (List.mem_singleton.1 h).symm

theorem newline_not_mem_quote (s : Str) : '\n' ∉ quote s := by
  unfold quote
  intro h
  rcases List.mem_cons.1 h with h | h
  · exact absurd h (by decide)
  · rcases List.mem_append.1 h with h | h
    · obtain ⟨c, _, hc⟩ := List.mem_flatMap.1 h
      exact newline_not_mem_escapeChar c hc
    · exact absurd (List.mem_singleton.1 h) (by decide)

/-- A record written by `json.Marshal` holds no newline. -/
theorem newline_not_mem_jsonMarshal (key value : Str) : '\n' ∉ jsonMarshal key value := by
  unfold jsonMarshal
  intro h
  rcases List.mem_append.1 h with h | h
  · rcases List.mem_append.1 h with h | h
    · exact absurd h (by decide)
    · exact newline_not_mem_quote key h
  · rcases List.mem_append.1 h with h | h
    · rcases List.mem_append.1 h with h | h
      · exact absurd h (by decide)
      · exact newline_not_mem_quote value h
    · exact absurd (List.mem_singleton.1 h) (by decide)

theorem skipWs_cons (c : Char) (s : Str) (h : isJsonSpace c = false) :
    skipWs (c :: s) = c :: s := by
  unfold skipWs
  rw [List.dropWhile_cons_of_neg (by rw [h]; decide)]

/-- One member `"name":"value"` followed by `d`, a comma or the closing brace. -/
theorem parseMembers_member (fuel : Nat) (name value rest : Str) (acc : GoMap Str) (d : Char)
    (hd : isJsonSpace d = false) :
    parseMembers (fuel + 1) ('"' :: (name.flatMap escapeChar ++ '"' :: ':' :: '"' ::
      (value.flatMap escapeChar ++ '"' :: d :: rest))) acc =
      if d = ',' then parseMembers fuel rest (acc.set name value)
      else if d = '}' then some (acc.set name value, rest) else none := by
  rw [parseMembers.eq_def]
  simp only [skipWs_cons '"' _ (by decide), parseString_quote, if_true,
    skipWs_cons ':' _ (by decide), parseValue, skipWs_cons d _ hd]

/-- The text of a record, character by character. -/
theorem jsonMarshal_eq (key value : Str) :
    jsonMarshal key value = '{' :: '"' :: ("key".toList.flatMap escapeChar ++ '"' :: ':' :: '"' ::
      (key.flatMap escapeChar ++ '"' :: ',' :: '"' :: ("value".toList.flatMap escapeChar ++
        '"' :: ':' :: '"' :: (value.flatMap escapeChar ++ '"' :: '}' :: [])))) := by
  have h1 : "key".toList.flatMap escapeChar = "key".toList := by decide
  have h2 : "value".toList.flatMap escapeChar = "value".toList := by decide
  rw [h1, h2]
  simp [jsonMarshal, quote]

/-- Record round trip: `json.Unmarshal` of what `json.Marshal` wrote is the map with
the two members. -/
theorem jsonUnmarshal_jsonMarshal (key value : Str) :
    jsonUnmarshal (jsonMarshal key value) =
      some ((GoMap.empty.set "key".toList key).set "value".toList value) := by
  rw [jsonMarshal_eq, jsonUnmarshal.eq_def]
  simp only [skipWs_cons '{' _ (by decide), skipWs_cons '"' _ (by decide)]
  obtain ⟨n, hn⟩ : ∃ n, ('"' :: ("key".toList.flatMap escapeChar ++ '"' :: ':' :: '"' ::
      (key.flatMap escapeChar ++ '"' :: ',' :: '"' :: ("value".toList.flatMap escapeChar ++
        '"' :: ':' :: '"' :: (value.flatMap escapeChar ++ '"' :: '}' :: []))))).length = n + 2 := by
    rw [List.length_cons, List.length_append, List.length_cons]
    exact ⟨_, by rw [← Nat.add_assoc]⟩
  rw [hn, parseMembers_member (n + 1) _ _ _ _ ',' (by decide)]
  rw [if_pos rfl, parseMembers_member n _ _ _ _ '}' (by decide)]
  simp [skipWs]

theorem GoMap.getD_record_value (key value : Str) :
    ((GoMap.empty.set "key".toList key).set "value".toList value).getD "value".toList [] = value := by
  unfold GoMap.getD
  rw [GoMap.get_set_self]
  rfl

theorem GoMap.getD_record_key (key value : Str) :
    ((GoMap.empty.set "key".toList key).set "value".toList value).getD "key".toList [] = key := by
  unfold GoMap.getD
  rw [GoMap.get_set_ne _ _ (by decide), GoMap.get_set_self]
  rfl

theorem lineRecord_jsonMarshal (key value : Str) :
    lineRecord (jsonMarshal key value) = some (key, value) := by
  unfold lineRecord
  rw [jsonUnmarshal_jsonMarshal, Option.map_some', GoMap.getD_record_value,
    GoMap.getD_record_key]

/-- `ReadString` returns a complete first line. -/
theorem readLine_append (line rest : Str) (h : '\n' ∉ line) :
    readLine (line ++ '\n' :: rest) = some (line ++ ['\n']) := by
  induction line with
  | nil => simp [readLine]
  | cons c cs ih =>
    have hc : c ≠ '\n' := fun h1 => h (h1 ▸ List.mem_cons_self _ _)
    have := ih (fun h1 => h (List.mem_cons_of_mem _ h1))
    simp [readLine, hc, this]

/-- `TrimSpace` takes the newline off a record line and nothing else. -/
theorem trimSpace_jsonMarshal (key value : Str) :
    trimSpace (jsonMarshal key value ++ ['\n']) = jsonMarshal key value := by
  obtain ⟨body, hb⟩ : ∃ body, jsonMarshal key value = '{' :: (body ++ ['}']) := by
    refine ⟨"\"key\":".toList ++ quote key ++ (",\"value\":".toList ++ quote value), ?_⟩
    simp [jsonMarshal]
  rw [hb]
  unfold trimSpace
  rw [List.cons_append, List.dropWhile_cons_of_neg (by decide)]
  have : ('{' :: (body ++ ['}'] ++ ['\n'])).reverse = '\n' :: '}' :: (body.reverse ++ ['{']) := by
    simp
  rw [this, List.dropWhile_cons_of_pos (by decide), List.dropWhile_cons_of_neg (by decide)]
  simp

/-! ## Binary search and sorting -/

/-- The loop of `sort.Search` narrows `[i, j]` to the boundary of a
predicate that is false below `i`, true from `j` on and monotone. -/
theorem searchLoop_spec (f : Nat → Bool) (n : Nat)
    (hmono : ∀ a b, a ≤ b → b < n → f a = true → f b = true) :
    ∀ fuel i j, j - i ≤ fuel → i ≤ j → j ≤ n →
      (∀ a, a < i → f a = false) → (∀ a, j ≤ a → a < n → f a = true) →
      i ≤ searchLoop f fuel i j ∧ searchLoop f fuel i j ≤ j ∧
      (∀ a, a < searchLoop f fuel i j → f a = false) ∧
      (∀ a, searchLoop f fuel i j ≤ a → a < n → f a = true) := by
  intro fuel
  induction fuel with
  | zero =>
    intro i j hfuel hij _ hlo hhi
    have : i = j := by omega
    subst this
    exact ⟨le_refl _, le_refl _, hlo, hhi⟩
  | succ fuel ih =>
    intro i j hfuel hij hjn hlo hhi
    unfold searchLoop
    by_cases hlt : i < j
    · rw [if_pos hlt]
      have hh1 : i ≤ (i + j) / 2 := by omega
      have hh2 : (i + j) / 2 < j := by omega
      cases hf : f ((i + j) / 2) with
      | false =>
        simp only [hf, Bool.not_false, if_true]
        have hlo2 : ∀ a, a < (i + j) / 2 + 1 → f a = false := by
          intro a ha
          cases hfa : f a with
          | false => rfl
          | true =>
            have := hmono a ((i + j) / 2) (by omega) (by omega) hfa
            rw [hf] at this
            cases this
        obtain ⟨h1, h2, h3, h4⟩ := ih ((i + j) / 2 + 1) j (by omega) (by omega) hjn hlo2 hhi
        exact ⟨by omega, h2, h3, h4⟩
      | true =>
        simp only [hf, Bool.not_true, Bool.false_eq_true, if_false]
        have hhi2 : ∀ a, (i + j) / 2 ≤ a → a < n → f a = true :=
          fun a ha han => hmono _ a ha han hf
        obtain ⟨h1, h2, h3, h4⟩ := ih i ((i + j) / 2) (by omega) hh1 (by omega) hlo hhi2
        exact ⟨h1, by omega, h3, h4⟩
    · rw [if_neg hlt]
      have : i = j := by omega
      subst this
      exact ⟨le_refl _, le_refl _, hlo, hhi⟩

/-- `sort.Search` returns the boundary of a monotone predicate. -/
theorem sortSearch_spec (f : Nat → Bool) (n : Nat)
    (hmono : ∀ a b, a ≤ b → b < n → f a = true → f b = true) :
    sortSearch n f ≤ n ∧ (∀ a, a < sortSearch n f → f a = false) ∧
      (∀ a, sortSearch n f ≤ a → a < n → f a = true) := by
  obtain ⟨_, h2, h3, h4⟩ := searchLoop_spec f n hmono n 0 n (by omega) (Nat.zero_le n)
    (le_refl n) (fun a ha => absurd ha (Nat.not_lt_zero a)) (fun a ha han => absurd han (by omega))
  exact ⟨h2, h3, h4⟩

theorem sortStrings_sorted (l : List Str) : (sortStrings l).Sorted (· ≤ ·) :=
  List.sorted_insertionSort (· ≤ ·) l

theorem sortStrings_perm (l : List Str) : (sortStrings l).Perm l :=
  List.perm_insertionSort (· ≤ ·) l

theorem mem_sortStrings (l : List Str) (k : Str) : k ∈ sortStrings l ↔ k ∈ l :=
  (sortStrings_perm l).mem_iff

/-- On a sorted list, the keys from position `searchStrings a x` on are
exactly the keys that are at least `x`. -/
theorem mem_drop_searchStrings (a : List Str) (hs : a.Sorted (· ≤ ·)) (x k : Str) :
    k ∈ a.drop (searchStrings a x) ↔ k ∈ a ∧ x ≤ k := by
  have hget : ∀ i, i < a.length → ∀ h : i < a.length, a.getD i [] = a.get ⟨i, h⟩ := by
    intro i hi h
    simp [List.getD_eq_getElem?_getD, List.getElem?_eq_getElem h]
  have hmono : ∀ i j, i ≤ j → j < a.length →
      (fun i => decide (x ≤ a.getD i [])) i = true →
      (fun i => decide (x ≤ a.getD i [])) j = true := by
    intro i j hij hj hi
    simp only [decide_eq_true_eq] at hi ⊢
    rw [hget j hj hj]
    rw [hget i (by omega) (by omega)] at hi
    rcases Nat.eq_or_lt_of_le hij with h | h
    · subst h; exact hi
    · exact le_trans hi (List.Sorted.rel_get_of_lt hs (show (⟨i, by omega⟩ : Fin a.length) < ⟨j, hj⟩ from h))
  obtain ⟨h1, h2, h3⟩ : searchStrings a x ≤ a.length ∧
      (∀ i, i < searchStrings a x → decide (x ≤ a.getD i []) = false) ∧
      (∀ i, searchStrings a x ≤ i → i < a.length → decide (x ≤ a.getD i []) = true) :=
    sortSearch_spec _ a.length hmono
  constructor
  · intro hk
    obtain ⟨⟨i, hi⟩, rfl⟩ := List.mem_iff_get.1 hk
    simp only [List.length_drop] at hi
    rw [List.get_eq_getElem, List.getElem_drop]
    have hlt : searchStrings a x + i < a.length := by omega
    refine ⟨List.getElem_mem _, ?_⟩
    have := h3 (searchStrings a x + i) (Nat.le_add_right _ _) hlt
    simp only [decide_eq_true_eq] at this
    rw [hget _ hlt hlt] at this
    exact this
  · rintro ⟨hk, hx⟩
    obtain ⟨⟨i, hi⟩, rfl⟩ := List.mem_iff_get.1 hk
    have hge : searchStrings a x ≤ i := by
      by_contra hlt
      have := h2 i (by omega)
      simp only [decide_eq_false_iff_not] at this
      rw [hget i hi hi] at this
      exact this hx
    rw [List.mem_iff_get]
    refine ⟨⟨i - searchStrings a x, by simp only [List.length_drop]; omega⟩, ?_⟩
    rw [List.get_eq_getElem, List.getElem_drop, List.get_eq_getElem]
    congr 1
    show searchStrings a x + (i - searchStrings a x) = i
    omega

/-- On a sorted list the prefix of keys that are at most `e` holds every
key that is at most `e`. -/
theorem mem_takeWhile_sorted (l : List Str) (hs : l.Sorted (· ≤ ·)) (e k : Str) :
    k ∈ l.takeWhile (fun a => decide (a ≤ e)) ↔ k ∈ l ∧ k ≤ e := by
  induction l with
  | nil => simp
  | cons a rest ih =>
    have hs2 := List.sorted_cons.1 hs
    by_cases h : a ≤ e
    · rw [List.takeWhile_cons_of_pos (by simpa using h), List.mem_cons, List.mem_cons, ih hs2.2]
      constructor
      · rintro (h1 | h1)
        · exact ⟨Or.inl h1, h1 ▸ h⟩
        · exact ⟨Or.inr h1.1, h1.2⟩
      · rintro ⟨h1 | h1, h2⟩
        · exact Or.inl h1
        · exact Or.inr ⟨h1, h2⟩
    · rw [List.takeWhile_cons_of_neg (by simpa using h)]
      constructor
      · intro h1; cases h1
      · rintro ⟨h1, h2⟩
        rcases List.mem_cons.1 h1 with h3 | h3
        · exact absurd (h3 ▸ h2) h
        · exact absurd (le_trans (hs2.1 k h3) h2) h

/-! ## Memtable -/

theorem GoMap.entries_eq_nil_of_get {β : Type} (m : GoMap β) (h : ∀ k, m.get k = none) :
    m.entries = [] := by
  cases hm : m.entries with
  | nil => rfl
  | cons e rest =>
    obtain ⟨a, b⟩ := e
    have h1 := h a
    unfold GoMap.get at h1
    rw [hm, lookup_cons, if_pos rfl] at h1
    cases h1

/-- What the collecting loop of `GetRange` leaves in `results`. -/
theorem Memtable.rangeLoop_get (data : GoMap Str) (endKey : Str) (l : List Str)
    (results : GoMap Str) (k : Str) :
    (Memtable.rangeLoop data endKey l results).get k =
      if k ∈ l.takeWhile (fun a => decide (a ≤ endKey)) then some (data.getD k [])
      else results.get k := by
  induction l generalizing results with
  | nil => simp [Memtable.rangeLoop]
  | cons a rest ih =>
    unfold Memtable.rangeLoop
    by_cases h : a ≤ endKey
    · rw [if_pos h, ih, List.takeWhile_cons_of_pos (by simpa using h)]
      by_cases h1 : k ∈ rest.takeWhile (fun a => decide (a ≤ endKey))
      · rw [if_pos h1, if_pos (List.mem_cons_of_mem _ h1)]
      · rw [if_neg h1]
        by_cases h2 : k = a
        · subst h2
          rw [if_pos (List.mem_cons_self _ _), GoMap.get_set_self]
        · rw [if_neg (by
            intro h3
            rcases List.mem_cons.1 h3 with h4 | h4
            · exact h2 h4
            · exact h1 h4), GoMap.get_set_ne _ _ h2]
    · rw [if_neg h, List.takeWhile_cons_of_neg (by simpa using h), if_neg (List.not_mem_nil k)]

/-- The sorted key list that `GetRange` and `ReadRange` build holds exactly the keys of the map. -/
theorem mem_sorted_keys {β : Type} (ρ : RangeOrder) (m : GoMap β) (k : Str) :
    k ∈ sortStrings ((m.range ρ).map Prod.fst) ↔ k ∈ m.keys := by
  rw [mem_sortStrings]
  exact ((ρ.perm m.entries).map Prod.fst).mem_iff

/-- C5. `Memtable.GetRange(start, end)` returns exactly the pairs `(k, v)` of the
Memtable with `start <= k <= end` in the lexicographic order of keys, both bounds
inclusive, whatever order the map is ranged in; the result is the empty map when
`start > end`. -/
theorem Memtable.getRange_exact {σ : Type} (ρ : RangeOrder) (m : Memtable σ)
    (startKey endKey : Str) :
    (∀ k v, (m.GetRange ρ startKey endKey).get k = some v ↔
      (m.data.get k = some v ∧ startKey ≤ k ∧ k ≤ endKey)) ∧
    (endKey < startKey → (m.GetRange ρ startKey endKey).entries = []) := by
  have key : ∀ k v, (m.GetRange ρ startKey endKey).get k = some v ↔
      (m.data.get k = some v ∧ startKey ≤ k ∧ k ≤ endKey) := by
    intro k v
    have hs := sortStrings_sorted ((m.data.range ρ).map Prod.fst)
    have hs2 : ((sortStrings ((m.data.range ρ).map Prod.fst)).drop
        (searchStrings (sortStrings ((m.data.range ρ).map Prod.fst)) startKey)).Sorted (· ≤ ·) :=
      hs.sublist (List.drop_sublist _ _)
    have hmem := (mem_takeWhile_sorted _ hs2 endKey k).trans
      (and_congr_left (fun _ => (mem_drop_searchStrings _ hs startKey k).trans
        (and_congr_left (fun _ => mem_sorted_keys ρ m.data k))))
    show (Memtable.rangeLoop m.data endKey ((sortStrings ((m.data.range ρ).map Prod.fst)).drop
        (searchStrings (sortStrings ((m.data.range ρ).map Prod.fst)) startKey)) GoMap.empty).get k
        = some v ↔ _
    rw [Memtable.rangeLoop_get]
    constructor
    · intro h
      by_cases h1 : k ∈ ((sortStrings ((m.data.range ρ).map Prod.fst)).drop
          (searchStrings (sortStrings ((m.data.range ρ).map Prod.fst)) startKey)).takeWhile
            (fun a => decide (a ≤ endKey))
      · rw [if_pos h1] at h
        obtain ⟨⟨hk, hge⟩, hle⟩ := hmem.1 h1
        obtain ⟨w, hw⟩ := (GoMap.mem_keys_iff m.data k).1 hk
        refine ⟨?_, hge, hle⟩
        rw [hw]
        simpa [GoMap.getD, hw] using h
      · rw [if_neg h1] at h
        cases h
    · rintro ⟨hv, hge, hle⟩
      have hk : k ∈ m.data.keys := (GoMap.mem_keys_iff m.data k).2 ⟨v, hv⟩
      rw [if_pos (hmem.2 ⟨⟨hk, hge⟩, hle⟩)]
      simp [GoMap.getD, hv]
  refine ⟨key, fun hlt => GoMap.entries_eq_nil_of_get _ (fun k => ?_)⟩
  cases hg : (m.GetRange ρ startKey endKey).get k with
  | none => rfl
  | some v =>
    obtain ⟨_, h1, h2⟩ := (key k v).1 hg
    exact absurd (lt_of_lt_of_le hlt (le_trans h1 h2)) (lt_irrefl _)

theorem eraseKey_of_not_mem {β : Type} (k : Str) (l : List (Str × β))
    (h : k ∉ l.map Prod.fst) : eraseKey k l = l := by
  induction l with
  | nil => rfl
  | cons e rest ih =>
    obtain ⟨a, b⟩ := e
    rw [List.map_cons, List.mem_cons, not_or] at h
    rw [eraseKey_cons, if_neg (fun h1 => h.1 h1.symm), ih h.2]

theorem GoMap.len_set_of_not_mem (m : GoMap Str) (k v : Str) (h : k ∉ m.keys) :
    (m.set k v).len = m.len + 1 := by
  show ((k, v) :: eraseKey k m.entries).length = m.entries.length + 1
  rw [eraseKey_of_not_mem k m.entries h, List.length_cons]

/-- C9. With `maxEntries = n` and a callback `f`: a `Set` of a new key into a Memtable
holding `n - 1` keys (so `n >= 1`) passes to `f`, once, the previous content plus the
inserted pair, and leaves `Size() = 0`; a `Set` that leaves fewer than `n` keys does
not call `f` and keeps the pair.  The state `w` the callback acts on records the
calls: with the recorder of the tests it gains exactly one entry. -/
theorem Memtable.set_autoFlush {σ : Type} (m : Memtable σ) (f : GoMap Str → σ → σ) (w : σ)
    (key value : Str) (hf : m.flushFunc = some f) :
    (((m.data.len : Int) = m.maxEntries - 1 ∧ key ∉ m.data.keys) →
      (m.Set key value w).2 = f (m.data.set key value) w ∧
      (m.Set key value w).1.Size = 0 ∧
      (∀ k, (m.data.set key value).get k = if k = key then some value else m.data.get k)) ∧
    (((m.data.set key value).len : Int) < m.maxEntries →
      (m.Set key value w).2 = w ∧ (m.Set key value w).1.data = m.data.set key value) := by
  constructor
  · rintro ⟨hlen, hnew⟩
    have h1 : m.maxEntries ≤ ((m.data.set key value).len : Int) := by
      rw [GoMap.len_set_of_not_mem m.data key value hnew]
      push_cast
      omega
    have h2 : m.Set key value w =
        ({ m with data := GoMap.empty }, f (m.data.set key value) w) := by
      unfold Memtable.Set
      simp only [h1, if_true, Memtable.Flush, hf]
    rw [h2]
    exact ⟨rfl, rfl, fun k => GoMap.get_set m.data key k value⟩
  · intro hlt
    have h1 : ¬ m.maxEntries ≤ ((m.data.set key value).len : Int) := not_le.2 hlt
    have h2 : m.Set key value w = ({ m with data := m.data.set key value }, w) := by
      unfold Memtable.Set
      simp only [h1, if_false]
    rw [h2]
    exact ⟨rfl, rfl⟩

/-- The auto-flush scenario of the tests: `maxEntries = 3`, `txn1` and `txn2` stored,
`Set(txn3, pending)` makes one recorder call with the three pairs and empties the table. -/
theorem Memtable.set_autoFlush_witness :
    let m : Memtable (List (GoMap Str)) :=
      ((Memtable.NewMemtable 3 (some Memtable.recorder)).Set "txn1".toList "approved".toList []).1
    let m2 := (m.Set "txn2".toList "declined".toList []).1
    (m2.Set "txn3".toList "pending".toList []).2 =
        [m2.data.set "txn3".toList "pending".toList] ∧
      (m2.Set "txn3".toList "pending".toList []).1.Size = 0 ∧
      (m.Set "txn2".toList "declined".toList []).2 = [] := by
  intro m m2
  have h := Memtable.set_autoFlush m2 Memtable.recorder [] "txn3".toList "pending".toList rfl
  have h1 := h.1 ⟨by decide, by decide⟩
  have h0 := Memtable.set_autoFlush m Memtable.recorder [] "txn2".toList "declined".toList rfl
  exact ⟨h1.1, h1.2.1, (h0.2 (by decide)).1⟩

theorem Memtable.maxEntries_applyOp {σ : Type} (s : Memtable σ × σ) (op : MemOp) :
    (Memtable.applyOp s op).1.maxEntries = s.1.maxEntries := by
  cases op with
  | set key value =>
    show (s.1.Set key value s.2).1.maxEntries = _
    unfold Memtable.Set Memtable.Flush
    dsimp only
    split <;> rfl
  | delete key => rfl

theorem Memtable.maxEntries_run {σ : Type} (ops : List MemOp) (s : Memtable σ × σ) :
    (Memtable.run s ops).1.maxEntries = s.1.maxEntries := by
  induction ops generalizing s with
  | nil => rfl
  | cons op rest ih =>
    show (Memtable.run (Memtable.applyOp s op) rest).1.maxEntries = _
    rw [ih, Memtable.maxEntries_applyOp]

theorem Memtable.size_set_le {σ : Type} (m : Memtable σ) (key value : Str) (w : σ)
    (h : 0 ≤ m.maxEntries) : ((m.Set key value w).1.Size : Int) ≤ m.maxEntries := by
  unfold Memtable.Set Memtable.Flush
  dsimp only
  split
  · exact h
  · rename_i h1
    exact le_of_lt (not_le.1 h1)

/-- C10, as amended. For every Memtable created by `NewMemtable(maxEntries, f)` with
`maxEntries >= 0` and every sequence of `Set` and `Delete` calls, `Size()` immediately
after each `Set` returns does not exceed `maxEntries`. -/
theorem Memtable.size_after_set_bounded {σ : Type} (maxEntries : Int)
    (f : Option (GoMap Str → σ → σ)) (w : σ) (ops : List MemOp) (key value : Str)
    (h : 0 ≤ maxEntries) :
    (((Memtable.run (Memtable.NewMemtable maxEntries f, w)
      (ops ++ [MemOp.set key value])).1.Size : Int) ≤ maxEntries) := by
  unfold Memtable.run
  rw [List.foldl_append]
  show (((Memtable.run (Memtable.NewMemtable maxEntries f, w) ops).1.Set key value
    (Memtable.run (Memtable.NewMemtable maxEntries f, w) ops).2).1.Size : Int) ≤ maxEntries
  have hm := Memtable.maxEntries_run ops (Memtable.NewMemtable maxEntries f, w)
  have := Memtable.size_set_le (Memtable.run (Memtable.NewMemtable maxEntries f, w) ops).1
    key value (Memtable.run (Memtable.NewMemtable maxEntries f, w) ops).2 (by rw [hm]; exact h)
  rw [hm] at this
  exact this

/-- The size bound at `maxEntries = 2` after `Set a; Set b; Delete a; Set c`. -/
theorem Memtable.size_after_set_bounded_witness :
    (((Memtable.run (Memtable.NewMemtable 2 (some Memtable.recorder), [])
      ([MemOp.set "a".toList "1".toList, MemOp.set "b".toList "2".toList,
        MemOp.delete "a".toList] ++ [MemOp.set "c".toList "3".toList])).1.Size : Int) ≤ 2) :=
  Memtable.size_after_set_bounded 2 (some Memtable.recorder) [] _ "c".toList "3".toList
    (by decide)

/-- C10 as stated fails for a negative `maxEntries`: with `NewMemtable(-1, nil)` every
`Set` flushes, so `Size()` is `0` after `Set(a, 1)`, which exceeds `-1`. -/
theorem Memtable.size_after_set_negative_capacity :
    ¬ ((((Memtable.NewMemtable (-1) (none : Option (GoMap Str → Unit → Unit))).Set
      "a".toList "1".toList ()).1.Size : Int) ≤ -1) := by
  decide

/-! ## SSTable -/

namespace SSTable

theorem write_open (s : SSTable) (key value : Str) (hc : s.closed = false) :
    s.Write key value = ({ s with
        file := s.file ++ (jsonMarshal key value ++ ['\n'])
        index := s.index.set key (s.file.length : Int) }, none) := by
  unfold Write
  rw [hc]
  rfl

theorem closed_write (s : SSTable) (key value : Str) :
    (s.Write key value).1.closed = s.closed := by
  unfold Write
  split <;> rfl

theorem closed_delete (ρ : RangeOrder) (s : SSTable) (key : Str) :
    (s.Delete ρ key).1.closed = s.closed := by
  unfold Delete
  split <;> rfl

theorem file_delete (ρ : RangeOrder) (s : SSTable) (key : Str) :
    (s.Delete ρ key).1.file = s.file := by
  unfold Delete
  split <;> rfl

theorem index_delete (ρ : RangeOrder) (s : SSTable) (key k : Str) :
    (s.Delete ρ key).1.index.get k = if k = key then none else s.index.get k := by
  unfold Delete
  split
  · rename_i h
    by_cases hk : k = key
    · rw [if_pos hk, hk]; exact h
    · rw [if_neg hk]
  · exact GoMap.get_delete s.index key k

/-- `Read` of a key whose index entry is the offset of a record line returns the
value of that record. -/
theorem read_of_holds (s : SSTable) (key value : Str) (hc : s.closed = false)
    (h : s.Holds key value) : s.Read key = Except.ok value := by
  obtain ⟨pre, post, hi, hf⟩ := h
  unfold Read
  rw [hi]
  simp only [hc, Bool.false_eq_true, false_or]
  rw [if_neg (by omega), Int.toNat_ofNat, hf, List.drop_left,
    readLine_append _ _ (newline_not_mem_jsonMarshal key value)]
  simp only [trimSpace_jsonMarshal, jsonUnmarshal_jsonMarshal, GoMap.getD_record_value]

theorem read_of_not_indexed (s : SSTable) (key : Str) (h : s.index.get key = none) :
    s.Read key = Except.error Err.keyNotFound := by
  unfold Read
  rw [h]

theorem holds_write_self (s : SSTable) (key value : Str) (hc : s.closed = false) :
    (s.Write key value).1.Holds key value := by
  rw [write_open s key value hc]
  exact ⟨s.file, [], GoMap.get_set_self _ _ _, rfl⟩

theorem holds_write_ne (s : SSTable) (key value k v : Str) (hc : s.closed = false)
    (hk : k ≠ key) (h : s.Holds k v) : (s.Write key value).1.Holds k v := by
  obtain ⟨pre, post, hi, hf⟩ := h
  rw [write_open s key value hc]
  refine ⟨pre, post ++ (jsonMarshal key value ++ ['\n']), ?_, ?_⟩
  · show (s.index.set key _).get k = _
    rw [GoMap.get_set_ne _ _ hk, hi]
  · show s.file ++ _ = _
    rw [hf]
    simp only [List.append_assoc, List.cons_append]

theorem holds_delete (ρ : RangeOrder) (s : SSTable) (key k v : Str) (hk : k ≠ key)
    (h : s.Holds k v) : (s.Delete ρ key).1.Holds k v := by
  obtain ⟨pre, post, hi, hf⟩ := h
  refine ⟨pre, post, ?_, ?_⟩
  · rw [index_delete, if_neg hk, hi]
  · rw [file_delete, hf]

theorem run_cons (ρ : RangeOrder) (s : SSTable) (op : Op) (ops : List Op) :
    run ρ s (op :: ops) = run ρ (applyOp ρ s op) ops := rfl

theorem lastWrite_holds (ρ : RangeOrder) (key : Str) (ops : List Op) :
    ∀ (s : SSTable) (r : Option Str), s.closed = false →
      (∀ v, r = some v → s.Holds key v) →
      (run ρ s ops).closed = false ∧
      ∀ v, ops.foldl (lastWriteStep key) r = some v → (run ρ s ops).Holds key v := by
  induction ops with
  | nil => intro s r hc h; exact ⟨hc, h⟩
  | cons op rest ih =>
    intro s r hc h
    rw [run_cons, List.foldl_cons]
    cases op with
    | write k v =>
      refine ih _ _ (by rw [applyOp, closed_write]; exact hc) ?_
      intro v' hv'
      change (if k = key then some v else r) = some v' at hv'
      by_cases hk : k = key
      · rw [if_pos hk] at hv'
        cases hv'
        subst hk
        exact holds_write_self s k v hc
      · rw [if_neg hk] at hv'
        exact holds_write_ne s k v key v' hc (fun h1 => hk h1.symm) (h v' hv')
    | delete k =>
      refine ih _ _ (by rw [applyOp, closed_delete]; exact hc) ?_
      intro v' hv'
      change (if k = key then none else r) = some v' at hv'
      by_cases hk : k = key
      · rw [if_pos hk] at hv'
        cases hv'
      · rw [if_neg hk] at hv'
        exact holds_delete ρ s k key v' (fun h1 => hk h1.symm) (h v' hv')

end SSTable

/-- C3. After any sequence of `Write` and `Delete` calls on an open SSTable, in any
state of its file and index, `Read(k)` of a key written at least once and not deleted
since succeeds with the value of the most recent `Write(k, v)`. -/
theorem SSTable.read_after_write (ρ : RangeOrder) (s : SSTable) (ops : List SSTable.Op)
    (key value : Str) (hc : s.closed = false)
    (h : SSTable.lastWrite key ops = some value) :
    (SSTable.run ρ s ops).Read key = Except.ok value := by
  obtain ⟨h1, h2⟩ := SSTable.lastWrite_holds ρ key ops s none hc (fun v hv => by cases hv)
  exact SSTable.read_of_holds _ key value h1 (h2 value h)

/-- The write/read test: `Write(txn123, status:approved)` on a fresh SSTable, then
`Read(txn123)` returns `status:approved`. -/
theorem SSTable.read_after_write_witness :
    (SSTable.run RangeOrder.stored SSTable.fresh
      [SSTable.Op.write "txn123".toList "status:approved".toList]).Read "txn123".toList =
      Except.ok "status:approved".toList :=
  SSTable.read_after_write RangeOrder.stored SSTable.fresh _ "txn123".toList
    "status:approved".toList rfl (by decide)

/-- C4, the code at the failing input. With the keys `a` and `c` indexed (both
readable), `ReadRange(a, b)` returns the key `c`, which is greater than the end `b`
(the slice `keys[startIdx : endIdx+1]` takes the key at the search position of `b`),
and `ReadRange(a, z)` returns nothing although `a` and `c` lie in the range (the
guard `endIdx >= len(keys)`). -/
theorem SSTable.readRange_end_not_indexed :
    SSTable.rangeExample.Read "a".toList = Except.ok "1".toList ∧
    SSTable.rangeExample.Read "c".toList = Except.ok "3".toList ∧
    (SSTable.ReadRange RangeOrder.stored SSTable.rangeExample "a".toList "b".toList).get
      "c".toList = some "3".toList ∧
    (SSTable.ReadRange RangeOrder.stored SSTable.rangeExample "a".toList "z".toList).entries = [] := by
  decide

/-! ## Scanning lines -/

theorem runeLen_pos (c : Char) : 0 < runeLen c := by
  unfold runeLen
  split_ifs <;> decide

theorem byteLen_append (a b : Str) : byteLen (a ++ b) = byteLen a + byteLen b := by
  induction a with
  | nil => rw [List.nil_append, byteLen, Nat.zero_add]
  | cons c cs ih => rw [List.cons_append, byteLen, byteLen, ih, Nat.add_assoc]

theorem byteLen_reverse (a : Str) : byteLen a.reverse = byteLen a := by
  induction a with
  | nil => rfl
  | cons c cs ih =>
    rw [List.reverse_cons, byteLen_append, ih, byteLen, byteLen, byteLen]
    omega

theorem byteLen_replicate (n : Nat) (c : Char) :
    byteLen (List.replicate n c) = n * runeLen c := by
  induction n with
  | zero => rw [List.replicate_zero, byteLen, Nat.zero_mul]
  | succ n ih => rw [List.replicate_succ, byteLen, ih, Nat.succ_mul, Nat.add_comm]

theorem length_le_byteLen (a : Str) : a.length ≤ byteLen a := by
  induction a with
  | nil => exact Nat.le_refl _
  | cons c cs ih =>
    rw [List.length_cons, byteLen]
    have := runeLen_pos c
    omega

theorem takeBytes_byteLen (s : Str) : takeBytes (byteLen s) s = s := by
  induction s with
  | nil => rfl
  | cons c cs ih =>
    rw [byteLen, takeBytes, if_pos (Nat.le_add_right _ _), Nat.add_sub_cancel_left, ih]

theorem scanLinesAux_line (maxTokenSize : Nat) (line rest : Str) (h : '\n' ∉ line) :
    ∀ acc : Str, scanLinesAux maxTokenSize (line ++ '\n' :: rest) acc =
      if maxTokenSize ≤ byteLen (acc.reverse ++ line) then ([], true)
      else (dropCR (acc.reverse ++ line) :: (scanLinesAux maxTokenSize rest []).1,
        (scanLinesAux maxTokenSize rest []).2) := by
  induction line with
  | nil =>
    intro acc
    rw [List.nil_append, List.append_nil, byteLen_reverse]
    rw [scanLinesAux, if_pos rfl]
  | cons c cs ih =>
    intro acc
    have hc : c ≠ '\n' := fun h1 => h (h1 ▸ List.mem_cons_self _ _)
    rw [List.cons_append, scanLinesAux, if_neg hc, ih (fun h1 => h (List.mem_cons_of_mem _ h1))]
    simp only [List.reverse_cons, List.append_assoc, List.singleton_append]

/-- A text of complete lines, each without a newline inside and shorter, in bytes,
than the buffer limit, is scanned into those lines, a trailing carriage return
dropped. -/
theorem scanLines_lines (maxTokenSize : Nat) (lines : List Str)
    (h : ∀ l ∈ lines, '\n' ∉ l ∧ byteLen l < maxTokenSize) :
    scanLines maxTokenSize (lines.flatMap (fun l => l ++ ['\n'])) = (lines.map dropCR, false) := by
  unfold scanLines
  induction lines with
  | nil => rfl
  | cons l rest ih =>
    obtain ⟨h1, h2⟩ := h l (List.mem_cons_self _ _)
    rw [List.flatMap_cons, List.append_assoc, List.singleton_append,
      scanLinesAux_line maxTokenSize l _ h1, List.reverse_nil, List.nil_append,
      if_neg (not_le.2 h2), ih (fun l' hl' => h l' (List.mem_cons_of_mem _ hl')), List.map_cons]

/-- On a text whose lines are all shorter, in bytes, than the buffer limit the
scanner yields every line, a trailing carriage return dropped, and no error. -/
theorem scanLinesAux_splitLines (maxTokenSize : Nat) (text : Str) :
    ∀ acc : Str, (∀ l ∈ splitLinesAux text acc, byteLen l < maxTokenSize) →
      scanLinesAux maxTokenSize text acc = ((splitLinesAux text acc).map dropCR, false) := by
  induction text with
  | nil =>
    intro acc h
    by_cases ha : acc = []
    · subst ha
      rfl
    · have hs : splitLinesAux [] acc = [acc.reverse] := by rw [splitLinesAux, if_neg ha]
      have h1 := h acc.reverse (by rw [hs]; exact List.mem_singleton.2 rfl)
      rw [byteLen_reverse] at h1
      rw [hs, scanLinesAux, if_neg ha, if_neg (not_le.2 h1)]
      rfl
  | cons c cs ih =>
    intro acc h
    by_cases hc : c = '\n'
    · have hs : splitLinesAux (c :: cs) acc = acc.reverse :: splitLinesAux cs [] := by
        rw [splitLinesAux, if_pos hc]
      rw [hs] at h
      have h1 := h acc.reverse (List.mem_cons_self _ _)
      rw [byteLen_reverse] at h1
      rw [hs, scanLinesAux, if_pos hc, if_neg (not_le.2 h1),
        ih [] (fun l hl => h l (List.mem_cons_of_mem _ hl))]
      rfl
    · have hs : splitLinesAux (c :: cs) acc = splitLinesAux cs (c :: acc) := by
        rw [splitLinesAux, if_neg hc]
      rw [hs] at h ⊢
      rw [scanLinesAux, if_neg hc]
      exact ih (c :: acc) h

theorem scanLines_splitLines (maxTokenSize : Nat) (text : Str)
    (h : ∀ l ∈ splitLines text, byteLen l < maxTokenSize) :
    scanLines maxTokenSize text = ((splitLines text).map dropCR, false) :=
  scanLinesAux_splitLines maxTokenSize text [] h

theorem splitLinesAux_line (line rest : Str) (h : '\n' ∉ line) :
    ∀ acc : Str, splitLinesAux (line ++ '\n' :: rest) acc =
      (acc.reverse ++ line) :: splitLinesAux rest [] := by
  induction line with
  | nil =>
    intro acc
    rw [List.nil_append, List.append_nil, splitLinesAux, if_pos rfl]
  | cons c cs ih =>
    intro acc
    have hc : c ≠ '\n' := fun h1 => h (h1 ▸ List.mem_cons_self _ _)
    rw [List.cons_append, splitLinesAux, if_neg hc, ih (fun h1 => h (List.mem_cons_of_mem _ h1))]
    simp only [List.reverse_cons, List.append_assoc, List.singleton_append]

/-- The lines of a text made of complete lines are those lines. -/
theorem splitLines_lines (lines : List Str) (h : ∀ l ∈ lines, '\n' ∉ l) :
    splitLines (lines.flatMap (fun l => l ++ ['\n'])) = lines := by
  unfold splitLines
  induction lines with
  | nil => rfl
  | cons l rest ih =>
    rw [List.flatMap_cons, List.append_assoc, List.singleton_append,
      splitLinesAux_line l _ (h l (List.mem_cons_self _ _)), List.reverse_nil, List.nil_append,
      ih (fun l' hl' => h l' (List.mem_cons_of_mem _ hl'))]

/-! ## Write-ahead log -/

namespace WAL

theorem cut_entry (key value : Str) (h : ':' ∉ key) :
    cut ':' (key ++ ':' :: value) = some (key, value) := by
  induction key with
  | nil => simp [cut]
  | cons c cs ih =>
    have hc : c ≠ ':' := fun h1 => h (h1 ▸ List.mem_cons_self _ _)
    rw [List.cons_append, cut, if_neg hc, ih (fun h1 => h (List.mem_cons_of_mem _ h1))]
    rfl

theorem processBatch_append (b1 b2 : List Str) (data : GoMap Str) :
    processBatch (b1 ++ b2) data = processBatch b2 (processBatch b1 data) := by
  unfold processBatch
  rw [List.foldl_append]

/-- Batching does not change what the scanning loop of `Replay` computes. -/
theorem replayLoop_batches (lines : List Str) :
    ∀ (tempBatch : List Str) (data : GoMap Str),
      (if 0 < (replayLoop lines tempBatch data).1.length
        then processBatch (replayLoop lines tempBatch data).1 (replayLoop lines tempBatch data).2
        else (replayLoop lines tempBatch data).2) =
      processBatch (tempBatch ++ lines.filter (fun l => decide (l ≠ []))) data := by
  induction lines with
  | nil =>
    intro tempBatch data
    rw [replayLoop, List.filter_nil, List.append_nil]
    cases tempBatch with
    | nil => rfl
    | cons a b => exact if_pos (Nat.succ_pos _)
  | cons line rest ih =>
    intro tempBatch data
    rw [replayLoop]
    by_cases hl : line = []
    · rw [if_pos hl, ih, List.filter_cons_of_neg (by simp [hl])]
    · rw [if_neg hl, List.filter_cons_of_pos (by simp [hl])]
      by_cases hb : 10000 ≤ (tempBatch ++ [line]).length
      · rw [if_pos hb, ih, List.nil_append, ← processBatch_append, List.append_assoc,
          List.singleton_append]
      · rw [if_neg hb, ih, List.append_assoc, List.singleton_append]

/-- `processBatch` on the lines of entries stores the entries, in order. -/
theorem processBatch_entries (entries : List (Str × Str)) (h : ∀ e ∈ entries, ':' ∉ e.1) :
    ∀ data : GoMap Str, processBatch (entries.map (fun e => e.1 ++ ':' :: e.2)) data =
      entries.foldl (fun d e => d.set e.1 e.2) data := by
  induction entries with
  | nil => intro data; rfl
  | cons e rest ih =>
    intro data
    have := ih (fun e' he' => h e' (List.mem_cons_of_mem _ he'))
    unfold processBatch at this ⊢
    rw [List.map_cons, List.foldl_cons, List.foldl_cons, cut_entry _ _ (h e (List.mem_cons_self _ _))]
    exact this _

end WAL

/-- Storing pairs in order leaves each key with the value of its last pair. -/
theorem GoMap.get_foldl_set (entries : List (Str × Str)) (k : Str) :
    ∀ data : GoMap Str, (entries.foldl (fun d e => d.set e.1 e.2) data).get k =
      (lookup k entries.reverse).orElse (fun _ => data.get k) := by
  induction entries using List.reverseRecOn with
  | nil => intro data; rfl
  | append_singleton rest e ih =>
    intro data
    obtain ⟨a, b⟩ := e
    rw [List.foldl_append, List.foldl_cons, List.foldl_nil, List.reverse_append,
      List.reverse_singleton, List.singleton_append, lookup_cons, GoMap.get_set]
    by_cases h : k = a
    · rw [if_pos h, if_pos h.symm]
      rfl
    · rw [if_neg h, if_neg (fun h1 => h h1.symm)]
      exact ih data

namespace WAL

theorem logSize_cons (e : Str × Str) (rest : List (Str × Str)) :
    logSize (e :: rest) = byteLen e.1 + byteLen e.2 + 2 + logSize rest := by
  simp [logSize]

theorem byteLen_entry (key value : Str) :
    byteLen (key ++ (':' :: (value ++ ['\n']))) = byteLen key + byteLen value + 2 := by
  rw [byteLen_append, byteLen, byteLen_append]
  show byteLen key + (1 + (byteLen value + (1 + 0))) = _
  omega

/-- `WriteString` loses nothing: the log grows by the text. -/
theorem writeString_log (w : WAL) (s : Str) :
    (w.writeString s).log = w.log ++ s ∧
    (w.writeString s).testMode = w.testMode ∧ (w.writeString s).logQueue = w.logQueue ∧
    (w.writeString s).rotated = w.rotated := by
  unfold writeString
  split_ifs <;> exact ⟨rfl, rfl, rfl, rfl⟩

/-- Below the rotation size `syncWrite` only writes. -/
theorem syncWrite_small (w : WAL) (s : Str) (h : byteLen (w.log ++ s) ≤ WALMaxSize) :
    w.syncWrite s = w.writeString s := by
  unfold syncWrite checkRotation
  rw [if_neg]
  rw [(writeString_log w s).1]
  omega

/-- After `Flush` the file on disk holds the whole log. -/
theorem file_flush (w : WAL) : w.Flush.file = w.log := by
  unfold file Flush
  dsimp only
  rw [Nat.sub_zero, takeBytes_byteLen]

/-- A log opened on an existing file holds its content, all of it on disk. -/
theorem file_newWAL (testMode : Bool) (text : Str) : (NewWAL testMode (some text)).file = text := by
  show takeBytes (byteLen text - 0) text = text
  rw [Nat.sub_zero, takeBytes_byteLen]

/-- The text `Append` writes for the entries. -/
theorem appendAll_sync (entries : List (Str × Str)) :
    ∀ w : WAL, w.testMode = true → w.logQueue = [] → w.rotated = [] →
      (∀ e ∈ entries, e.1 ≠ [] ∧ e.2 ≠ []) →
      byteLen w.log + logSize entries ≤ WALMaxSize →
      (appendAll w entries).testMode = true ∧ (appendAll w entries).logQueue = [] ∧
      (appendAll w entries).rotated = [] ∧
      (appendAll w entries).log =
        w.log ++ (entries.map (fun e => e.1 ++ ':' :: e.2)).flatMap
          (fun l => l ++ ['\n']) := by
  induction entries with
  | nil =>
    intro w h1 h2 h3 _ _
    exact ⟨h1, h2, h3, by simp [appendAll]⟩
  | cons e rest ih =>
    intro w h1 h2 h3 hne hsize
    obtain ⟨hk, hv⟩ := hne e (List.mem_cons_self _ _)
    have hlog : logSize (e :: rest) = byteLen e.1 + byteLen e.2 + 2 + logSize rest := by
      simp [logSize]
    have hentry : byteLen (e.1 ++ (':' :: (e.2 ++ ['\n']))) = byteLen e.1 + byteLen e.2 + 2 := by
      rw [byteLen_append, byteLen, byteLen_append]
      show byteLen e.1 + (1 + (byteLen e.2 + (1 + 0))) = _
      omega
    rw [hlog] at hsize
    have hstep : (w.Append e.1 e.2).1 = w.writeString (e.1 ++ (':' :: (e.2 ++ ['\n']))) := by
      unfold Append
      rw [if_neg (fun h => h.elim hk hv), if_pos h1]
      exact syncWrite_small w _ (by
        rw [byteLen_append, hentry]
        omega)
    obtain ⟨hw1, hw2, hw3, hw4⟩ := writeString_log w (e.1 ++ (':' :: (e.2 ++ ['\n'])))
    have hcons : appendAll w (e :: rest) =
        appendAll (w.writeString (e.1 ++ (':' :: (e.2 ++ ['\n'])))) rest := by
      show appendAll (w.Append e.1 e.2).1 rest = _
      rw [hstep]
    rw [hcons]
    obtain ⟨r1, r2, r3, r4⟩ := ih (w.writeString (e.1 ++ (':' :: (e.2 ++ ['\n']))))
      (hw2.trans h1) (hw3.trans h2) (hw4.trans h3)
      (fun e' he' => hne e' (List.mem_cons_of_mem _ he'))
      (by
        rw [hw1, byteLen_append, hentry]
        omega)
    refine ⟨r1, r2, r3, ?_⟩
    rw [r4, hw1]
    simp only [List.map_cons, List.flatMap_cons, List.append_assoc, List.cons_append,
      List.nil_append]

theorem getLast?_entry (key value : Str) (hv : value ≠ []) :
    (key ++ ':' :: value).getLast? = value.getLast? := by
  obtain ⟨c, cs, rfl⟩ := List.exists_cons_of_ne_nil hv
  rw [show key ++ ':' :: c :: cs = (key ++ [':']) ++ (c :: cs) by simp]
  rw [List.getLast?_append_of_ne_nil _ (List.cons_ne_nil c cs)]

/-- What `Replay` returns on a file that holds the lines of replayable entries. -/
theorem replay_entries (w : WAL) (entries : List (Str × Str))
    (hvalid : ∀ e ∈ entries, replayable e)
    (hfile : w.file = (entries.map (fun e => e.1 ++ ':' :: e.2)).flatMap (fun l => l ++ ['\n'])) :
    w.Replay = (entries.foldl (fun d e => d.set e.1 e.2) GoMap.empty, false) := by
  have hscan : scanLines MaxBufferSize w.file = (entries.map (fun e => e.1 ++ ':' :: e.2), false) := by
    rw [hfile, scanLines_lines]
    · congr 1
      rw [List.map_map]
      refine List.map_congr_left (fun e he => ?_)
      obtain ⟨_, h2, _, _, _, h6, _⟩ := hvalid e he
      show dropCR (e.1 ++ ':' :: e.2) = _
      unfold dropCR
      rw [getLast?_entry _ _ h2, if_neg h6]
    · intro l hl
      obtain ⟨e, he, rfl⟩ := List.mem_map.1 hl
      obtain ⟨_, _, _, h4, h5, _, h7⟩ := hvalid e he
      constructor
      · intro h
        rcases List.mem_append.1 h with h | h
        · exact h4 h
        · rcases List.mem_cons.1 h with h | h
          · exact absurd h (by decide)
          · exact h5 h
      · rw [byteLen_append, byteLen]
        show byteLen e.1 + (1 + byteLen e.2) < MaxBufferSize
        omega
  have hfilter : (entries.map (fun e => e.1 ++ ':' :: e.2)).filter (fun l => decide (l ≠ [])) =
      entries.map (fun e => e.1 ++ ':' :: e.2) := by
    refine List.filter_eq_self.2 (fun l hl => ?_)
    obtain ⟨e, _, rfl⟩ := List.mem_map.1 hl
    simp
  unfold Replay
  rw [hscan]
  dsimp only
  rw [replayLoop_batches, List.nil_append, hfilter, processBatch_entries]
  intro e he
  exact (hvalid e he).2.2.1

theorem iterate_processQueue (n : Nat) (w : WAL) (h : w.logQueue = []) :
    Nat.iterate processQueue n w = w := by
  induction n with
  | zero => rfl
  | succ n ih =>
    rw [Function.iterate_succ_apply]
    have : processQueue w = w := by
      unfold processQueue
      rw [h]
    rw [this, ih]

theorem logSize_replicate (n : Nat) (e : Str × Str) :
    logSize (List.replicate n e) = n * (byteLen e.1 + byteLen e.2 + 2) := by
  induction n with
  | zero => simp [logSize]
  | succ n ih =>
    have hc : logSize (e :: List.replicate n e) =
        byteLen e.1 + byteLen e.2 + 2 + logSize (List.replicate n e) := by
      simp [logSize]
    rw [List.replicate_succ, hc, ih, Nat.succ_mul]
    omega

theorem appendAll_append (w : WAL) (l1 l2 : List (Str × Str)) :
    appendAll w (l1 ++ l2) = appendAll (appendAll w l1) l2 := by
  unfold appendAll
  rw [List.foldl_append]

/-- The buffer of the writer never holds more than its size. -/
theorem buffered_writeString (w : WAL) (s : Str) (h : w.buffered ≤ BufferSize) :
    (w.writeString s).buffered ≤ BufferSize := by
  unfold writeString
  split_ifs with h1 h2 h3
  · show w.buffered + byteLen s ≤ BufferSize
    omega
  · exact h
  · exact Nat.zero_le _
  · show byteLen s - (BufferSize - w.buffered) ≤ BufferSize
    omega

theorem buffered_syncWrite (w : WAL) (s : Str) (h : w.buffered ≤ BufferSize) :
    (w.syncWrite s).buffered ≤ BufferSize := by
  unfold syncWrite checkRotation
  split
  · exact Nat.zero_le _
  · exact buffered_writeString w s h

theorem buffered_appendAll (entries : List (Str × Str)) :
    ∀ w : WAL, w.buffered ≤ BufferSize → (appendAll w entries).buffered ≤ BufferSize := by
  induction entries with
  | nil => intro w h; exact h
  | cons e rest ih =>
    intro w h
    show (appendAll (w.Append e.1 e.2).1 rest).buffered ≤ BufferSize
    refine ih _ ?_
    unfold Append
    split_ifs
    · exact h
    · exact buffered_syncWrite w _ h
    · exact h
    · exact buffered_syncWrite w _ h

/-- A line of `MaxBufferSize` bytes or more: `Replay` stops at it with the error of
the scanner and returns nothing. -/
theorem replay_long_line (key value : Str) (hk : key ≠ []) (hv : value ≠ [])
    (hnl : '\n' ∉ key ++ ':' :: value) (hlong : MaxBufferSize ≤ byteLen (key ++ ':' :: value))
    (hsize : byteLen key + byteLen value + 2 ≤ WALMaxSize) :
    ((appendAll (NewWAL true none) [(key, value)]).Flush).Replay = (GoMap.empty, true) := by
  obtain ⟨_, _, _, h4⟩ := appendAll_sync [(key, value)] (NewWAL true none) rfl rfl rfl
    (fun e he => by rw [List.mem_singleton.1 he]; exact ⟨hk, hv⟩)
    (by
      have h0 : byteLen (NewWAL true none).log = 0 := rfl
      have h1 : logSize [(key, value)] = byteLen key + byteLen value + 2 := by
        rw [logSize_cons]
        rfl
      rw [h0, h1]
      omega)
  have hfile : ((appendAll (NewWAL true none) [(key, value)]).Flush).file =
      (key ++ ':' :: value) ++ '\n' :: [] := by
    rw [file_flush, h4]
    show [] ++ ((key ++ ':' :: value) ++ ['\n'] ++ []) = _
    rw [List.nil_append, List.append_nil]
  unfold Replay
  rw [hfile]
  unfold scanLines
  rw [scanLinesAux_line MaxBufferSize _ [] hnl [], List.reverse_nil, List.nil_append,
    if_pos hlong]
  rfl

/-- An `Append` that leaves the file on disk larger than `WALMaxSize` makes the log
continue in a new, empty file. -/
theorem append_rotates (w : WAL) (key value : Str) (hk : key ≠ []) (hv : value ≠ [])
    (ht : w.testMode = true) (hb : w.buffered ≤ BufferSize)
    (hbig : WALMaxSize + BufferSize < byteLen w.log + (byteLen key + byteLen value + 2)) :
    (w.Append key value).1.Flush.file = [] := by
  have happ : (w.Append key value).1 = w.syncWrite (key ++ (':' :: (value ++ ['\n']))) := by
    unfold Append
    rw [if_neg (fun h => h.elim hk hv), if_pos ht]
  have hlog := (writeString_log w (key ++ (':' :: (value ++ ['\n'])))).1
  have hbuf := buffered_writeString w (key ++ (':' :: (value ++ ['\n']))) hb
  have hrot : WALMaxSize < byteLen (w.writeString (key ++ (':' :: (value ++ ['\n'])))).log -
      (w.writeString (key ++ (':' :: (value ++ ['\n'])))).buffered := by
    rw [hlog, byteLen_append, byteLen_entry]
    omega
  rw [file_flush, happ]
  unfold syncWrite checkRotation
  rw [if_pos hrot]

end WAL

/-- The round trip for a run of `Append` calls alone in synchronous mode, on a new
log: with replayable entries and the whole log at most `WALMaxSize` bytes, `Replay`
after `Flush` returns no error and the last value of every key; so does `Replay`
after `Close` and reopening the same file. -/
theorem WAL.appendAll_round_trip (entries : List (Str × Str))
    (hvalid : ∀ e ∈ entries, WAL.replayable e)
    (hsize : WAL.logSize entries ≤ WALMaxSize) :
    ((WAL.appendAll (WAL.NewWAL true none) entries).Flush).Replay.2 = false ∧
    (∀ k, ((WAL.appendAll (WAL.NewWAL true none) entries).Flush).Replay.1.get k =
      lookup k entries.reverse) ∧
    (∀ drained, (WAL.NewWAL true
        (some ((WAL.appendAll (WAL.NewWAL true none) entries).Close drained).file)).Replay =
      ((WAL.appendAll (WAL.NewWAL true none) entries).Flush).Replay) := by
  obtain ⟨_, h2, _, h4⟩ := WAL.appendAll_sync entries (WAL.NewWAL true none) rfl rfl rfl
    (fun e he => ⟨(hvalid e he).1, (hvalid e he).2.1⟩)
    (by show byteLen [] + _ ≤ _; rw [byteLen, Nat.zero_add]; exact hsize)
  have hfile : ((WAL.appendAll (WAL.NewWAL true none) entries).Flush).file =
      (entries.map (fun e => e.1 ++ ':' :: e.2)).flatMap (fun l => l ++ ['\n']) := by
    rw [WAL.file_flush, h4]
    rfl
  have hrep := WAL.replay_entries _ entries hvalid hfile
  refine ⟨by rw [hrep], fun k => ?_, fun drained => ?_⟩
  · rw [hrep, GoMap.get_foldl_set]
    cases lookup k entries.reverse <;> rfl
  · rw [hrep]
    refine WAL.replay_entries _ entries hvalid ?_
    have hclose : ((WAL.appendAll (WAL.NewWAL true none) entries).Close drained).file =
        (WAL.appendAll (WAL.NewWAL true none) entries).log := by
      unfold WAL.Close
      rw [WAL.iterate_processQueue drained _ h2, WAL.file_flush]
      rfl
    rw [hclose, WAL.file_newWAL, h4]
    rfl

namespace WAL

theorem replicate_x_ne_nil (n : Nat) (hn : 0 < n) : List.replicate n 'x' ≠ [] := by
  intro h
  have := congrArg List.length h
  rw [List.length_replicate] at this
  exact absurd this (Nat.pos_iff_ne_zero.1 hn)

theorem newline_not_mem_replicate_x (n : Nat) : '\n' ∉ List.replicate n 'x' :=
  fun h => absurd (List.eq_of_mem_replicate h) (by decide)

theorem byteLen_replicate_x (n : Nat) : byteLen (List.replicate n 'x') = n := by
  have hx : runeLen 'x' = 1 := by decide
  rw [byteLen_replicate, hx, Nat.mul_one]

/-- A value of 1000000 characters `x` is within the limits of a replayable entry. -/
theorem replayable_long_value (n : Nat) (hn : 0 < n) (hlt : n + 2 < MaxBufferSize) :
    replayable ("k".toList, List.replicate n 'x') := by
  have h1 : "k".toList ≠ [] := by decide
  have h3 : ':' ∉ "k".toList := by decide
  have h4 : '\n' ∉ "k".toList := by decide
  have h6 : (List.replicate n 'x').getLast? ≠ some '\r' := by
    intro h
    exact absurd (List.eq_of_mem_replicate (List.mem_of_getLast?_eq_some h)) (by decide)
  have hk : byteLen "k".toList = 1 := by decide
  have h7 : byteLen "k".toList + byteLen (List.replicate n 'x') + 1 < MaxBufferSize := by
    rw [byteLen_replicate_x, hk]
    omega
  exact ⟨h1, replicate_x_ne_nil n hn, h3, h4, newline_not_mem_replicate_x n, h6, h7⟩

/-- `Replay` after `Append` of `k` with a value of `MaxBufferSize` characters `x`. -/
theorem replay_line_too_long (n : Nat) (hn : MaxBufferSize ≤ n) (hsize : n + 3 ≤ WALMaxSize) :
    ((appendAll (NewWAL true none) [("k".toList, List.replicate n 'x')]).Flush).Replay =
      (GoMap.empty, true) := by
  have hk : byteLen "k".toList = 1 := by decide
  have hpos : 0 < n := lt_of_lt_of_le (by decide) hn
  refine replay_long_line "k".toList _ (by decide) (replicate_x_ne_nil n hpos) ?_ ?_ ?_
  · intro h
    rcases List.mem_append.1 h with h | h
    · exact absurd h (by decide)
    · rcases List.mem_cons.1 h with h | h
      · exact absurd h (by decide)
      · exact newline_not_mem_replicate_x n h
  · rw [byteLen_append, byteLen, byteLen_replicate_x]
    omega
  · rw [byteLen_replicate_x, hk]
    omega

/-- `Replay` after `m + 1` calls of `Append` of `k` with a value of `n` characters `x`
each, longer than the buffer of the writer, the last of which takes the file on disk
past `WALMaxSize`: the log has continued in a new file, which holds nothing. -/
theorem replay_after_rotation (m n : Nat) (hn : 0 < n)
    (hfit : m * (n + 3) ≤ WALMaxSize)
    (hbig : WALMaxSize + BufferSize < (m + 1) * (n + 3)) :
    ((appendAll (NewWAL true none)
      (List.replicate m ("k".toList, List.replicate n 'x') ++
        [("k".toList, List.replicate n 'x')])).Flush).Replay = (GoMap.empty, false) := by
  have hk : byteLen "k".toList = 1 := by decide
  have hk1 : "k".toList ≠ [] := by decide
  have hval := replicate_x_ne_nil n hn
  have hbl := byteLen_replicate_x n
  generalize List.replicate n 'x' = v at hval hbl ⊢
  generalize "k".toList = k at hk hk1 ⊢
  have hmem : ∀ e ∈ List.replicate m (k, v), e = (k, v) := fun e he => List.eq_of_mem_replicate he
  have h0 : byteLen (NewWAL true none).log = 0 := rfl
  obtain ⟨h1, _, _, h4⟩ := appendAll_sync (List.replicate m (k, v)) (NewWAL true none)
    rfl rfl rfl (fun e he => by rw [hmem e he]; exact ⟨hk1, hval⟩)
    (by
      rw [h0, Nat.zero_add, logSize_replicate]
      show m * (byteLen k + byteLen v + 2) ≤ WALMaxSize
      rw [hk, hbl]
      have : 1 + n + 2 = n + 3 := by omega
      rw [this]
      exact hfit)
  have hb := buffered_appendAll (List.replicate m (k, v)) (NewWAL true none) (Nat.zero_le _)
  have hl : ∀ j : Nat, byteLen ((List.map (fun (e : Str × Str) => e.1 ++ ':' :: e.2)
      (List.replicate j (k, v))).flatMap (fun l => l ++ ['\n'])) =
      j * (byteLen k + byteLen v + 2) := by
    intro j
    induction j with
    | zero => simp [byteLen]
    | succ j ih =>
      have he : (k, v).1 ++ ':' :: (k, v).2 ++ ['\n'] = k ++ (':' :: (v ++ ['\n'])) := by
        simp only [List.append_assoc, List.cons_append]
      rw [List.replicate_succ, List.map_cons, List.flatMap_cons, byteLen_append, ih,
        Nat.succ_mul, he, byteLen_entry]
      omega
  have hlen : byteLen (appendAll (NewWAL true none) (List.replicate m (k, v))).log =
      m * (n + 3) := by
    have hnil : (NewWAL true none).log = [] := rfl
    rw [h4, hnil, List.nil_append, hl, hk, hbl]
    have : 1 + n + 2 = n + 3 := by omega
    rw [this]
  have hfile := append_rotates (appendAll (NewWAL true none) (List.replicate m (k, v)))
    k v hk1 hval h1 hb (by
      rw [hlen, hk, hbl]
      have : (m + 1) * (n + 3) = m * (n + 3) + (1 + n + 2) := by
        rw [Nat.succ_mul]
        omega
      omega)
  have hstep : appendAll (NewWAL true none) (List.replicate m (k, v) ++ [(k, v)]) =
      ((appendAll (NewWAL true none) (List.replicate m (k, v))).Append k v).1 := by
    rw [appendAll_append]
    rfl
  rw [hstep]
  unfold Replay
  rw [hfile]
  rfl

end WAL

namespace WAL

theorem testMode_syncWrite (w : WAL) (s : Str) : (w.syncWrite s).testMode = w.testMode := by
  unfold syncWrite checkRotation
  split
  · exact (writeString_log w s).2.1
  · exact (writeString_log w s).2.1

/-- What `Append` does with a key and a value that are not empty. -/
theorem append_accepted (w : WAL) (key value : Str) (hk : key ≠ []) (hv : value ≠ []) :
    (w.Append key value).1 =
      if w.testMode = true then w.syncWrite (key ++ (':' :: (value ++ ['\n'])))
      else if w.logQueue.length < logQueueSize then
        { w with logQueue := w.logQueue ++ [key ++ (':' :: (value ++ ['\n']))] }
      else w.syncWrite (key ++ (':' :: (value ++ ['\n']))) := by
  unfold Append
  rw [if_neg (fun h => h.elim hk hv)]
  split_ifs <;> rfl

/-- A direct write with an empty queue, below the rotation size. -/
theorem syncWrite_log (w : WAL) (s base : Str) (hr : w.rotated = []) (hq : w.logQueue = [])
    (hb : w.log = base) (hsize : byteLen base + byteLen s ≤ WALMaxSize) :
    (w.syncWrite s).rotated = [] ∧ (w.syncWrite s).logQueue = [] ∧
      (w.syncWrite s).log = base ++ s := by
  rw [syncWrite_small w s (by
    rw [hb, byteLen_append]
    exact hsize)]
  obtain ⟨a1, _, a3, a4⟩ := writeString_log w s
  exact ⟨a4.trans hr, a3.trans hq, by rw [a1, hb]⟩

/-- One turn of the background task keeps what log and queue hold together. -/
theorem processQueue_log (w : WAL) (base : Str) (hr : w.rotated = [])
    (hb : w.log ++ w.logQueue.flatten = base) (hsize : byteLen base ≤ WALMaxSize) :
    w.processQueue.rotated = [] ∧ w.processQueue.testMode = w.testMode ∧
      (w.logQueue = [] → w.processQueue.logQueue = []) ∧
      w.processQueue.log ++ w.processQueue.logQueue.flatten = base := by
  unfold processQueue
  cases hqq : w.logQueue with
  | nil =>
    refine ⟨hr, rfl, fun _ => hqq, ?_⟩
    dsimp only
    rw [hqq]
    rw [hqq] at hb
    exact hb
  | cons entry more =>
    dsimp only
    rw [hqq, List.flatten_cons] at hb
    have hlen := congrArg byteLen hb
    simp only [byteLen_append] at hlen
    rw [syncWrite_small _ _ (by
      show byteLen (w.log ++ entry) ≤ WALMaxSize
      rw [byteLen_append]
      omega)]
    obtain ⟨a1, a2, a3, a4⟩ := writeString_log { w with logQueue := more } entry
    refine ⟨a4.trans hr, a2, fun h => absurd h (List.cons_ne_nil _ _), ?_⟩
    rw [a3, a1, ← hb]
    simp only [List.append_assoc]

/-- In either mode, as long as the queue has room at every `Append`: log and queue
together hold the lines of the appended entries, in order. -/
theorem runSteps_log (steps : List Step) :
    ∀ (w : WAL) (base : Str), w.rotated = [] → (w.testMode = true → w.logQueue = []) →
      w.log ++ w.logQueue.flatten = base →
      (∀ e ∈ appended steps, e.1 ≠ [] ∧ e.2 ≠ []) →
      byteLen base + logSize (appended steps) ≤ WALMaxSize →
      queueHasRoom w steps →
      (runSteps w steps).log ++ (runSteps w steps).logQueue.flatten =
        base ++ ((appended steps).map (fun e => e.1 ++ ':' :: e.2)).flatMap (fun l => l ++ ['\n']) := by
  induction steps with
  | nil =>
    intro w base _ _ hb _ _ _
    simpa [runSteps, appended] using hb
  | cons st rest ih =>
    intro w base hr hq hb hne hsize hroom
    cases st with
    | append key value =>
      obtain ⟨hk, hv⟩ := hne (key, value) (List.mem_cons_self _ _)
      have happ : appended (Step.append key value :: rest) = (key, value) :: appended rest := rfl
      have hrun : runSteps w (Step.append key value :: rest) =
          runSteps (w.Append key value).1 rest := rfl
      have hroom1 : w.logQueue.length < logQueueSize := hroom.1
      have hroom2 : queueHasRoom (w.Append key value).1 rest := hroom.2
      rw [happ, logSize_cons] at hsize
      dsimp only at hsize
      have htarget : base ++ (((key, value) :: appended rest).map
          (fun e => e.1 ++ ':' :: e.2)).flatMap (fun l => l ++ ['\n']) =
          (base ++ ((key ++ ':' :: value) ++ ['\n'])) ++ ((appended rest).map
            (fun e => e.1 ++ ':' :: e.2)).flatMap (fun l => l ++ ['\n']) := by
        simp only [List.map_cons, List.flatMap_cons, List.append_assoc, List.cons_append,
          List.nil_append]
      rw [happ, hrun, htarget]
      have hne2 : ∀ e ∈ appended rest, e.1 ≠ [] ∧ e.2 ≠ [] :=
        fun e he => hne e (by rw [happ]; exact List.mem_cons_of_mem _ he)
      have hentry : key ++ (':' :: (value ++ ['\n'])) = (key ++ ':' :: value) ++ ['\n'] := by
        simp only [List.append_assoc, List.cons_append]
      have hsize2 : byteLen (base ++ ((key ++ ':' :: value) ++ ['\n'])) + logSize (appended rest) ≤
          WALMaxSize := by
        rw [byteLen_append, ← hentry, byteLen_entry]
        omega
      rw [append_accepted w key value hk hv] at hroom2 ⊢
      by_cases htm : w.testMode = true
      · rw [if_pos htm] at hroom2 ⊢
        have hq0 := hq htm
        rw [hq0, List.flatten_nil, List.append_nil] at hb
        obtain ⟨b1, b2, b3⟩ := syncWrite_log w (key ++ (':' :: (value ++ ['\n']))) base hr hq0 hb
          (by rw [byteLen_entry]; omega)
        refine ih (w.syncWrite (key ++ (':' :: (value ++ ['\n'])))) _ b1 (fun _ => b2) ?_
          hne2 hsize2 hroom2
        rw [b2, List.flatten_nil, List.append_nil, b3, hentry]
      · rw [if_neg htm, if_pos hroom1] at hroom2 ⊢
        refine ih { w with logQueue := w.logQueue ++ [key ++ (':' :: (value ++ ['\n']))] } _ hr
          (fun h => absurd h htm) ?_ hne2 hsize2 hroom2
        show w.log ++ (w.logQueue ++ [key ++ (':' :: (value ++ ['\n']))]).flatten = _
        rw [List.flatten_append, ← hb, hentry]
        simp only [List.flatten_cons, List.flatten_nil, List.append_nil, List.append_assoc]
    | background =>
      have hrun : runSteps w (Step.background :: rest) = runSteps w.processQueue rest := rfl
      have hroom2 : queueHasRoom w.processQueue rest := hroom
      have happ : appended (Step.background :: rest) = appended rest := rfl
      rw [happ] at hsize hne ⊢
      rw [hrun]
      obtain ⟨c1, c2, c3, c4⟩ := processQueue_log w base hr hb (by omega)
      exact ih _ base c1 (fun h => c3 (hq (c2 ▸ h))) c4 hne hsize hroom2
    | flush =>
      have hrun : runSteps w (Step.flush :: rest) = runSteps w.Flush rest := rfl
      have hroom2 : queueHasRoom w.Flush rest := hroom
      have happ : appended (Step.flush :: rest) = appended rest := rfl
      rw [happ] at hsize hne ⊢
      rw [hrun]
      exact ih w.Flush base hr hq hb hne hsize hroom2

/-- The round trip in either mode (not only with `TEST_MODE=true`): for every run of
`Append` calls with replayable entries, turns of the background task and flushes on a
new log that stays within `WALMaxSize`, with room in the queue at every `Append` and
the queue empty at the end, `Replay` after `Flush` returns no error and the last value
of every key. -/
theorem replay_after_steps (testMode : Bool) (steps : List Step)
    (hvalid : ∀ e ∈ appended steps, replayable e)
    (hsize : logSize (appended steps) ≤ WALMaxSize)
    (hroom : queueHasRoom (NewWAL testMode none) steps)
    (hempty : (runSteps (NewWAL testMode none) steps).logQueue = []) :
    ((runSteps (NewWAL testMode none) steps).Flush).Replay.2 = false ∧
    ∀ k, ((runSteps (NewWAL testMode none) steps).Flush).Replay.1.get k =
      lookup k (appended steps).reverse := by
  have h := runSteps_log steps (NewWAL testMode none) [] rfl (fun _ => rfl) rfl
    (fun e he => ⟨(hvalid e he).1, (hvalid e he).2.1⟩)
    (by rw [byteLen, Nat.zero_add]; exact hsize) hroom
  rw [hempty, List.flatten_nil, List.append_nil, List.nil_append] at h
  have hrep := replay_entries ((runSteps (NewWAL testMode none) steps).Flush) (appended steps)
    hvalid (by rw [file_flush, h])
  refine ⟨by rw [hrep], fun k => ?_⟩
  rw [hrep, GoMap.get_foldl_set]
  cases lookup k (appended steps).reverse <;> rfl

theorem logQueue_syncWrite (w : WAL) (s : Str) : (w.syncWrite s).logQueue = w.logQueue := by
  unfold syncWrite checkRotation
  split
  · exact (writeString_log w s).2.2.1
  · exact (writeString_log w s).2.2.1

/-- In synchronous mode the queue stays empty. -/
theorem append_sync_state (w : WAL) (key value : Str) (ht : w.testMode = true)
    (hq : w.logQueue = []) :
    (w.Append key value).1.testMode = true ∧ (w.Append key value).1.logQueue = [] := by
  unfold Append
  split_ifs with h1
  · exact ⟨ht, hq⟩
  · exact ⟨(testMode_syncWrite w _).trans ht, (logQueue_syncWrite w _).trans hq⟩

/-- In synchronous mode every `Append` finds the queue empty, and it is empty at the
end. -/
theorem queue_sync (steps : List Step) :
    ∀ w : WAL, w.testMode = true → w.logQueue = [] →
      queueHasRoom w steps ∧ (runSteps w steps).logQueue = [] := by
  induction steps with
  | nil => intro w _ hq; exact ⟨trivial, hq⟩
  | cons st rest ih =>
    intro w ht hq
    cases st with
    | append key value =>
      obtain ⟨h1, h2⟩ := append_sync_state w key value ht hq
      obtain ⟨r1, r2⟩ := ih (w.Append key value).1 h1 h2
      refine ⟨⟨?_, r1⟩, r2⟩
      rw [hq]
      decide
    | background =>
      have hp : w.processQueue = w := by
        unfold processQueue
        rw [hq]
      have hrun : runSteps w (Step.background :: rest) = runSteps w.processQueue rest := rfl
      have hroom : queueHasRoom w (Step.background :: rest) = queueHasRoom w.processQueue rest :=
        rfl
      rw [hrun, hroom, hp]
      exact ih w ht hq
    | flush =>
      exact ih w.Flush ht hq

theorem runSteps_append (w : WAL) (l1 l2 : List Step) :
    runSteps w (l1 ++ l2) = runSteps (runSteps w l1) l2 := by
  unfold runSteps
  rw [List.foldl_append]

theorem appended_append (l1 l2 : List Step) : appended (l1 ++ l2) = appended l1 ++ appended l2 := by
  induction l1 with
  | nil => rfl
  | cons st rest ih =>
    cases st with
    | append key value =>
      show (key, value) :: appended (rest ++ l2) = (key, value) :: appended rest ++ appended l2
      rw [ih]
      rfl
    | background => exact ih
    | flush => exact ih

theorem appended_replicate_append (n : Nat) (key value : Str) :
    appended (List.replicate n (Step.append key value)) = List.replicate n (key, value) := by
  induction n with
  | zero => rfl
  | succ n ih =>
    rw [List.replicate_succ, List.replicate_succ]
    show (key, value) :: appended (List.replicate n (Step.append key value)) = _
    rw [ih]

theorem appended_replicate_background (n : Nat) :
    appended (List.replicate n Step.background) = [] := by
  induction n with
  | zero => rfl
  | succ n ih =>
    rw [List.replicate_succ]
    exact ih

/-- In the default mode, while the queue has room, `Append` only queues the entry. -/
theorem runSteps_queue (n : Nat) (key value : Str) (hk : key ≠ []) (hv : value ≠ []) :
    ∀ w : WAL, w.testMode = false → w.logQueue.length + n ≤ logQueueSize →
      runSteps w (List.replicate n (Step.append key value)) =
        { w with logQueue := w.logQueue ++
            List.replicate n (key ++ (':' :: (value ++ ['\n']))) } := by
  induction n with
  | zero =>
    intro w _ _
    show w = { w with logQueue := w.logQueue ++ [] }
    rw [List.append_nil]
  | succ n ih =>
    intro w ht hlen
    have hstep : (w.Append key value).1 =
        { w with logQueue := w.logQueue ++ [key ++ (':' :: (value ++ ['\n']))] } := by
      rw [append_accepted w key value hk hv, if_neg (by rw [ht]; decide), if_pos (by omega)]
    rw [List.replicate_succ]
    show runSteps (w.Append key value).1 (List.replicate n (Step.append key value)) = _
    rw [hstep, ih ({ w with logQueue := w.logQueue ++ [key ++ (':' :: (value ++ ['\n']))] } : WAL)
      ht (by
        show (w.logQueue ++ [key ++ (':' :: (value ++ ['\n']))]).length + n ≤ logQueueSize
        rw [List.length_append, List.length_singleton]
        omega)]
    show ({ w with logQueue := (w.logQueue ++ [key ++ (':' :: (value ++ ['\n']))]) ++
      List.replicate n (key ++ (':' :: (value ++ ['\n']))) } : WAL) = _
    rw [List.append_assoc, List.singleton_append, ← List.replicate_succ]

/-- The background task writes a queue out in order, below the rotation size. -/
theorem runSteps_drain (m : Nat) :
    ∀ w : WAL, w.rotated = [] → byteLen (w.log ++ w.logQueue.flatten) ≤ WALMaxSize →
      m = w.logQueue.length →
      (runSteps w (List.replicate m Step.background)).logQueue = [] ∧
      (runSteps w (List.replicate m Step.background)).log = w.log ++ w.logQueue.flatten := by
  induction m with
  | zero =>
    intro w _ _ hm
    have hq : w.logQueue = [] := List.length_eq_zero.1 hm.symm
    refine ⟨hq, ?_⟩
    show w.log = _
    rw [hq, List.flatten_nil, List.append_nil]
  | succ m ih =>
    intro w hr hsize hm
    cases hqq : w.logQueue with
    | nil =>
      rw [hqq] at hm
      cases hm
    | cons entry more =>
      rw [hqq, List.flatten_cons, byteLen_append, byteLen_append] at hsize
      have hp : w.processQueue = ({ w with logQueue := more } : WAL).writeString entry := by
        unfold processQueue
        rw [hqq]
        exact syncWrite_small _ _ (by
          show byteLen (w.log ++ entry) ≤ WALMaxSize
          rw [byteLen_append]
          omega)
      obtain ⟨a1, _, a3, a4⟩ := writeString_log ({ w with logQueue := more } : WAL) entry
      rw [List.replicate_succ]
      show (runSteps w.processQueue (List.replicate m Step.background)).logQueue = [] ∧
        (runSteps w.processQueue (List.replicate m Step.background)).log = _
      rw [hp]
      have hlog : (({ w with logQueue := more } : WAL).writeString entry).log = w.log ++ entry := a1
      have hqueue : (({ w with logQueue := more } : WAL).writeString entry).logQueue = more := a3
      obtain ⟨r1, r2⟩ := ih (({ w with logQueue := more } : WAL).writeString entry)
        (a4.trans hr)
        (by
          rw [hlog, hqueue, byteLen_append, byteLen_append]
          omega)
        (by
          rw [hqueue]
          rw [hqq, List.length_cons] at hm
          omega)
      refine ⟨r1, ?_⟩
      rw [r2, hlog, hqueue, List.flatten_cons, List.append_assoc]

theorem flatten_replicate_lines (n : Nat) (e : Str × Str) :
    (List.replicate n (e.1 ++ (':' :: (e.2 ++ ['\n'])))).flatten =
      ((List.replicate n e).map (fun e => e.1 ++ ':' :: e.2)).flatMap (fun l => l ++ ['\n']) := by
  induction n with
  | zero => rfl
  | succ n ih =>
    rw [List.replicate_succ, List.replicate_succ, List.flatten_cons, List.map_cons,
      List.flatMap_cons, ih]
    simp only [List.append_assoc, List.cons_append]

theorem byteLen_flatten_replicate (n : Nat) (l : Str) :
    byteLen (List.replicate n l).flatten = n * byteLen l := by
  induction n with
  | zero =>
    rw [Nat.zero_mul]
    rfl
  | succ n ih => rw [List.replicate_succ, List.flatten_cons, byteLen_append, ih, Nat.succ_mul,
      Nat.add_comm]

/-- In the default mode, with the queue full of entries `k:old`, `Append(k, new)` is
written directly, ahead of the queue; once the background task has written the queue
`Replay` maps `k` to `old`, though `new` was appended last. -/
theorem replay_full_queue (n : Nat) (hn : n = logQueueSize) :
    (runSteps (NewWAL false none)
      (List.replicate n (Step.append "k".toList "old".toList) ++
        (Step.append "k".toList "new".toList :: List.replicate n Step.background))).logQueue
      = [] ∧
    ((runSteps (NewWAL false none)
      (List.replicate n (Step.append "k".toList "old".toList) ++
        (Step.append "k".toList "new".toList ::
          List.replicate n Step.background))).Flush).Replay.1.get "k".toList =
      some "old".toList ∧
    lookup "k".toList (appended
      (List.replicate n (Step.append "k".toList "old".toList) ++
        (Step.append "k".toList "new".toList :: List.replicate n Step.background))).reverse =
      some "new".toList := by
  have hold : replayable ("k".toList, "old".toList) := by decide
  have hnew : replayable ("k".toList, "new".toList) := by decide
  have hlo : byteLen ("k".toList ++ (':' :: ("old".toList ++ ['\n']))) = 6 := by decide
  have hln : byteLen ("k".toList ++ (':' :: ("new".toList ++ ['\n']))) = 6 := by decide
  have hpos : 0 < n := by rw [hn]; decide
  have hnum : 6 + n * 6 ≤ WALMaxSize := by rw [hn]; decide
  -- the queue fills
  have h1 := runSteps_queue n "k".toList "old".toList (by decide) (by decide) (NewWAL false none)
    rfl (by show 0 + n ≤ logQueueSize; omega)
  obtain ⟨w0, hw0⟩ : ∃ w0 : WAL, w0 = runSteps (NewWAL false none)
      (List.replicate n (Step.append "k".toList "old".toList)) := ⟨_, rfl⟩
  rw [← hw0] at h1
  have ht0 : w0.testMode = false := by rw [h1]; rfl
  have hl0 : w0.log = [] := by rw [h1]; rfl
  have hr0 : w0.rotated = [] := by rw [h1]; rfl
  have hq0 : w0.logQueue = List.replicate n ("k".toList ++ (':' :: ("old".toList ++ ['\n']))) := by
    rw [h1]
    rfl
  -- the next entry is written directly
  have h2 : (Step.append "k".toList "new".toList :: List.replicate n Step.background) =
      [Step.append "k".toList "new".toList] ++ List.replicate n Step.background := rfl
  rw [runSteps_append, ← hw0, h2, runSteps_append]
  have happ : runSteps w0 [Step.append "k".toList "new".toList] =
      w0.writeString ("k".toList ++ (':' :: ("new".toList ++ ['\n']))) := by
    show (w0.Append "k".toList "new".toList).1 = _
    rw [append_accepted _ _ _ (by decide) (by decide), if_neg (by rw [ht0]; decide), if_neg (by
      rw [hq0, List.length_replicate]
      omega)]
    exact syncWrite_small _ _ (by
      rw [hl0, List.nil_append, hln]
      decide)
  rw [happ]
  obtain ⟨a1, _, a3, a4⟩ := writeString_log w0 ("k".toList ++ (':' :: ("new".toList ++ ['\n'])))
  rw [hl0, List.nil_append] at a1
  rw [hq0] at a3
  rw [hr0] at a4
  -- the background task writes the queue
  obtain ⟨d1, d2⟩ := runSteps_drain n _ a4
    (by
      rw [a1, a3, byteLen_append, byteLen_flatten_replicate, hln, hlo]
      exact hnum)
    (by rw [a3, List.length_replicate])
  rw [a1, a3] at d2
  refine ⟨d1, ?_, ?_⟩
  · have hfile : WAL.file (WAL.Flush (runSteps
        (w0.writeString ("k".toList ++ (':' :: ("new".toList ++ ['\n']))))
        (List.replicate n Step.background))) =
        ((("k".toList, "new".toList) :: List.replicate n ("k".toList, "old".toList)).map
          (fun e => e.1 ++ ':' :: e.2)).flatMap (fun l => l ++ ['\n']) := by
      rw [file_flush, d2, flatten_replicate_lines n ("k".toList, "old".toList), List.map_cons,
        List.flatMap_cons]
      rfl
    have hrep := replay_entries _ (("k".toList, "new".toList) ::
      List.replicate n ("k".toList, "old".toList))
      (fun e he => by
        rcases List.mem_cons.1 he with h | h
        · rw [h]; exact hnew
        · rw [List.eq_of_mem_replicate h]; exact hold) hfile
    rw [hrep, GoMap.get_foldl_set, List.reverse_cons, List.reverse_replicate]
    obtain ⟨j, rfl⟩ := Nat.exists_eq_succ_of_ne_zero (Nat.pos_iff_ne_zero.1 hpos)
    rw [List.replicate_succ, List.cons_append, lookup_cons, if_pos rfl]
    rfl
  · rw [appended_append, appended_replicate_append]
    have hb : appended (Step.append "k".toList "new".toList :: List.replicate n Step.background) =
        [("k".toList, "new".toList)] := by
      show ("k".toList, "new".toList) :: appended (List.replicate n Step.background) = _
      rw [appended_replicate_background]
    rw [← h2, hb, List.reverse_append, List.reverse_singleton, List.singleton_append, lookup_cons,
      if_pos rfl]

end WAL

/-- C2, as amended. On a new log, in synchronous mode (`TEST_MODE=true`), or in the
default mode when every `Append` found room in the queue and the background task has
written every queued entry: for every run of `Append` calls (between turns of the
background task and flushes) with non-empty keys and values, keys without `:` and
newline, values without newline and not ending in a carriage return, each line
shorter than `MaxBufferSize` bytes and the whole log at most `WALMaxSize` bytes (no
rotation), `Replay` after `Flush` returns no error and exactly the map that sends each
appended key to the value of its last `Append`; so does `Replay` after `Close` and
reopening the same file. -/
theorem WAL.replay_after_append (testMode : Bool) (steps : List WAL.Step)
    (hvalid : ∀ e ∈ WAL.appended steps, WAL.replayable e)
    (hsize : WAL.logSize (WAL.appended steps) ≤ WALMaxSize)
    (hqueue : testMode = true ∨
      (WAL.queueHasRoom (WAL.NewWAL testMode none) steps ∧
        (WAL.runSteps (WAL.NewWAL testMode none) steps).logQueue = [])) :
    ((WAL.runSteps (WAL.NewWAL testMode none) steps).Flush).Replay.2 = false ∧
    (∀ k, ((WAL.runSteps (WAL.NewWAL testMode none) steps).Flush).Replay.1.get k =
      lookup k (WAL.appended steps).reverse) ∧
    (∀ drained, (WAL.NewWAL testMode
        (some ((WAL.runSteps (WAL.NewWAL testMode none) steps).Close drained).file)).Replay =
      ((WAL.runSteps (WAL.NewWAL testMode none) steps).Flush).Replay) := by
  have hq : WAL.queueHasRoom (WAL.NewWAL testMode none) steps ∧
      (WAL.runSteps (WAL.NewWAL testMode none) steps).logQueue = [] := by
    rcases hqueue with h | h
    · exact WAL.queue_sync steps (WAL.NewWAL testMode none) h rfl
    · exact h
  obtain ⟨hroom, hempty⟩ := hq
  have hlog := WAL.runSteps_log steps (WAL.NewWAL testMode none) [] rfl (fun _ => rfl) rfl
    (fun e he => ⟨(hvalid e he).1, (hvalid e he).2.1⟩)
    (by rw [byteLen, Nat.zero_add]; exact hsize) hroom
  rw [hempty, List.flatten_nil, List.append_nil, List.nil_append] at hlog
  obtain ⟨h1, h2⟩ := WAL.replay_after_steps testMode steps hvalid hsize hroom hempty
  refine ⟨h1, h2, fun drained => ?_⟩
  have hclose : ((WAL.runSteps (WAL.NewWAL testMode none) steps).Close drained).file =
      (WAL.runSteps (WAL.NewWAL testMode none) steps).log := by
    unfold WAL.Close
    rw [WAL.iterate_processQueue drained _ hempty, WAL.file_flush]
    rfl
  rw [WAL.replay_entries ((WAL.runSteps (WAL.NewWAL testMode none) steps).Flush)
    (WAL.appended steps) hvalid (by rw [WAL.file_flush, hlog])]
  exact WAL.replay_entries _ (WAL.appended steps) hvalid
    (by rw [hclose, WAL.file_newWAL, hlog])

/-- The replay test: `Append(txn123, approved)`, `Append(txn456, failed)`, `Flush`;
`Replay` returns no error and both pairs.  In the default mode too, when the
background task has written both entries. -/
theorem WAL.replay_after_append_witness :
    ((WAL.runSteps (WAL.NewWAL true none)
      [WAL.Step.append "txn123".toList "approved".toList,
        WAL.Step.append "txn456".toList "failed".toList]).Flush).Replay.2 = false ∧
    ((WAL.runSteps (WAL.NewWAL true none)
      [WAL.Step.append "txn123".toList "approved".toList,
        WAL.Step.append "txn456".toList "failed".toList]).Flush).Replay.1.get
      "txn123".toList = some "approved".toList ∧
    ((WAL.runSteps (WAL.NewWAL true none)
      [WAL.Step.append "txn123".toList "approved".toList,
        WAL.Step.append "txn456".toList "failed".toList]).Flush).Replay.1.get
      "txn456".toList = some "failed".toList ∧
    ((WAL.runSteps (WAL.NewWAL false none)
      [WAL.Step.append "txn123".toList "approved".toList,
        WAL.Step.append "txn456".toList "failed".toList, WAL.Step.background,
        WAL.Step.background]).Flush).Replay.1.get
      "txn456".toList = some "failed".toList :=
  ⟨(WAL.replay_after_append true [WAL.Step.append "txn123".toList "approved".toList,
      WAL.Step.append "txn456".toList "failed".toList] (by decide) (by decide) (Or.inl rfl)).1,
   ((WAL.replay_after_append true [WAL.Step.append "txn123".toList "approved".toList,
      WAL.Step.append "txn456".toList "failed".toList] (by decide) (by decide)
      (Or.inl rfl)).2.1 "txn123".toList).trans (by decide),
   ((WAL.replay_after_append true [WAL.Step.append "txn123".toList "approved".toList,
      WAL.Step.append "txn456".toList "failed".toList] (by decide) (by decide)
      (Or.inl rfl)).2.1 "txn456".toList).trans (by decide),
   ((WAL.replay_after_append false [WAL.Step.append "txn123".toList "approved".toList,
      WAL.Step.append "txn456".toList "failed".toList, WAL.Step.background,
      WAL.Step.background] (by decide) (by decide)
      (Or.inr (by decide))).2.1 "txn456".toList).trans (by decide)⟩

/-- C2 as stated fails, in six ways.  In synchronous mode, after `Append(k, "v\r")`
and `Flush`, `Replay` maps `k` to `"v"`: the value has no `:` and no newline, but the
line scanner drops the carriage return at the end of the line.  In the default
(asynchronous) mode, after `Append(k, v)` and `Flush` with the entry still in the
queue of the background task, `Replay` returns the empty map.  On a log file that
holds `x:1` already, `Replay` after `Append(k, v)` maps `x` too.  After `Append` of `k`
with a value of 1048576 characters `x`, the line is longer than the scanner's buffer
of `MaxBufferSize`: `Replay` returns the scanner's error and no `k`.  After eleven
calls of `Append` of `k` with a value of 1000000 characters `x` (each a replayable
entry), the file has passed `WALMaxSize` at the eleventh and the log continues in a
new file: `Replay` returns the empty map.  In the default mode, after 1000 calls
`Append(k, old)` have filled the queue, `Append(k, new)` is written directly, ahead of
them; when the background task has written the queue, `Replay` maps `k` to `old`. -/
theorem WAL.replay_loses_carriage_return :
    (((WAL.appendAll (WAL.NewWAL true none) [("k".toList, "v\r".toList)]).Flush).Replay.1.get
        "k".toList = some "v".toList ∧
      lookup "k".toList [("k".toList, "v\r".toList)].reverse = some "v\r".toList) ∧
    ((WAL.appendAll (WAL.NewWAL false none) [("k".toList, "v".toList)]).Flush).Replay.1.get
      "k".toList = none ∧
    (((WAL.appendAll (WAL.NewWAL true (some "x:1\n".toList))
        [("k".toList, "v".toList)]).Flush).Replay.1.get "x".toList = some "1".toList ∧
      lookup "x".toList [("k".toList, "v".toList)].reverse = none) ∧
    ((WAL.appendAll (WAL.NewWAL true none)
        [("k".toList, List.replicate 1048576 'x')]).Flush).Replay = (GoMap.empty, true) ∧
    (((WAL.appendAll (WAL.NewWAL true none)
        (List.replicate 10 ("k".toList, List.replicate 1000000 'x') ++
          [("k".toList, List.replicate 1000000 'x')])).Flush).Replay = (GoMap.empty, false) ∧
      WAL.replayable ("k".toList, List.replicate 1000000 'x')) ∧
    ((WAL.runSteps (WAL.NewWAL false none)
        (List.replicate 1000 (WAL.Step.append "k".toList "old".toList) ++
          (WAL.Step.append "k".toList "new".toList ::
            List.replicate 1000 WAL.Step.background))).logQueue = [] ∧
      ((WAL.runSteps (WAL.NewWAL false none)
        (List.replicate 1000 (WAL.Step.append "k".toList "old".toList) ++
          (WAL.Step.append "k".toList "new".toList ::
            List.replicate 1000 WAL.Step.background))).Flush).Replay.1.get "k".toList =
        some "old".toList ∧
      lookup "k".toList (WAL.appended
        (List.replicate 1000 (WAL.Step.append "k".toList "old".toList) ++
          (WAL.Step.append "k".toList "new".toList ::
            List.replicate 1000 WAL.Step.background))).reverse = some "new".toList) :=
  ⟨by decide, by decide, by decide,
    WAL.replay_line_too_long 1048576 (by decide) (by decide),
    ⟨WAL.replay_after_rotation 10 1000000 (by decide) (by decide) (by decide),
      WAL.replayable_long_value 1000000 (by decide) (by decide)⟩,
    WAL.replay_full_queue 1000 rfl⟩


/-! ## Compaction -/

theorem lookup_perm {β : Type} (k : Str) {l1 l2 : List (Str × β)} (h : l1.Perm l2)
    (hn : (l1.map Prod.fst).Nodup) : lookup k l1 = lookup k l2 := by
  have hn2 : (l2.map Prod.fst).Nodup := (h.map Prod.fst).nodup_iff.1 hn
  cases h1 : lookup k l1 with
  | none =>
    have := (lookup_eq_none_iff k l1).1 h1
    rw [(h.map Prod.fst).mem_iff] at this
    exact ((lookup_eq_none_iff k l2).2 this).symm
  | some v =>
    exact (lookup_of_mem hn2 (h.mem_iff.1 (mem_of_lookup h1))).symm

theorem compactCandidates_eq (testMode : Bool) (sstables : List Str) :
    compactCandidates testMode sstables = sstables := by
  unfold compactCandidates
  refine List.filter_eq_self.2 (fun p _ => ?_)
  cases testMode <;> rfl

/-- The scanning loop stores the records of the lines that are not tombstones. -/
theorem mergeLines_eq (lines : List Str) :
    ∀ data : GoMap Str, mergeLines data lines =
      (liveRecords (lines.filterMap lineRecord)).foldl (fun (m : GoMap Str) r => m.set r.1 r.2)
        data := by
  induction lines with
  | nil => intro data; rfl
  | cons line rest ih =>
    intro data
    unfold mergeLines liveRecords
    cases hj : jsonUnmarshal line with
    | none =>
      have : lineRecord line = none := by unfold lineRecord; rw [hj]; rfl
      rw [List.filterMap_cons_none this]
      exact ih data
    | some entry =>
      have : lineRecord line =
          some (entry.getD "key".toList [], entry.getD "value".toList []) := by
        unfold lineRecord; rw [hj]; rfl
      rw [List.filterMap_cons_some this]
      dsimp only
      by_cases hv : entry.getD "value".toList [] ≠ deleteMarker
      · rw [if_pos hv, List.filter_cons_of_pos (by simpa using hv), List.foldl_cons]
        exact ih _
      · rw [if_neg hv, List.filter_cons_of_neg (by simpa using hv)]
        exact ih _

/-- The loop over the candidates stores the records of all of them, in input order. -/
theorem mergeFiles_eq (fs : FS) (sstables : List Str) :
    ∀ data : GoMap Str, mergeFiles fs data sstables =
      (liveRecords (inputRecords fs sstables)).foldl (fun (m : GoMap Str) r => m.set r.1 r.2)
        data := by
  induction sstables with
  | nil => intro data; rfl
  | cons p rest ih =>
    intro data
    unfold mergeFiles inputRecords liveRecords inputFileRecords
    rw [List.flatMap_cons, List.filter_append, List.foldl_append]
    cases hp : fs.get p with
    | none => exact ih data
    | some text =>
      dsimp only [Option.elim]
      rw [ih, mergeLines_eq]
      rfl

theorem inputRecords_congr (fs1 fs2 : FS) (sstables : List Str)
    (h : ∀ p ∈ sstables, fs1.get p = fs2.get p) :
    inputRecords fs1 sstables = inputRecords fs2 sstables := by
  unfold inputRecords
  induction sstables with
  | nil => rfl
  | cons p rest ih =>
    rw [List.flatMap_cons, List.flatMap_cons, ih (fun q hq => h q (List.mem_cons_of_mem _ hq))]
    unfold inputFileRecords
    rw [h p (List.mem_cons_self _ _)]

theorem get_foldl_delete (paths : List Str) (dest : Str) (hd : dest ∉ paths) :
    ∀ fs : FS, (paths.foldl (fun (f : FS) p => f.delete p) fs).get dest = fs.get dest := by
  induction paths with
  | nil => intro fs; rfl
  | cons p rest ih =>
    intro fs
    rw [List.mem_cons, not_or] at hd
    rw [List.foldl_cons, ih hd.2, GoMap.get_delete_ne _ hd.1]

theorem get_foldl_delete_mem (paths : List Str) (p : Str) (hp : p ∈ paths) :
    ∀ fs : FS, (paths.foldl (fun (f : FS) q => f.delete q) fs).get p = none := by
  induction paths with
  | nil => exact absurd hp (List.not_mem_nil _)
  | cons q rest ih =>
    intro fs
    rw [List.foldl_cons]
    by_cases hr : p ∈ rest
    · exact ih hr _
    · have hq : p = q := (List.mem_cons.1 hp).resolve_right hr
      rw [get_foldl_delete rest p hr, hq, GoMap.get_delete_self]

/-- The file compaction leaves at the destination. -/
theorem compactSSTables_output (testMode : Bool) (ρ : RangeOrder) (fs : FS)
    (sstables : List Str) (compactionPath : Str) (h2 : 2 ≤ sstables.length)
    (hd : compactionPath ∉ sstables) :
    (CompactSSTables testMode ρ fs sstables compactionPath).get compactionPath =
      some (encodeData ρ (liveMerge (inputRecords fs sstables))) := by
  unfold CompactSSTables
  rw [compactCandidates_eq, if_neg (by omega), get_foldl_delete _ _ hd, GoMap.get_set_self,
    mergeFiles_eq]
  unfold liveMerge
  rw [inputRecords_congr (fs.set compactionPath []) fs sstables (fun p hp =>
    GoMap.get_set_ne _ _ (fun h => hd (h ▸ hp)))]

theorem length_le_flatMap_lines (lines : List Str) (l : Str) (h : l ∈ lines) :
    l.length ≤ (lines.flatMap (fun l => l ++ ['\n'])).length := by
  induction lines with
  | nil => cases h
  | cons a rest ih =>
    rw [List.flatMap_cons, List.length_append, List.length_append]
    rcases List.mem_cons.1 h with h1 | h1
    · subst h1; omega
    · have := ih h1; omega

theorem dropCR_jsonMarshal (key value : Str) : dropCR (jsonMarshal key value) = jsonMarshal key value := by
  have : (jsonMarshal key value).getLast? = some '}' := by
    unfold jsonMarshal
    rw [← List.append_assoc, ← List.append_assoc, List.getLast?_append_of_ne_nil _ (by decide)]
    rfl
  unfold dropCR
  rw [this, if_neg (by decide)]

/-- Reading back what the encoder wrote gives the pairs it was given. -/
theorem readRecords_encode (entries : List (Str × Str)) :
    readRecords (entries.flatMap (fun e => jsonMarshal e.1 e.2 ++ ['\n'])) = entries := by
  have htext : entries.flatMap (fun e => jsonMarshal e.1 e.2 ++ ['\n']) =
      (entries.map (fun e => jsonMarshal e.1 e.2)).flatMap (fun l => l ++ ['\n']) := by
    induction entries with
    | nil => rfl
    | cons e rest ih => rw [List.flatMap_cons, List.map_cons, List.flatMap_cons, ih]
  have hdec : ∀ l : List (Str × Str),
      List.filterMap (lineRecord ∘ dropCR ∘ fun e => jsonMarshal e.1 e.2) l = l := by
    intro l
    induction l with
    | nil => rfl
    | cons e rest ih =>
      rw [List.filterMap_cons_some (b := e) (by
        show lineRecord (dropCR (jsonMarshal e.1 e.2)) = some e
        rw [dropCR_jsonMarshal, lineRecord_jsonMarshal]), ih]
  unfold readRecords
  rw [htext, splitLines_lines]
  · rw [List.map_map, List.filterMap_map]
    exact hdec entries
  · intro l hl
    obtain ⟨e, _, rfl⟩ := List.mem_map.1 hl
    exact newline_not_mem_jsonMarshal e.1 e.2

/-- The records of the compacted file are the entries of the merged map. -/
theorem recordsAt_compacted (testMode : Bool) (ρ : RangeOrder) (fs : FS)
    (sstables : List Str) (compactionPath : Str) (h2 : 2 ≤ sstables.length)
    (hd : compactionPath ∉ sstables) :
    recordsAt (CompactSSTables testMode ρ fs sstables compactionPath) compactionPath =
      ρ.order (liveMerge (inputRecords fs sstables)).entries := by
  unfold recordsAt
  rw [compactSSTables_output testMode ρ fs sstables compactionPath h2 hd]
  exact readRecords_encode _

/-- Reading a key from the compacted file gives the last record of the key that is
not a tombstone. -/
theorem lookup_compacted (testMode : Bool) (ρ : RangeOrder) (fs : FS)
    (sstables : List Str) (compactionPath : Str) (h2 : 2 ≤ sstables.length)
    (hd : compactionPath ∉ sstables) (k : Str) :
    lookup k (recordsAt (CompactSSTables testMode ρ fs sstables compactionPath) compactionPath) =
      lookup k (liveRecords (inputRecords fs sstables)).reverse := by
  rw [recordsAt_compacted testMode ρ fs sstables compactionPath h2 hd,
    lookup_perm k (ρ.perm _) ((ρ.perm _).map Prod.fst |>.nodup_iff.2 (GoMap.nodup _))]
  show (liveMerge (inputRecords fs sstables)).get k = _
  unfold liveMerge
  rw [GoMap.get_foldl_set]
  cases lookup k (liveRecords (inputRecords fs sstables)).reverse <;> rfl

/-- The records compaction reads in the compaction test. -/
theorem compaction_test_records :
    inputRecords compactionTestFS compactionTestInputs =
    [("key1".toList, "value1".toList), ("key2".toList, "value2".toList),
      ("key3".toList, "DELETE".toList),
     ("key1".toList, "value1".toList), ("key2".toList, "value2".toList),
      ("key3".toList, "DELETE".toList),
     ("key1".toList, "value1".toList), ("key2".toList, "value2".toList),
      ("key3".toList, "DELETE".toList)] := by
  decide

/-- From a file whose lines are all shorter than 64 KiB compaction reads every record. -/
theorem inputFileRecords_eq_recordsAt (fs : FS) (p : Str)
    (h : ∀ l ∈ inputLines fs p, byteLen l < MaxScanTokenSize) :
    inputFileRecords fs p = recordsAt fs p := by
  unfold inputFileRecords recordsAt
  unfold inputLines at h
  cases hg : fs.get p with
  | none => rfl
  | some text =>
    rw [hg] at h
    show fileRecords text = readRecords text
    unfold fileRecords readRecords
    rw [scanLines_splitLines MaxScanTokenSize text h]

theorem inputRecords_eq_allRecords (fs : FS) (sstables : List Str)
    (h : ∀ p ∈ sstables, ∀ l ∈ inputLines fs p, byteLen l < MaxScanTokenSize) :
    inputRecords fs sstables = allRecords fs sstables := by
  unfold inputRecords allRecords
  induction sstables with
  | nil => rfl
  | cons p rest ih =>
    rw [List.flatMap_cons, List.flatMap_cons,
      inputFileRecords_eq_recordsAt fs p (h p (List.mem_cons_self _ _)),
      ih (fun q hq => h q (List.mem_cons_of_mem _ hq))]

theorem byteLen_flatMap_escapeChar_le (key value : Str) :
    byteLen (value.flatMap escapeChar) ≤ byteLen (jsonMarshal key value) := by
  have hq : byteLen (value.flatMap escapeChar) ≤ byteLen (quote value) := by
    unfold quote
    rw [byteLen, byteLen_append]
    omega
  unfold jsonMarshal
  simp only [byteLen_append]
  omega

theorem flatMap_escapeChar_replicate (n : Nat) :
    (List.replicate n 'x').flatMap escapeChar = List.replicate n 'x' := by
  induction n with
  | zero => rfl
  | succ n ih =>
    have hx : escapeChar 'x' = ['x'] := by decide
    rw [List.replicate_succ, List.flatMap_cons, ih, hx]
    rfl

theorem recordsAt_of_get (fs : FS) (p text : Str) (h : fs.get p = some text) :
    recordsAt fs p = readRecords text := by
  unfold recordsAt
  rw [h]
  rfl

theorem inputFileRecords_of_get (fs : FS) (p text : Str) (h : fs.get p = some text) :
    inputFileRecords fs p = fileRecords text := by
  unfold inputFileRecords
  rw [h]
  rfl

theorem longLineFS_get_first : longLineFS.get "sstable_1.db".toList = some longLineFile := by
  unfold longLineFS
  rw [GoMap.get_set_ne _ _ (by decide), GoMap.get_set_self]

theorem longLineFS_get_second :
    longLineFS.get "sstable_2.db".toList = some (jsonMarshal "c".toList "3".toList ++ ['\n']) :=
  GoMap.get_set_self _ _ _

/-- The scanner of compaction stops at the first line of `longLineFile`: nothing is
read from the file. -/
theorem fileRecords_longLineFile : fileRecords longLineFile = [] := by
  have hlong : MaxScanTokenSize ≤ byteLen (jsonMarshal "a".toList (List.replicate 65536 'x')) := by
    refine le_trans ?_ (byteLen_flatMap_escapeChar_le _ _)
    have hx : runeLen 'x' = 1 := by decide
    rw [flatMap_escapeChar_replicate, byteLen_replicate, hx, Nat.mul_one]
    exact Nat.le_refl 65536
  unfold fileRecords longLineFile scanLines
  rw [scanLinesAux_line _ _ _ (newline_not_mem_jsonMarshal _ _) [], List.reverse_nil,
    List.nil_append, if_pos hlong]
  rfl

/-- The records of `longLineFile`. -/
theorem readRecords_longLineFile :
    readRecords longLineFile =
      [("a".toList, List.replicate 65536 'x'), ("b".toList, "2".toList)] := by
  have h := readRecords_encode [("a".toList, List.replicate 65536 'x'), ("b".toList, "2".toList)]
  have ht : longLineFile =
      [("a".toList, List.replicate 65536 'x'), ("b".toList, "2".toList)].flatMap
        (fun e => jsonMarshal e.1 e.2 ++ ['\n']) := by
    unfold longLineFile
    simp only [List.flatMap_cons, List.flatMap_nil, List.append_nil, List.append_assoc,
      List.cons_append, List.nil_append]
  rw [ht]
  exact h

theorem inputRecords_longLineFS :
    inputRecords longLineFS ["sstable_1.db".toList, "sstable_2.db".toList] =
      [("c".toList, "3".toList)] := by
  have h2 : fileRecords (jsonMarshal "c".toList "3".toList ++ ['\n']) =
      [("c".toList, "3".toList)] := by decide
  unfold inputRecords
  rw [List.flatMap_cons, List.flatMap_cons, List.flatMap_nil,
    inputFileRecords_of_get _ _ _ longLineFS_get_first,
    inputFileRecords_of_get _ _ _ longLineFS_get_second, fileRecords_longLineFile, h2]
  rfl

theorem allRecords_longLineFS :
    allRecords longLineFS ["sstable_1.db".toList, "sstable_2.db".toList] =
      [("a".toList, List.replicate 65536 'x'), ("b".toList, "2".toList),
        ("c".toList, "3".toList)] := by
  have h2 : readRecords (jsonMarshal "c".toList "3".toList ++ ['\n']) =
      [("c".toList, "3".toList)] := by decide
  unfold allRecords
  rw [List.flatMap_cons, List.flatMap_cons, List.flatMap_nil,
    recordsAt_of_get _ _ _ longLineFS_get_first,
    recordsAt_of_get _ _ _ longLineFS_get_second, readRecords_longLineFile, h2]
  simp only [List.cons_append, List.nil_append, List.append_nil]

/-- The output of compacting the two files of `longLineFS` holds the record `c=3`
only. -/
theorem recordsAt_compacted_longLineFS :
    recordsAt (CompactSSTables false RangeOrder.stored longLineFS
      ["sstable_1.db".toList, "sstable_2.db".toList] "compacted.db".toList)
      "compacted.db".toList = [("c".toList, "3".toList)] := by
  rw [recordsAt_compacted false RangeOrder.stored longLineFS _ "compacted.db".toList
    (by decide) (by decide), inputRecords_longLineFS]
  rfl

/-- C6, as amended. For an ordered list of at least two input files, none of them the
destination and every line in them shorter than 64 KiB, reading any key from the
output of `CompactSSTables` gives the same result as applying all input records that
are not tombstones, in input order, to an empty map, a later record replacing an
earlier one; a tombstone is skipped and does not remove an earlier live record. -/
theorem compactSSTables_read (testMode : Bool) (ρ : RangeOrder) (fs : FS)
    (sstables : List Str) (compactionPath : Str) (k : Str) (h2 : 2 ≤ sstables.length)
    (hd : compactionPath ∉ sstables)
    (hshort : ∀ p ∈ sstables, ∀ l ∈ inputLines fs p, byteLen l < MaxScanTokenSize) :
    lookup k (recordsAt (CompactSSTables testMode ρ fs sstables compactionPath) compactionPath) =
      (liveMerge (allRecords fs sstables)).get k := by
  rw [lookup_compacted testMode ρ fs sstables compactionPath h2 hd k,
    inputRecords_eq_allRecords fs sstables hshort]
  unfold liveMerge
  rw [GoMap.get_foldl_set]
  cases lookup k (liveRecords (allRecords fs sstables)).reverse <;> rfl

/-- In the compaction test, reading `key1` from the output gives `value1`. -/
theorem compactSSTables_read_witness :
    lookup "key1".toList (recordsAt (CompactSSTables true RangeOrder.stored compactionTestFS
      compactionTestInputs "compacted_sstable.db".toList) "compacted_sstable.db".toList) =
      some "value1".toList :=
  (compactSSTables_read true RangeOrder.stored compactionTestFS compactionTestInputs
    "compacted_sstable.db".toList "key1".toList (by decide) (by decide) (by decide)).trans
    (by decide)

/-- C6 as stated fails, in three ways.  With `k=v` in the first input and the
tombstone `k=DELETE` in the second, the output of `CompactSSTables` still holds `k=v`,
while the merge the claim words, in which the tombstone replaces the live record,
holds no `k`.  With a first input whose first line is longer than 64 KiB, the scanner
stops there: the record `b=2` after that line is not in the output, though the merge
of all input records holds it.  With the destination among the inputs, the output is
removed with the inputs: reading `key1` gives nothing, though the merge holds it. -/
theorem compactSSTables_tombstone_after_live :
    (lookup "k".toList (recordsAt (CompactSSTables true RangeOrder.stored tombstoneAfterLiveFS
        ["sstable_1.db".toList, "sstable_2.db".toList] "compacted_sstable.db".toList)
        "compacted_sstable.db".toList) = some "v".toList ∧
      lookup "k".toList (specMerge (allRecords tombstoneAfterLiveFS
        ["sstable_1.db".toList, "sstable_2.db".toList])) = none) ∧
    (lookup "b".toList (recordsAt (CompactSSTables false RangeOrder.stored longLineFS
        ["sstable_1.db".toList, "sstable_2.db".toList] "compacted.db".toList)
        "compacted.db".toList) = none ∧
      lookup "b".toList (specMerge (allRecords longLineFS
        ["sstable_1.db".toList, "sstable_2.db".toList])) = some "2".toList) ∧
    (lookup "key1".toList (recordsAt (CompactSSTables true RangeOrder.stored compactionTestFS
        compactionTestInputs "sstable_3.db".toList) "sstable_3.db".toList) = none ∧
      lookup "key1".toList (specMerge (allRecords compactionTestFS compactionTestInputs)) =
        some "value1".toList) := by
  refine ⟨by decide, ⟨?_, ?_⟩, by decide⟩
  · rw [recordsAt_compacted_longLineFS]
    decide
  · rw [allRecords_longLineFS]
    decide

namespace SSTable

theorem agree_write (s : SSTable) (r : Str → Option Str) (key value : Str)
    (hc : s.closed = false) (h : s.Agree r) :
    (s.Write key value).1.Agree (Function.update r key (some value)) := by
  constructor
  · intro k v hk
    by_cases hkey : k = key
    · subst hkey
      rw [Function.update_same] at hk
      cases hk
      exact holds_write_self s k value hc
    · rw [Function.update_noteq hkey] at hk
      exact holds_write_ne s key value k v hc hkey (h.1 k v hk)
  · intro k hk
    by_cases hkey : k = key
    · subst hkey
      rw [Function.update_same] at hk
      cases hk
    · rw [Function.update_noteq hkey] at hk
      rw [write_open s key value hc]
      show (s.index.set key _).get k = none
      rw [GoMap.get_set_ne _ _ hkey]
      exact h.2 k hk

theorem agree_delete (ρ : RangeOrder) (s : SSTable) (r : Str → Option Str) (key : Str)
    (h : s.Agree r) : (s.Delete ρ key).1.Agree (Function.update r key none) := by
  constructor
  · intro k v hk
    by_cases hkey : k = key
    · subst hkey
      rw [Function.update_same] at hk
      cases hk
    · rw [Function.update_noteq hkey] at hk
      exact holds_delete ρ s key k v hkey (h.1 k v hk)
  · intro k hk
    rw [index_delete]
    by_cases hkey : k = key
    · rw [if_pos hkey]
    · rw [if_neg hkey]
      rw [Function.update_noteq hkey] at hk
      exact h.2 k hk

/-- Writing a list of pairs, as the flush callback does. -/
theorem agree_writeAll (l : List (Str × Str)) :
    ∀ (s : SSTable) (r : Str → Option Str), s.closed = false → s.Agree r →
      (l.foldl (fun s e => (s.Write e.1 e.2).1) s).closed = false ∧
      (l.foldl (fun s e => (s.Write e.1 e.2).1) s).Agree
        (l.foldl (fun (r : Str → Option Str) (e : Str × Str) =>
          Function.update r e.1 (some e.2)) r) := by
  induction l with
  | nil => intro s r hc h; exact ⟨hc, h⟩
  | cons e rest ih =>
    intro s r hc h
    rw [List.foldl_cons, List.foldl_cons]
    exact ih _ _ (by rw [closed_write]; exact hc) (agree_write s r e.1 e.2 hc h)

end SSTable

/-- Pairs that are already stored, or stored under `key`, change nothing outside `key`. -/
theorem foldl_update_of_stored (r0 : Str → Option Str) (key k : Str) (hk : k ≠ key)
    (l : List (Str × Str)) :
    ∀ (acc : Str → Option Str), (∀ e ∈ l, e.1 = key ∨ r0 e.1 = some e.2) → acc k = r0 k →
      (l.foldl (fun (r : Str → Option Str) (e : Str × Str) =>
        Function.update r e.1 (some e.2)) acc) k = r0 k := by
  induction l with
  | nil => intro acc _ h; exact h
  | cons e rest ih =>
    intro acc hl hacc
    rw [List.foldl_cons]
    refine ih _ (fun e' he' => hl e' (List.mem_cons_of_mem _ he')) ?_
    by_cases he : k = e.1
    · subst he
      rw [Function.update_same]
      rcases hl e (List.mem_cons_self _ _) with h1 | h1
      · exact absurd h1 hk
      · exact h1.symm
    · rw [Function.update_noteq he]
      exact hacc

theorem RangeOrder.order_nil (ρ : RangeOrder) {β : Type} : ρ.order ([] : List (Str × β)) = [] :=
  List.Perm.eq_nil (ρ.perm [])

theorem RangeOrder.mem_order (ρ : RangeOrder) {β : Type} (l : List (Str × β)) (e : Str × β) :
    e ∈ ρ.order l ↔ e ∈ l :=
  (ρ.perm l).mem_iff

theorem GoMap.get_set_fun {β : Type} (m : GoMap β) (k : Str) (v : β) :
    (m.set k v).get = Function.update m.get k (some v) := by
  funext k'
  by_cases h : k' = k
  · subst h
    rw [GoMap.get_set_self, Function.update_same]
  · rw [GoMap.get_set_ne _ _ h, Function.update_noteq h]

theorem GoMap.get_delete_fun {β : Type} (m : GoMap β) (k : Str) :
    (m.delete k).get = Function.update m.get k none := by
  funext k'
  by_cases h : k' = k
  · subst h
    rw [GoMap.get_delete_self, Function.update_same]
  · rw [GoMap.get_delete_ne _ h, Function.update_noteq h]

namespace Engine

theorem append_error (w : WAL) (key value : Str) :
    (w.Append key value).2 = true ↔ (key = [] ∨ value = []) := by
  unfold WAL.Append
  split_ifs with h1 h2 h3 <;> simp [h1]

/-- A rejected `Put` changes nothing. -/
theorem handleWrite_rejected (e : Engine) (key value : Str) (h : key = [] ∨ value = []) :
    (e.HandleWrite key value).1 = e := by
  unfold HandleWrite
  by_cases hk : key = []
  · rw [if_pos hk]
  · rw [if_neg hk, if_pos ((append_error e.wal key value).2 h)]

/-- An accepted `Put` keeps the invariant, for what is stored afterwards. -/
theorem inv_handleWrite (ρ : RangeOrder) (e : Engine) (r : Str → Option Str)
    (key value : Str) (hk : key ≠ []) (hv : value ≠ []) (h : Inv ρ e r) :
    Inv ρ (e.HandleWrite key value).1 (Function.update r key (some value)) := by
  obtain ⟨hc, hag, hmem, hf⟩ := h
  have herr : ¬ (e.wal.Append key value).2 = true := by
    rw [append_error]
    exact fun h1 => h1.elim hk hv
  unfold HandleWrite
  rw [if_neg hk, if_neg herr]
  unfold Memtable.Set Memtable.Flush
  dsimp only
  rw [hf]
  by_cases hfl : e.memtable.maxEntries ≤ ((e.memtable.data.set key value).len : Int)
  · rw [if_pos hfl]
    dsimp only [flushFunc]
    obtain ⟨hc2, hag2⟩ := SSTable.agree_writeAll
      ((e.memtable.data.set key value).range ρ) e.sstable r hc hag
    refine ⟨by rw [SSTable.closed_write]; exact hc2, ?_, ?_, rfl⟩
    · have hupd : Function.update
          (((e.memtable.data.set key value).range ρ).foldl
            (fun (r : Str → Option Str) (e : Str × Str) =>
              Function.update r e.1 (some e.2)) r) key (some value) =
          Function.update r key (some value) := by
        funext k
        by_cases hkk : k = key
        · subst hkk
          rw [Function.update_same, Function.update_same]
        · rw [Function.update_noteq hkk, Function.update_noteq hkk]
          refine foldl_update_of_stored r key k hkk _ r ?_ rfl
          intro p hp
          have hp2 : (p.1, p.2) ∈ (e.memtable.data.set key value).entries :=
            (ρ.mem_order _ p).1 hp
          have hp3 := (GoMap.get_eq_some_iff _ _ _).2 hp2
          rw [GoMap.get_set] at hp3
          by_cases hpk : p.1 = key
          · exact Or.inl hpk
          · rw [if_neg hpk] at hp3
            exact Or.inr (hmem _ _ hp3)
      rw [← hupd]
      exact SSTable.agree_write _ _ key value hc2 hag2
    · intro k v hkv
      cases hkv
  · rw [if_neg hfl]
    dsimp only
    refine ⟨by rw [SSTable.closed_write]; exact hc, SSTable.agree_write _ _ key value hc hag,
      ?_, rfl⟩
    intro k v hkv
    rw [GoMap.get_set] at hkv
    by_cases hkk : k = key
    · rw [if_pos hkk] at hkv
      rw [hkk, Function.update_same]
      exact hkv
    · rw [if_neg hkk] at hkv
      rw [Function.update_noteq hkk]
      exact hmem k v hkv

/-- `Delete` keeps the invariant, for what is stored afterwards. -/
theorem inv_delete (ρ : RangeOrder) (e : Engine) (r : Str → Option Str) (key : Str)
    (h : Inv ρ e r) : Inv ρ (e.Delete ρ key).1 (Function.update r key none) := by
  obtain ⟨hc, hag, hmem, hf⟩ := h
  refine ⟨by show (e.sstable.Delete ρ key).1.closed = false; rw [SSTable.closed_delete]; exact hc,
    SSTable.agree_delete ρ _ _ key hag, ?_, hf⟩
  intro k v hkv
  change (e.memtable.data.delete key).get k = some v at hkv
  rw [GoMap.get_delete] at hkv
  by_cases hkk : k = key
  · rw [if_pos hkk] at hkv
    cases hkv
  · rw [if_neg hkk] at hkv
    rw [Function.update_noteq hkk]
    exact hmem k v hkv

theorem inv_run (ρ : RangeOrder) (ops : List Op) :
    ∀ (e : Engine) (m : GoMap Str), Inv ρ e m.get →
      Inv ρ (run ρ e ops) (ops.foldl (fun m op =>
        match op with
        | Op.put key value => if key = [] ∨ value = [] then m else m.set key value
        | Op.delete key => m.delete key) m).get := by
  induction ops with
  | nil => intro e m h; exact h
  | cons op rest ih =>
    intro e m h
    show Inv ρ (run ρ (applyOp ρ e op) rest) _
    rw [List.foldl_cons]
    apply ih
    cases op with
    | put key value =>
      show Inv ρ (e.HandleWrite key value).1 (if key = [] ∨ value = [] then m else m.set key value).get
      by_cases hrej : key = [] ∨ value = []
      · rw [if_pos hrej, handleWrite_rejected e key value hrej]
        exact h
      · rw [if_neg hrej, GoMap.get_set_fun]
        push_neg at hrej
        exact inv_handleWrite ρ e _ key value hrej.1 hrej.2 h
    | delete key =>
      show Inv ρ (e.Delete ρ key).1 (m.delete key).get
      rw [GoMap.get_delete_fun]
      exact inv_delete ρ e _ key h

/-- Under the invariant a read returns what is stored. -/
theorem read_of_inv (ρ : RangeOrder) (e : Engine) (r : Str → Option Str) (key : Str)
    (h : Inv ρ e r) :
    e.Read key = match r key with
      | some v => Except.ok v
      | none => Except.error Err.keyNotFound := by
  obtain ⟨hc, hag, hmem, _⟩ := h
  unfold Read Memtable.Get
  cases hg : e.memtable.data.get key with
  | some v =>
    rw [hmem key v hg]
    rfl
  | none =>
    dsimp only
    rw [if_neg (by decide)]
    cases hr : r key with
    | some v => exact SSTable.read_of_holds _ key v hc (hag.1 key v hr)
    | none => exact SSTable.read_of_not_indexed _ key (hag.2 key hr)

/-- The engine `main` starts on no files. -/
theorem main_empty (ρ : RangeOrder) (testMode : Bool) (maxEntries : Int) :
    main ρ testMode maxEntries none none none =
      some { wal := WAL.NewWAL testMode none
             memtable := Memtable.NewMemtable maxEntries (some (flushFunc ρ))
             sstable := SSTable.fresh } := by
  have h1 : (WAL.NewWAL testMode none).Replay = (GoMap.empty, false) := rfl
  unfold main
  rw [h1]
  show some _ = _
  simp only [GoMap.range, GoMap.empty, ρ.order_nil, List.foldl_nil]
  rfl

end Engine

/-- What is stored after one more accepted `Put`: the pair, and the rest as before. -/
theorem Engine.stored_put (ops : List Engine.Op) (key value k : Str) (hk : key ≠ [])
    (hv : value ≠ []) :
    (Engine.stored (ops ++ [Engine.Op.put key value])).get k =
      if k = key then some value else (Engine.stored ops).get k := by
  unfold Engine.stored
  rw [List.foldl_append, List.foldl_cons, List.foldl_nil]
  dsimp only
  rw [if_neg (fun h => h.elim hk hv), GoMap.get_set]

/-- What is stored after one more `Delete`: nothing under the key, and the rest as
before. -/
theorem Engine.stored_delete (ops : List Engine.Op) (key k : Str) :
    (Engine.stored (ops ++ [Engine.Op.delete key])).get k =
      if k = key then none else (Engine.stored ops).get k := by
  unfold Engine.stored
  rw [List.foldl_append, List.foldl_cons, List.foldl_nil]
  exact GoMap.get_delete _ key k

/-- C1. Engine read-your-writes.  Start `main` on no files, with any `maxEntries`, in
either WAL mode and for any order in which maps are ranged, and serve any sequence of
`Put` and `Delete` requests: `Get(k)` then returns the value of the most recent
accepted `Put(k, v)` that no `Delete(k)` follows, and `ErrKeyNotFound` when there is
none (`Engine.stored`), also when a `Put` has made the Memtable flush. -/
theorem Engine.read_your_writes (ρ : RangeOrder) (testMode : Bool) (maxEntries : Int)
    (ops : List Engine.Op) (key : Str) :
    (Engine.main ρ testMode maxEntries none none none).map
        (fun e => (Engine.run ρ e ops).Read key) =
      some (match (Engine.stored ops).get key with
        | some v => Except.ok v
        | none => Except.error Err.keyNotFound) := by
  rw [Engine.main_empty, Option.map_some']
  refine congrArg some (Engine.read_of_inv ρ _ _ key ?_)
  refine Engine.inv_run ρ ops _ GoMap.empty ⟨rfl, ⟨?_, ?_⟩, ?_, rfl⟩
  · intro k v h; cases h
  · intro k _; rfl
  · intro k v h; cases h

/-! ## SSTable: delete -/

/-- C13. In every state of the SSTable, `Delete(k)` of an indexed key succeeds;
afterwards `Read(k)` fails with `ErrKeyNotFound`, `Read` of every other key returns
what it returned before, and the data file is unchanged. -/
theorem SSTable.delete_indexed (ρ : RangeOrder) (s : SSTable) (key : Str) (offset : Int)
    (h : s.index.get key = some offset) :
    (s.Delete ρ key).2 = none ∧
      (s.Delete ρ key).1.Read key = Except.error Err.keyNotFound ∧
      (∀ k, k ≠ key → (s.Delete ρ key).1.Read k = s.Read k) ∧
      (s.Delete ρ key).1.file = s.file := by
  refine ⟨?_, ?_, ?_, SSTable.file_delete ρ s key⟩
  · unfold SSTable.Delete
    rw [h]
  · refine SSTable.read_of_not_indexed _ key ?_
    rw [SSTable.index_delete, if_pos rfl]
  · intro k hk
    unfold SSTable.Read
    rw [SSTable.index_delete, if_neg hk, SSTable.closed_delete, SSTable.file_delete]

/-- The delete test: after `Write(a, 1)` and `Write(c, 3)`, `Delete(a)` succeeds,
`Read(a)` fails with `ErrKeyNotFound` and the other reads and the file stay. -/
theorem SSTable.delete_indexed_witness :
    (SSTable.rangeExample.Delete RangeOrder.stored "a".toList).2 = none ∧
      (SSTable.rangeExample.Delete RangeOrder.stored "a".toList).1.Read "a".toList =
        Except.error Err.keyNotFound ∧
      (∀ k, k ≠ "a".toList →
        (SSTable.rangeExample.Delete RangeOrder.stored "a".toList).1.Read k =
          SSTable.rangeExample.Read k) ∧
      (SSTable.rangeExample.Delete RangeOrder.stored "a".toList).1.file =
        SSTable.rangeExample.file :=
  SSTable.delete_indexed RangeOrder.stored SSTable.rangeExample "a".toList 0 (by decide)

/-- C14. In every state of the SSTable, `Delete(k)` returns `ErrKeyNotFound` exactly
when `k` is not in the in-memory index, and then the SSTable (index, index file and
data file) is unchanged. -/
theorem SSTable.delete_not_indexed (ρ : RangeOrder) (s : SSTable) (key : Str) :
    ((s.Delete ρ key).2 = some Err.keyNotFound ↔ s.index.get key = none) ∧
      (s.index.get key = none → (s.Delete ρ key).1 = s) := by
  unfold SSTable.Delete
  cases h : s.index.get key with
  | none => exact ⟨⟨fun _ => rfl, fun _ => rfl⟩, fun _ => rfl⟩
  | some off => exact ⟨⟨fun h1 => (by cases h1), fun h1 => (by cases h1)⟩, fun h1 => (by cases h1)⟩

/-! ## WAL: validation -/

/-- C15. `Append(key, value)` returns an error exactly when the key or the value is
empty, and then the WAL is unchanged: nothing goes to the file, the writer or the
queue. -/
theorem WAL.append_rejects_empty (w : WAL) (key value : Str) :
    ((w.Append key value).2 = true ↔ (key = [] ∨ value = [])) ∧
      ((w.Append key value).2 = true → (w.Append key value).1 = w) := by
  unfold WAL.Append
  split_ifs with h1 h2 h3 <;> simp [h1]

/-! ## Compaction: fewer than two candidates -/

/-- C18. With fewer than two input files, or fewer than two candidates among them,
`CompactSSTables` leaves the file system as it is: no file is created at the
destination and no input file is removed. -/
theorem compactSSTables_noop (testMode : Bool) (ρ : RangeOrder) (fs : FS)
    (sstables : List Str) (compactionPath : Str)
    (h : sstables.length < 2 ∨ (compactCandidates testMode sstables).length < 2) :
    CompactSSTables testMode ρ fs sstables compactionPath = fs := by
  have h2 : (compactCandidates testMode sstables).length < 2 := by
    rcases h with h | h
    · exact lt_of_le_of_lt (List.length_filter_le _ _) h
    · exact h
  unfold CompactSSTables
  rw [if_pos h2]

/-- Compaction of the single input `sstable_1.db` of the test files changes nothing. -/
theorem compactSSTables_noop_witness :
    CompactSSTables true RangeOrder.stored compactionTestFS ["sstable_1.db".toList]
      "compacted.db".toList = compactionTestFS :=
  compactSSTables_noop true RangeOrder.stored compactionTestFS ["sstable_1.db".toList]
    "compacted.db".toList (Or.inl (by decide))

/-! ## Memtable: map semantics -/

namespace Memtable

theorem set_of_lt {σ : Type} (m : Memtable σ) (key value : Str) (w : σ)
    (h : ((m.data.set key value).len : Int) < m.maxEntries) :
    m.Set key value w = ({ m with data := m.data.set key value }, w) := by
  unfold Set
  dsimp only
  rw [if_neg (not_le.2 h)]

theorem get_run_of_noFlush {σ : Type} (key : Str) (ops : List MemOp) :
    ∀ (m : Memtable σ) (w : σ), m.noFlush ops →
      (run (m, w) ops).1.data.get key = lastSet key (m.data.get key) ops := by
  induction ops with
  | nil => intro m w _; rfl
  | cons op rest ih =>
    intro m w h
    cases op with
    | set k v =>
      obtain ⟨h1, h2⟩ := h
      have hrun : run (m, w) (MemOp.set k v :: rest) =
          run ({ m with data := m.data.set k v }, w) rest := by
        show run (m.Set k v w) rest = _
        rw [set_of_lt m k v w h1]
      rw [hrun, ih _ w h2]
      show lastSet key ((m.data.set k v).get key) rest =
        lastSet key (if k = key then some v else m.data.get key) rest
      by_cases hk : k = key
      · rw [if_pos hk, ← hk, GoMap.get_set_self]
      · rw [if_neg hk, GoMap.get_set_ne _ _ (fun h3 => hk h3.symm)]
    | delete k =>
      have hrun : run (m, w) (MemOp.delete k :: rest) = run (m.Delete k, w) rest := rfl
      rw [hrun, ih _ w h]
      show lastSet key ((m.data.delete k).get key) rest =
        lastSet key (if k = key then none else m.data.get key) rest
      by_cases hk : k = key
      · rw [if_pos hk, ← hk, GoMap.get_delete_self]
      · rw [if_neg hk, GoMap.get_delete_ne _ (fun h3 => hk h3.symm)]

theorem lastSet_of_other_keys (key : Str) (ops : List MemOp) :
    ∀ (init : Option Str), (∀ op ∈ ops, MemOp.key op ≠ key) → lastSet key init ops = init := by
  induction ops with
  | nil => intro init _; rfl
  | cons op rest ih =>
    intro init h
    have h1 := h op (List.mem_cons_self _ _)
    have h2 : lastSetStep key init op = init := by
      cases op with
      | set k v => exact if_neg h1
      | delete k => exact if_neg h1
    show lastSet key (lastSetStep key init op) rest = init
    rw [h2]
    exact ih init (fun op hop => h op (List.mem_cons_of_mem _ hop))

end Memtable

/-- C19. For every Memtable, whatever it holds, and every sequence of `Set` and
`Delete` calls none of which makes it flush, `Get(k)` afterwards returns `(v, true)`
for the value of the most recent `Set(k, v)` that no `Delete(k)` follows, `("", false)`
when the most recent call on `k` is `Delete(k)`, and what the Memtable held under `k`
at the start (nothing, for a new Memtable) when no call was on `k`; in particular
calls on other keys do not change what `Get(k)` returns. -/
theorem Memtable.get_after_calls {σ : Type} (m : Memtable σ) (w : σ)
    (ops : List Memtable.MemOp) (key : Str) (h : m.noFlush ops) :
    (Memtable.run (m, w) ops).1.Get key =
        (match Memtable.lastSet key (m.data.get key) ops with
          | some v => (v, true)
          | none => ([], false)) ∧
      ((∀ op ∈ ops, Memtable.MemOp.key op ≠ key) →
        (Memtable.run (m, w) ops).1.Get key = m.Get key) := by
  have h1 := Memtable.get_run_of_noFlush key ops m w h
  constructor
  · unfold Memtable.Get
    rw [h1]
  · intro hk
    unfold Memtable.Get
    rw [h1, Memtable.lastSet_of_other_keys key ops _ hk]

/-- The Memtable test: `Set(key1, value1)`, `Set(key2, value2)`, `Delete(key1)` on a
new Memtable of capacity 1000, read at `key1`. -/
theorem Memtable.get_after_calls_witness :
    (Memtable.run (Memtable.NewMemtable 1000 none, ())
        [Memtable.MemOp.set "key1".toList "value1".toList,
          Memtable.MemOp.set "key2".toList "value2".toList,
          Memtable.MemOp.delete "key1".toList]).1.Get "key1".toList =
        (match Memtable.lastSet "key1".toList
            ((Memtable.NewMemtable 1000 none : Memtable Unit).data.get "key1".toList)
            [Memtable.MemOp.set "key1".toList "value1".toList,
              Memtable.MemOp.set "key2".toList "value2".toList,
              Memtable.MemOp.delete "key1".toList] with
          | some v => (v, true)
          | none => ([], false)) ∧
      ((∀ op ∈ [Memtable.MemOp.set "key1".toList "value1".toList,
          Memtable.MemOp.set "key2".toList "value2".toList,
          Memtable.MemOp.delete "key1".toList], Memtable.MemOp.key op ≠ "key1".toList) →
        (Memtable.run (Memtable.NewMemtable 1000 none, ())
          [Memtable.MemOp.set "key1".toList "value1".toList,
            Memtable.MemOp.set "key2".toList "value2".toList,
            Memtable.MemOp.delete "key1".toList]).1.Get "key1".toList =
          (Memtable.NewMemtable 1000 none : Memtable Unit).Get "key1".toList) :=
  Memtable.get_after_calls (Memtable.NewMemtable 1000 none) () _ "key1".toList
    ⟨by decide, by decide, trivial⟩

/-! ## SSTable: the index points at records -/

namespace SSTable

theorem indexed_holds_run (ρ : RangeOrder) (ops : List Op) :
    ∀ (s : SSTable), s.closed = false →
      (∀ k offset, s.index.get k = some offset → ∃ v, s.Holds k v) →
      ∀ k offset, (run ρ s ops).index.get k = some offset → ∃ v, (run ρ s ops).Holds k v := by
  induction ops with
  | nil => intro s _ h; exact h
  | cons op rest ih =>
    intro s hc h
    rw [run_cons]
    cases op with
    | write key value =>
      refine ih _ (by rw [applyOp, closed_write]; exact hc) ?_
      intro k offset hk
      by_cases hkey : k = key
      · subst hkey
        exact ⟨value, holds_write_self s k value hc⟩
      · have hk2 : (s.Write key value).1.index.get k = s.index.get k := by
          rw [write_open s key value hc]
          exact GoMap.get_set_ne _ _ hkey
        rw [applyOp, hk2] at hk
        obtain ⟨v, hv⟩ := h k offset hk
        exact ⟨v, holds_write_ne s key value k v hc hkey hv⟩
    | delete key =>
      refine ih _ (by rw [applyOp, closed_delete]; exact hc) ?_
      intro k offset hk
      rw [applyOp, index_delete] at hk
      by_cases hkey : k = key
      · rw [if_pos hkey] at hk
        cases hk
      · rw [if_neg hkey] at hk
        obtain ⟨v, hv⟩ := h k offset hk
        exact ⟨v, holds_delete ρ s key k v hkey hv⟩

end SSTable

/-- C20. Start from a new SSTable over an empty data file with no index file and
make any sequence of `Write` and `Delete` calls.  For every key `k` of the in-memory
index, the stored offset is the position in the data file of a complete line, ended
by a newline, that is the JSON record of `k` with some value: reading one line there
gives that record, and it decodes to the key `k`. -/
theorem SSTable.index_points_at_records (ρ : RangeOrder) (ops : List SSTable.Op) (key : Str)
    (offset : Int) (h : (SSTable.run ρ SSTable.fresh ops).index.get key = some offset) :
    ∃ value pre post, offset = (pre.length : Int) ∧
      (SSTable.run ρ SSTable.fresh ops).file = pre ++ (jsonMarshal key value ++ '\n' :: post) ∧
      readLine ((SSTable.run ρ SSTable.fresh ops).file.drop offset.toNat) =
        some (jsonMarshal key value ++ ['\n']) ∧
      lineRecord (jsonMarshal key value) = some (key, value) := by
  obtain ⟨value, pre, post, hi, hf⟩ := SSTable.indexed_holds_run ρ ops SSTable.fresh rfl
    (fun k offset hk => by cases hk) key offset h
  have ho : offset = (pre.length : Int) := by
    rw [h] at hi
    exact Option.some.inj hi
  refine ⟨value, pre, post, ho, hf, ?_, lineRecord_jsonMarshal key value⟩
  rw [ho, Int.toNat_ofNat, hf, List.drop_left]
  exact readLine_append _ _ (newline_not_mem_jsonMarshal key value)

/-- The write test: after `Write(txn123, status:approved)` on a new SSTable the index
entry of `txn123`, the offset 0, is the start of its record. -/
theorem SSTable.index_points_at_records_witness :
    ∃ value pre post, (0 : Int) = (pre.length : Int) ∧
      (SSTable.run RangeOrder.stored SSTable.fresh
        [SSTable.Op.write "txn123".toList "status:approved".toList]).file =
          pre ++ (jsonMarshal "txn123".toList value ++ '\n' :: post) ∧
      readLine ((SSTable.run RangeOrder.stored SSTable.fresh
        [SSTable.Op.write "txn123".toList "status:approved".toList]).file.drop (0 : Int).toNat) =
        some (jsonMarshal "txn123".toList value ++ ['\n']) ∧
      lineRecord (jsonMarshal "txn123".toList value) = some ("txn123".toList, value) :=
  SSTable.index_points_at_records RangeOrder.stored
    [SSTable.Op.write "txn123".toList "status:approved".toList] "txn123".toList 0 (by decide)

/-! ## The read path after `Memtable.Set` -/

namespace SSTable

/-- Writing a list of pairs that holds `(key, value)`, and no other pair under `key`,
leaves the index entry of `key` at a record with `value`, whatever the SSTable held. -/
theorem holds_writeAll (key value : Str) (l : List (Str × Str)) :
    ∀ (s : SSTable), s.closed = false → (s.Holds key value ∨ (key, value) ∈ l) →
      (∀ e ∈ l, e.1 = key → e.2 = value) →
      (l.foldl (fun s e => (s.Write e.1 e.2).1) s).closed = false ∧
        (l.foldl (fun s e => (s.Write e.1 e.2).1) s).Holds key value := by
  induction l with
  | nil =>
    intro s hc h _
    rcases h with h | h
    · exact ⟨hc, h⟩
    · exact absurd h (List.not_mem_nil _)
  | cons e rest ih =>
    intro s hc h hl
    rw [List.foldl_cons]
    refine ih _ (by rw [closed_write]; exact hc) ?_
      (fun e' he' => hl e' (List.mem_cons_of_mem _ he'))
    by_cases he : e.1 = key
    · left
      rw [hl e (List.mem_cons_self _ _) he, he]
      exact holds_write_self s key value hc
    · rcases h with h | h
      · exact Or.inl (holds_write_ne s e.1 e.2 key value hc (fun h1 => he h1.symm) h)
      · rcases List.mem_cons.1 h with h1 | h1
        · exact absurd (congrArg Prod.fst h1).symm he
        · exact Or.inr h1

end SSTable

/-- C11, the code where the claim fails.  On a Memtable of capacity 1, `Set(k, v)`
flushes and empties the Memtable, and the read falls through to the SSTable: with a
nil callback nothing was written there, and with the callback of `main` over a closed
SSTable the write failed; in both cases `Read(k)` fails with `ErrKeyNotFound`. -/
theorem Engine.read_after_flushing_set :
    (Engine.afterSet (Memtable.NewMemtable 1 none) SSTable.fresh (WAL.NewWAL true none)
      "k".toList "v".toList).Read "k".toList = Except.error Err.keyNotFound ∧
    (Engine.afterSet (Memtable.NewMemtable 1 (some (Engine.flushFunc RangeOrder.stored)))
      SSTable.fresh.Close (WAL.NewWAL true none)
      "k".toList "v".toList).Read "k".toList = Except.error Err.keyNotFound := by
  decide

/-- C11, amended.  For every Memtable state, every SSTable state and every pair
`(k, v)`: once `Memtable.Set(k, v)` has returned, `Read(k)` returns `v`, also after the
handler's own SSTable write whether it succeeded or not, provided the `Set` did not
flush the Memtable (it left fewer than `maxEntries` keys), or flushed it through the
callback of `main` into an open SSTable. -/
theorem Engine.read_after_set (ρ : RangeOrder) (m : Memtable (SSTable × WAL)) (s : SSTable)
    (w : WAL) (key value : Str)
    (h : ((m.data.set key value).len : Int) < m.maxEntries ∨
      (m.flushFunc = some (Engine.flushFunc ρ) ∧ s.closed = false)) :
    (Engine.afterSet m s w key value).Read key = Except.ok value ∧
      Engine.Read { Engine.afterSet m s w key value with
        sstable := ((Engine.afterSet m s w key value).sstable.Write key value).1 } key =
        Except.ok value := by
  by_cases hfl : m.maxEntries ≤ ((m.data.set key value).len : Int)
  · rcases h with h | ⟨hf, hc⟩
    · exact absurd hfl (not_le.2 h)
    · have hset : m.Set key value (s, w) =
          ({ m with data := GoMap.empty },
            Engine.flushFunc ρ (m.data.set key value) (s, w)) := by
        unfold Memtable.Set Memtable.Flush
        dsimp only
        rw [if_pos hfl, hf]
      obtain ⟨hc2, hh⟩ := SSTable.holds_writeAll key value
        ((m.data.set key value).range ρ) s hc
        (Or.inr ((ρ.mem_order _ _).2
          ((GoMap.get_eq_some_iff _ _ _).1 (GoMap.get_set_self m.data key value))))
        (fun e he hk => by
          have h1 : (e.1, e.2) ∈ (m.data.set key value).entries := (ρ.mem_order _ e).1 he
          have h2 := (GoMap.get_eq_some_iff _ _ _).2 h1
          rw [hk, GoMap.get_set_self] at h2
          exact (Option.some.inj h2).symm)
      unfold Engine.afterSet Engine.Read Memtable.Get
      rw [hset]
      dsimp only [Engine.flushFunc]
      refine ⟨?_, ?_⟩
      · rw [if_neg (by rw [GoMap.get_empty]; decide)]
        exact SSTable.read_of_holds _ key value hc2 hh
      · rw [if_neg (by rw [GoMap.get_empty]; decide)]
        exact SSTable.read_of_holds _ key value (by rw [SSTable.closed_write]; exact hc2)
          (SSTable.holds_write_self _ key value hc2)
  · have hset : m.Set key value (s, w) = ({ m with data := m.data.set key value }, (s, w)) :=
      Memtable.set_of_lt m key value (s, w) (not_le.1 hfl)
    unfold Engine.afterSet Engine.Read Memtable.Get
    rw [hset]
    dsimp only
    rw [GoMap.get_set_self]
    exact ⟨rfl, rfl⟩

/-- A `Set` on a new Memtable of capacity 1000 over a closed SSTable: the handler's
SSTable write fails and `Read` returns the value. -/
theorem Engine.read_after_set_witness :
    (Engine.afterSet (Memtable.NewMemtable 1000 none) SSTable.fresh.Close (WAL.NewWAL true none)
      "k".toList "v".toList).Read "k".toList = Except.ok "v".toList ∧
      Engine.Read { Engine.afterSet (Memtable.NewMemtable 1000 none) SSTable.fresh.Close
          (WAL.NewWAL true none) "k".toList "v".toList with
        sstable := ((Engine.afterSet (Memtable.NewMemtable 1000 none) SSTable.fresh.Close
          (WAL.NewWAL true none) "k".toList "v".toList).sstable.Write
            "k".toList "v".toList).1 } "k".toList = Except.ok "v".toList :=
  Engine.read_after_set RangeOrder.stored (Memtable.NewMemtable 1000 none) SSTable.fresh.Close
    (WAL.NewWAL true none) "k".toList "v".toList (Or.inl (by decide))

/-! ## Point range -/

/-- C12, the code at the failing input.  The Memtable holds `b` and the index of the
SSTable holds `c` only: `ReadKeyRange(b, b)` returns two pairs, `b` from the Memtable
and `c` from `ReadRange(b, b)`, whose slice `keys[startIdx : endIdx+1]` takes the key
at the search position of `b`. -/
theorem Engine.readKeyRange_point_two_pairs :
    (Engine.pointRangeExample.memtable.GetRange RangeOrder.stored "b".toList "b".toList).entries =
      [("b".toList, "2".toList)] ∧
    (Engine.pointRangeExample.sstable.ReadRange RangeOrder.stored "b".toList "b".toList).entries =
      [("c".toList, "3".toList)] ∧
    (Engine.ReadKeyRange RangeOrder.stored Engine.pointRangeExample "b".toList "b".toList).len = 2 ∧
    (Engine.ReadKeyRange RangeOrder.stored Engine.pointRangeExample "b".toList "b".toList).get
      "b".toList = some "2".toList ∧
    (Engine.ReadKeyRange RangeOrder.stored Engine.pointRangeExample "b".toList "b".toList).get
      "c".toList = some "3".toList := by
  decide

/-! ## Compaction: eligibility -/

/-- C17, the code where the claim fails.  Two input files hold one live record each,
under different keys: no record is tombstoned or overwritten.  Both files are
candidates, both are merged into the output and both are removed, in either mode. -/
theorem compactSSTables_merges_live_files :
    inputRecords liveOnlyFS ["sstable_1.db".toList, "sstable_2.db".toList] =
      [("a".toList, "1".toList), ("b".toList, "2".toList)] ∧
    compactCandidates false ["sstable_1.db".toList, "sstable_2.db".toList] =
      ["sstable_1.db".toList, "sstable_2.db".toList] ∧
    recordsAt (CompactSSTables false RangeOrder.stored liveOnlyFS
      ["sstable_1.db".toList, "sstable_2.db".toList] "compacted.db".toList)
      "compacted.db".toList = [("b".toList, "2".toList), ("a".toList, "1".toList)] ∧
    (CompactSSTables false RangeOrder.stored liveOnlyFS
      ["sstable_1.db".toList, "sstable_2.db".toList] "compacted.db".toList).get
      "sstable_1.db".toList = none ∧
    (CompactSSTables false RangeOrder.stored liveOnlyFS
      ["sstable_1.db".toList, "sstable_2.db".toList] "compacted.db".toList).get
      "sstable_2.db".toList = none ∧
    (CompactSSTables true RangeOrder.stored liveOnlyFS
      ["sstable_1.db".toList, "sstable_2.db".toList] "compacted.db".toList).get
      "sstable_1.db".toList = none := by
  decide

/-- C17, amended.  `calculateDeletedRatio` does not look at the file: it is 0.3, or
0.5 in test mode, for every file, and both exceed the threshold 0.1.  So every input
file is a candidate; with at least two input files every one of them is merged (the
output holds the merge of all the inputs) and removed, whatever its records. -/
theorem compactSSTables_all_inputs (testMode : Bool) (ρ : RangeOrder) (fs : FS)
    (sstables : List Str) (compactionPath : Str) (h : 2 ≤ sstables.length) :
    (∀ p, 1 < calculateDeletedRatio testMode p) ∧
      compactCandidates testMode sstables = sstables ∧
      (∀ p ∈ sstables,
        (CompactSSTables testMode ρ fs sstables compactionPath).get p = none) ∧
      (compactionPath ∉ sstables →
        (CompactSSTables testMode ρ fs sstables compactionPath).get compactionPath =
          some (encodeData ρ (liveMerge (inputRecords fs sstables)))) := by
  have hc : compactCandidates testMode sstables = sstables := by
    unfold compactCandidates
    refine List.filter_eq_self.2 (fun p _ => ?_)
    cases testMode <;> rfl
  refine ⟨fun p => by cases testMode <;> simp [calculateDeletedRatio], hc, ?_,
    fun hd => compactSSTables_output testMode ρ fs sstables compactionPath h hd⟩
  intro p hp
  unfold CompactSSTables
  rw [hc, if_neg (by omega)]
  exact get_foldl_delete_mem sstables p hp _

/-- The two files without tombstones, in production mode. -/
theorem compactSSTables_all_inputs_witness :
    (∀ p, 1 < calculateDeletedRatio false p) ∧
      compactCandidates false ["sstable_1.db".toList, "sstable_2.db".toList] =
        ["sstable_1.db".toList, "sstable_2.db".toList] ∧
      (∀ p ∈ ["sstable_1.db".toList, "sstable_2.db".toList],
        (CompactSSTables false RangeOrder.stored liveOnlyFS
          ["sstable_1.db".toList, "sstable_2.db".toList] "compacted.db".toList).get p = none) ∧
      ("compacted.db".toList ∉ ["sstable_1.db".toList, "sstable_2.db".toList] →
        (CompactSSTables false RangeOrder.stored liveOnlyFS
          ["sstable_1.db".toList, "sstable_2.db".toList] "compacted.db".toList).get
            "compacted.db".toList =
          some (encodeData RangeOrder.stored (liveMerge (inputRecords liveOnlyFS
            ["sstable_1.db".toList, "sstable_2.db".toList])))) :=
  compactSSTables_all_inputs false RangeOrder.stored liveOnlyFS
    ["sstable_1.db".toList, "sstable_2.db".toList] "compacted.db".toList (by decide)

/-! ## The index file -/

/-- The character of a decimal digit has the code of that digit. -/
theorem toNat_digit (d : Nat) (h : d < 10) : (Char.ofNat (48 + d)).toNat = 48 + d := by
  interval_cases d <;> rfl

theorem parseDigits_append (ds : Str) (h : ∀ c ∈ ds, 48 ≤ c.toNat ∧ c.toNat ≤ 57) (rest : Str) :
    ∀ a : Nat, ∃ b, parseDigits (ds ++ rest) a = parseDigits rest b ∧ parseDigits ds a = some b := by
  induction ds with
  | nil => intro a; exact ⟨a, rfl, rfl⟩
  | cons c cs ih =>
    intro a
    have hc := h c (List.mem_cons_self _ _)
    obtain ⟨b, hb1, hb2⟩ := ih (fun c' hc' => h c' (List.mem_cons_of_mem _ hc'))
      (a * 10 + (c.toNat - 48))
    refine ⟨b, ?_, ?_⟩
    · rw [List.cons_append, parseDigits, if_pos hc, hb1]
    · rw [parseDigits, if_pos hc, hb2]

/-- The digits `natDigits` writes: decimal digits, at least one, in front of `acc`,
and `parseDigits` reads the number back from them. -/
theorem natDigits_spec (fuel : Nat) :
    ∀ (n : Nat) (acc : Str), n < fuel →
      ∃ ds : Str, natDigits fuel n acc = ds ++ acc ∧ ds ≠ [] ∧
        (∀ c ∈ ds, 48 ≤ c.toNat ∧ c.toNat ≤ 57) ∧
        ∀ a, parseDigits ds a = some (a * 10 ^ ds.length + n) := by
  induction fuel with
  | zero => intro n acc h; omega
  | succ fuel ih =>
    intro n acc h
    by_cases hn : n < 10
    · refine ⟨[Char.ofNat (48 + n)], ?_, List.cons_ne_nil _ _, ?_, ?_⟩
      · rw [natDigits, if_pos hn]
        rfl
      · intro c hc
        rw [List.mem_singleton.1 hc, toNat_digit n hn]
        omega
      · intro a
        rw [parseDigits, toNat_digit n hn, if_pos (by omega), parseDigits]
        simp
    · obtain ⟨ds, h1, h2, h3, h4⟩ := ih (n / 10) (Char.ofNat (48 + n % 10) :: acc) (by omega)
      have hd : n % 10 < 10 := Nat.mod_lt _ (by decide)
      refine ⟨ds ++ [Char.ofNat (48 + n % 10)], ?_, ?_, ?_, ?_⟩
      · rw [natDigits, if_neg hn, h1, List.append_assoc]
        rfl
      · simp
      · intro c hc
        rcases List.mem_append.1 hc with hc | hc
        · exact h3 c hc
        · rw [List.mem_singleton.1 hc, toNat_digit _ hd]
          omega
      · intro a
        obtain ⟨b, hb1, hb2⟩ := parseDigits_append ds h3 [Char.ofNat (48 + n % 10)] a
        rw [h4 a] at hb2
        rw [hb1, ← Option.some.inj hb2, parseDigits, toNat_digit _ hd, if_pos (by omega),
          parseDigits, List.length_append, List.length_singleton, pow_succ]
        congr 1
        have := Nat.div_add_mod n 10
        have e : 48 + n % 10 - 48 = n % 10 := by omega
        rw [e]
        nlinarith [this]

theorem formatInt_spec (i : Int) (h0 : 0 ≤ i) :
    ∃ ds : Str, formatInt i = ds ∧ ds ≠ [] ∧ (∀ c ∈ ds, 48 ≤ c.toNat ∧ c.toNat ≤ 57) ∧
      parseDigits ds 0 = some i.natAbs := by
  obtain ⟨ds, h1, h2, h3, h4⟩ := natDigits_spec (i.natAbs + 1) i.natAbs [] (Nat.lt_succ_self _)
  refine ⟨ds, ?_, h2, h3, ?_⟩
  · unfold formatInt
    rw [if_neg (not_lt.2 h0), h1, List.append_nil]
  · rw [h4 0]
    simp

/-- `strconv.ParseInt` reads back what `%d` wrote for a non-negative `int64`. -/
theorem parseInt_formatInt (i : Int) (h0 : 0 ≤ i) (h1 : i < 2 ^ 63) :
    parseInt (formatInt i) = some i := by
  obtain ⟨ds, hf, hne, hd, hp⟩ := formatInt_spec i h0
  rw [hf]
  obtain ⟨c, cs, rfl⟩ := List.exists_cons_of_ne_nil hne
  have hc := hd c (List.mem_cons_self _ _)
  have hm : c ≠ '-' := by
    intro h
    rw [h] at hc
    exact absurd hc (by decide)
  have hpl : c ≠ '+' := by
    intro h
    rw [h] at hc
    exact absurd hc (by decide)
  have hlt : i.natAbs < 2 ^ 63 := by omega
  unfold parseInt
  dsimp only
  rw [if_neg hm, if_neg hpl, hp]
  dsimp only
  rw [if_pos hlt, Int.natAbs_of_nonneg h0]

theorem GoMap.get_foldl_set_any {β : Type} (entries : List (Str × β)) (k : Str) :
    ∀ data : GoMap β, (entries.foldl (fun d e => d.set e.1 e.2) data).get k =
      (lookup k entries.reverse).orElse (fun _ => data.get k) := by
  induction entries using List.reverseRecOn with
  | nil => intro data; rfl
  | append_singleton rest e ih =>
    intro data
    obtain ⟨a, b⟩ := e
    rw [List.foldl_append, List.foldl_cons, List.foldl_nil, List.reverse_append,
      List.reverse_singleton, List.singleton_append, lookup_cons, GoMap.get_set]
    by_cases h : k = a
    · rw [if_pos h, if_pos h.symm]
      rfl
    · rw [if_neg h, if_neg (fun h1 => h h1.symm)]
      exact ih data

namespace SSTable

/-- The loop of `loadIndex` on the lines `saveIndex` writes for entries whose keys
hold no `:` and whose offsets are non-negative `int64` values: every entry is stored. -/
theorem loadLines_saved (entries : List (Str × Int))
    (h : ∀ e ∈ entries, ':' ∉ e.1 ∧ 0 ≤ e.2 ∧ e.2 < 2 ^ 63) :
    ∀ index : GoMap Int,
      loadLines index (entries.map (fun e => e.1 ++ ':' :: formatInt e.2)) =
        entries.foldl (fun d e => d.set e.1 e.2) index := by
  induction entries with
  | nil => intro index; rfl
  | cons e rest ih =>
    intro index
    obtain ⟨h1, h2, h3⟩ := h e (List.mem_cons_self _ _)
    obtain ⟨ds, hf, _, hd, _⟩ := formatInt_spec e.2 h2
    have hcolon : ':' ∉ formatInt e.2 := by
      rw [hf]
      intro hc
      exact absurd (hd ':' hc) (by decide)
    rw [List.map_cons, List.foldl_cons, loadLines, WAL.cut_entry e.1 _ h1]
    dsimp only
    rw [if_neg hcolon, parseInt_formatInt e.2 h2 h3]
    exact ih (fun e' he' => h e' (List.mem_cons_of_mem _ he')) _

theorem dropCR_saved (key : Str) (offset : Int) (h : 0 ≤ offset) :
    dropCR (key ++ ':' :: formatInt offset) = key ++ ':' :: formatInt offset := by
  obtain ⟨ds, hf, hne, hd, _⟩ := formatInt_spec offset h
  unfold dropCR
  rw [WAL.getLast?_entry key _ (by rw [hf]; exact hne), hf, if_neg]
  intro hl
  exact absurd (hd '\r' (List.mem_of_getLast?_eq_some hl)) (by decide)

theorem newline_not_mem_saved (key : Str) (offset : Int) (h : 0 ≤ offset) (hk : '\n' ∉ key) :
    '\n' ∉ key ++ ':' :: formatInt offset := by
  obtain ⟨ds, hf, _, hd, _⟩ := formatInt_spec offset h
  intro hm
  rcases List.mem_append.1 hm with hm | hm
  · exact hk hm
  · rcases List.mem_cons.1 hm with hm | hm
    · exact absurd hm (by decide)
    · rw [hf] at hm
      exact absurd (hd '\n' hm) (by decide)

theorem saveIndex_lines (ρ : RangeOrder) (s : SSTable) :
    (saveIndex ρ s).indexFile = some (((s.index.range ρ).map
      (fun e => e.1 ++ ':' :: formatInt e.2)).flatMap (fun l => l ++ ['\n'])) := by
  unfold saveIndex
  dsimp only
  rw [List.flatMap_map]
  congr 2
  funext e
  simp only [List.append_assoc, List.cons_append]

end SSTable

/-- C16, the code where the claim fails.  The index holds one key of 65536
characters `a` (no `:` and no newline in it) at offset 0.  `saveIndex` writes the
line `key:0`, longer than the buffer of the scanner `loadIndex` makes with
`bufio.NewScanner`, and `loadIndex` returns the scanner's error. -/
theorem SSTable.reload_long_key :
    SSTable.longKeyExample.index.entries = [(List.replicate 65536 'a', 0)] ∧
      ':' ∉ List.replicate 65536 'a' ∧ '\n' ∉ List.replicate 65536 'a' ∧
      SSTable.reload RangeOrder.stored SSTable.longKeyExample = none := by
  refine ⟨rfl, ?_, ?_, ?_⟩
  · intro h
    exact absurd (List.eq_of_mem_replicate h) (by decide)
  · intro h
    exact absurd (List.eq_of_mem_replicate h) (by decide)
  · have hline : '\n' ∉ List.replicate 65536 'a' ++ [':', '0'] := by
      intro h
      rcases List.mem_append.1 h with h | h
      · exact absurd (List.eq_of_mem_replicate h) (by decide)
      · exact absurd h (by decide)
    have htext : (SSTable.saveIndex RangeOrder.stored SSTable.longKeyExample).indexFile =
        some ((List.replicate 65536 'a' ++ [':', '0']) ++ '\n' :: []) := by
      rw [SSTable.saveIndex_lines]
      have hr : SSTable.longKeyExample.index.range RangeOrder.stored =
          [(List.replicate 65536 'a', 0)] := rfl
      have hfmt : formatInt 0 = ['0'] := by decide
      rw [hr, List.map_singleton, List.flatMap_singleton]
      dsimp only
      rw [hfmt, List.append_assoc]
    have hscan : scanLines MaxScanTokenSize
        ((List.replicate 65536 'a' ++ [':', '0']) ++ '\n' :: []) = ([], true) := by
      unfold scanLines
      rw [scanLinesAux_line MaxScanTokenSize _ [] hline [], if_pos]
      have ha : runeLen 'a' = 1 := by decide
      rw [List.reverse_nil, List.nil_append, byteLen_append, byteLen_replicate, ha, Nat.mul_one]
      exact Nat.le_add_right 65536 _
    unfold SSTable.reload SSTable.loadIndex
    dsimp only
    rw [htext]
    dsimp only
    rw [hscan]
    rfl

/-- C16, amended.  For every in-memory index whose keys hold no `:` and no newline,
whose offsets are non-negative `int64` values, and whose lines `key:offset` are
shorter, in bytes, than the 64 KiB buffer of the scanner: `loadIndex`, into an empty index, of
the file `saveIndex` wrote succeeds and yields the same offset for every key, and no
entry for a key the index did not hold. -/
theorem SSTable.index_round_trip (ρ : RangeOrder) (s : SSTable)
    (h : ∀ e ∈ s.index.entries, ':' ∉ e.1 ∧ '\n' ∉ e.1 ∧ 0 ≤ e.2 ∧ e.2 < 2 ^ 63 ∧
      byteLen e.1 + byteLen (formatInt e.2) + 1 < MaxScanTokenSize) :
    ∃ t, SSTable.reload ρ s = some t ∧ ∀ k, t.index.get k = s.index.get k := by
  have hr : ∀ e ∈ s.index.range ρ, ':' ∉ e.1 ∧ '\n' ∉ e.1 ∧ 0 ≤ e.2 ∧ e.2 < 2 ^ 63 ∧
      byteLen e.1 + byteLen (formatInt e.2) + 1 < MaxScanTokenSize :=
    fun e he => h e ((ρ.mem_order _ e).1 he)
  have hscan : scanLines MaxScanTokenSize (((s.index.range ρ).map
      (fun e => e.1 ++ ':' :: formatInt e.2)).flatMap (fun l => l ++ ['\n'])) =
      ((s.index.range ρ).map (fun e => e.1 ++ ':' :: formatInt e.2), false) := by
    rw [scanLines_lines]
    · congr 1
      rw [List.map_map]
      refine List.map_congr_left (fun e he => ?_)
      exact SSTable.dropCR_saved e.1 e.2 (hr e he).2.2.1
    · intro l hl
      obtain ⟨e, he, rfl⟩ := List.mem_map.1 hl
      obtain ⟨_, h2, h3, _, h5⟩ := hr e he
      refine ⟨SSTable.newline_not_mem_saved e.1 e.2 h3 h2, ?_⟩
      rw [byteLen_append, byteLen]
      show byteLen e.1 + (1 + byteLen (formatInt e.2)) < MaxScanTokenSize
      omega
  refine ⟨{ SSTable.saveIndex ρ s with
      index := (s.index.range ρ).foldl (fun d e => d.set e.1 e.2) GoMap.empty }, ?_, ?_⟩
  · unfold SSTable.reload SSTable.loadIndex
    dsimp only
    rw [SSTable.saveIndex_lines]
    dsimp only
    rw [hscan]
    dsimp only
    rw [if_neg (by decide), SSTable.loadLines_saved _ (fun e he =>
      ⟨(hr e he).1, (hr e he).2.2.1, (hr e he).2.2.2.1⟩)]
  · intro k
    show ((s.index.range ρ).foldl (fun d e => d.set e.1 e.2) GoMap.empty).get k = _
    rw [GoMap.get_foldl_set_any]
    have hperm : (s.index.range ρ).reverse.Perm s.index.entries :=
      (List.reverse_perm _).trans (ρ.perm _)
    have hnodup : ((s.index.range ρ).reverse.map Prod.fst).Nodup :=
      (hperm.map Prod.fst).nodup_iff.2 s.index.nodup
    rw [lookup_perm k hperm hnodup]
    show (s.index.get k).orElse _ = _
    cases s.index.get k <;> rfl

/-- The index after `Write(a, 1)` and `Write(c, 3)` is loaded back as it was saved. -/
theorem SSTable.index_round_trip_witness :
    ∃ t, SSTable.reload RangeOrder.stored SSTable.rangeExample = some t ∧
      ∀ k, t.index.get k = SSTable.rangeExample.index.get k :=
  SSTable.index_round_trip RangeOrder.stored SSTable.rangeExample (by decide)

/-! ## Restart and reopen -/

/-- C21, the code at the failing input.  Start the server on no files (synchronous
log), `Put(k, v)` (status 201), `Delete(k)` (no error): `Get(k)` is `ErrKeyNotFound`.
`Delete` wrote nothing to the log, which still holds the line `k:v` and nothing in
the writer or the queue; `Replay` maps `k` to `v`, and after the restart `Get(k)`
returns `v`. -/
theorem Engine.delete_undone_by_restart :
    (Engine.main RangeOrder.stored true 1000 none none none).map
        (fun e => (e.HandleWrite "k".toList "v".toList).2) = some 201 ∧
      (Engine.served [Engine.Op.put "k".toList "v".toList]).map
        (fun e => (e.Delete RangeOrder.stored "k".toList).2) = some none ∧
      (Engine.served [Engine.Op.put "k".toList "v".toList, Engine.Op.delete "k".toList]).map
        (fun e => e.Read "k".toList) = some (Except.error Err.keyNotFound) ∧
      (Engine.served [Engine.Op.put "k".toList "v".toList, Engine.Op.delete "k".toList]).map
        (fun e => (e.wal.file, e.wal.buffered, e.wal.logQueue)) = some ("k:v\n".toList, 0, []) ∧
      (Engine.served [Engine.Op.put "k".toList "v".toList, Engine.Op.delete "k".toList]).map
        (fun e => (e.wal.Replay.1.get "k".toList, e.wal.Replay.2)) =
          some (some "v".toList, false) ∧
      (Engine.servedRestarted
        [Engine.Op.put "k".toList "v".toList, Engine.Op.delete "k".toList]).map
        (fun e => e.Read "k".toList) = some (Except.ok "v".toList) := by
  decide

/-- C22, the code at the failing inputs.  For every key and value: `Write(k, v)` on a
new SSTable succeeds and `Read(k)` returns `v`; `Write` and `Close` do not write the
index file, so `NewSSTable` on the same path loads no index and `Read(k)` fails with
`ErrKeyNotFound`. -/
theorem SSTable.write_lost_by_reopen (key value : Str) :
    (SSTable.fresh.Write key value).2 = none ∧
      (SSTable.fresh.Write key value).1.Read key = Except.ok value ∧
      (SSTable.fresh.Write key value).1.Close.indexFile = none ∧
      (SSTable.fresh.Write key value).1.Close.reopen.map (fun t => t.Read key) =
        some (Except.error Err.keyNotFound) := by
  refine ⟨rfl, ?_, rfl, rfl⟩
  exact SSTable.read_of_holds _ key value rfl (SSTable.holds_write_self _ key value rfl)

/-- C23, the code at the failing inputs.  The Memtable holds `k = new` and the SSTable
`k = old`: `Read(k)` returns `new`, from the Memtable, and `ReadKeyRange(k, k)` holds
the pair `(k, old)`, the SSTable's result being stored over the Memtable's.  The
server reaches such a state: `Put(k, old)`, `Put(x, y)`, `Delete(x)` (which saves the
index), `Put(k, new)` and a restart. -/
theorem Engine.readKeyRange_stale_value :
    Engine.staleExample.Read "k".toList = Except.ok "new".toList ∧
      (Engine.ReadKeyRange RangeOrder.stored Engine.staleExample "k".toList "k".toList).entries =
        [("k".toList, "old".toList)] ∧
      (Engine.servedRestarted
        [Engine.Op.put "k".toList "old".toList, Engine.Op.put "x".toList "y".toList,
          Engine.Op.delete "x".toList, Engine.Op.put "k".toList "new".toList]).map
        (fun e => (e.Read "k".toList,
          (Engine.ReadKeyRange RangeOrder.stored e "k".toList "k".toList).entries)) =
        some (Except.ok "new".toList, [("k".toList, "old".toList)]) := by
  decide

end KVStore



